import Mathlib

/-!
Verification development for the vargas SIMD Smith-Waterman graph aligner
(`alignment.h`, with `scoring.cpp` for the score profile).

Modelling conventions.

* The lane type `native_t` (int8_t / int16_t) is modelled by a pair of
  integer bounds `LaneTy` with explicit clamping; every SIMD add/sub in the
  source is saturating on the lane type.  The SIMD header itself is not part
  of the provided sources, so the lane-vector operations are modelled from
  the specification, section 4.1: all operations are lane-parallel
  (saturating add/sub against a broadcast scalar, lanewise max and equality,
  `blend(mask, a, b)` selecting per lane, `any()` used only to skip per-lane
  loops whose bodies re-check the mask, so it has no semantic effect).
  A SIMD vector of `n` lanes is a length-`n` list of integers.
* The per-lane tracker arrays (`_max_score`, `_max_pos`, `_max_count`,
  `_sub_score`, `_sub_pos`, `_sub_count`, `_cor_flag`) are transposed into a
  single length-`n` list of `LaneTrack` records; this is the same data,
  indexed lane first instead of field first.
* `size_t` subtraction in `x - _prof.tol` wraps modulo 2^64; this is kept
  (`sizeSub`).  Positions and the `std::sort` sentinel: the target subrange
  is padded with entries whose position is `INT_MAX`; we model the array as
  the sorted list of the real entries, which is faithful whenever every
  node position is below `INT_MAX` (always the case for genomic
  coordinates).  `std::sort` on ties is unspecified; we use a stable
  insertion sort, one of the permitted outcomes, and no result below
  depends on the tie order (equal-position targets are consumed together).
* The graph is the stream of nodes the iterator yields, in order, each with
  its id, end position, sequence, predecessor-id list and pinched flag.
* C++ exceptions (`std::domain_error` from `_get_bias` and `_get_seed`)
  become `Except Unit`.
-/

namespace Vargas

/-- Bounds of the native lane type (`std::numeric_limits<native_t>`). -/
structure LaneTy where
  minv : Int
  maxv : Int

/-- The `int8_t` lane type used by `Aligner` / `AlignerETE`. -/
def int8 : LaneTy := ⟨-128, 127⟩

/-- The `int16_t` lane type used by `WordAligner` / `WordAlignerETE`. -/
def int16 : LaneTy := ⟨-32768, 32767⟩

/-- Clamp an integer into the representable range of the lane type:
the result of every saturating SIMD add/sub. -/
def sat (t : LaneTy) (x : Int) : Int := max t.minv (min t.maxv x)

/-- The five-letter base alphabet `rg::Base`. -/
inductive Base where
  | A | C | G | T | N
deriving DecidableEq, Repr

/-- `vargas::ScoreProfile` (its definition lives in `scoring.h`, outside the
provided sources; fields and meaning are those used by `alignment.h` and
`scoring.cpp`: match/mismatch/ambig scores, per-side affine gap parameters,
the end-to-end flag and the correctness tolerance). -/
structure ScoreProfile where
  match_ : Nat
  mismatch : Nat
  ambig : Nat
  read_gopen : Nat
  read_gext : Nat
  ref_gopen : Nat
  ref_gext : Nat
  end_to_end : Bool
  tol : Nat
deriving DecidableEq, Repr

/-- The four-argument `ScoreProfile(match, mismatch, open, extend)`
constructor: both gap sides get the same open/extend costs.  The alignment
test cases (reads containing `N` scoring 0 for those bases) fix the default
ambiguous penalty at 0; the default tolerance is irrelevant because every
aligner constructor overwrites it. -/
def mkProfile4 (m mm op ex : Nat) : ScoreProfile :=
  { match_ := m, mismatch := mm, ambig := 0,
    read_gopen := op, read_gext := ex, ref_gopen := op, ref_gext := ex,
    end_to_end := false, tol := 0 }

/-- The six-argument `ScoreProfile(match, mismatch, rd_open, rd_extend,
ref_open, ref_extend)` constructor. -/
def mkProfile6 (m mm rdo rde rfo rfe : Nat) : ScoreProfile :=
  { match_ := m, mismatch := mm, ambig := 0,
    read_gopen := rdo, read_gext := rde, ref_gopen := rfo, ref_gext := rfe,
    end_to_end := false, tol := 0 }

/-- `AlignerT::_get_bias`.  Throws (`InsufficientPrecision`) exactly when
`read_len * match > max - min` of the lane type.  In local mode the bias is
the type's minimum.  In end-to-end mode the source computes
`max - read_len * match` in unsigned arithmetic and converts back to the
lane type; under the guard `read_len * match ≤ max - min` that conversion
is value-preserving (the result lies in `[min, max]`), so the model returns
the integer `max - read_len * match` directly.  The saturation warning is a
diagnostic on `stderr` with no effect on the result. -/
def getBias (t : LaneTy) (ete : Bool) (read_len m : Nat) : Except Unit Int :=
  if (read_len * m : Nat) > (t.maxv - t.minv).toNat then .error ()
  else if ete then .ok (t.maxv - read_len * m) else .ok t.minv

/-- The state `set_scores` leaves behind: the stored profile and the bias.
The broadcast score vectors are recomputed from the profile at use sites. -/
structure AlignerState where
  prof : ScoreProfile
  bias : Int
deriving Repr

/-- `AlignerT::set_scores(const ScoreProfile&)`: stores the profile but
overwrites its `end_to_end` field with the compile-time template flag
`END_TO_END`, recomputes the bias (which may throw), and finally calls
`set_correctness_tolerance(prof.tol)`. -/
def setScores (t : LaneTy) (ete : Bool) (read_len : Nat) (prof : ScoreProfile) :
    Except Unit AlignerState :=
  match getBias t ete read_len prof.match_ with
  | .error e => .error e
  | .ok b => .ok { prof := { prof with end_to_end := ete, tol := prof.tol }, bias := b }

/-- `AlignerT::set_correctness_tolerance`. -/
def setCorrectnessTolerance (st : AlignerState) (tol : Nat) : AlignerState :=
  { st with prof := { st.prof with tol := tol } }

/-- `DEFAULT_TOL_FACTOR`. -/
def DEFAULT_TOL_FACTOR : Nat := 4

/-- The `AlignerT(read_len, prof)` constructor: `set_scores(prof)` (which may
throw) followed by `set_correctness_tolerance(read_len / DEFAULT_TOL_FACTOR)`. -/
def mkAligner (t : LaneTy) (ete : Bool) (read_len : Nat) (prof : ScoreProfile) :
    Except Unit AlignerState :=
  match setScores t ete read_len prof with
  | .error e => .error e
  | .ok st => .ok (setCorrectnessTolerance st (read_len / DEFAULT_TOL_FACTOR))

/-- `size_t` subtraction `x - y` (used for `target - tol`): wraps modulo
2^64 when `y > x`.  Faithful for operands below 2^64. -/
def sizeSub (x y : Nat) : Nat := if y ≤ x then x - y else x + 2 ^ 64 - y

/-! ### Lane vectors -/

/-- A SIMD vector: one integer per lane.  The driver keeps every vector at
exactly `n` lanes. -/
abbrev Vec : Type := List Int

/-- Lanewise maximum of two vectors. -/
def vmax (a b : Vec) : Vec := List.zipWith max a b

/-- Saturating lanewise subtraction of a broadcast scalar. -/
def vsub (t : LaneTy) (a : Vec) (k : Nat) : Vec :=
  a.map (fun x => sat t (x - (k : Int)))

/-- Broadcast a scalar to every lane. -/
def broadcast (n : ℕ) (x : Int) : Vec := List.replicate n x

/-- Single-lane read `v.at(i)` (in-range for every driver access). -/
def lane (v : Vec) (i : Nat) : Int := v.getD i 0

/-- Row access into a column (a `SIMDVector`); the driver keeps every column
at length `read_len + 1`, so reads are always in range. -/
def getv (S : List Vec) (r : Nat) : Vec := S.getD r []

/-! ### Score tracker (`_fill_cell_finish`) -/

/-- Per-lane tracker state: one lane's slice of `_max_score`, `_sub_score`,
`_max_pos`, `_sub_pos`, `_max_count`, `_sub_count`, `_cor_flag`. -/
structure LaneTrack where
  maxScore : Int
  subScore : Int
  maxPos : Nat
  subPos : Nat
  maxCount : Int
  subCount : Int
  corFlag : Nat
deriving DecidableEq, Repr

/-- First block of `_fill_cell_finish` (equal-to-max, AUX only): on lanes
where `S = max_score`, bump `max_count` when the cell is more than a read
length past `max_pos`, move `max_pos` to the cell, and set the correctness
flag when the cell is inside the target window. -/
def rule1 (L lo hi : Nat) (lt : LaneTrack) (s : Int) (pos : Nat) : LaneTrack :=
  if s = lt.maxScore then
    { lt with
      maxCount := if pos > lt.maxPos + L then lt.maxCount + 1 else lt.maxCount,
      maxPos := pos,
      corFlag := if lo ≤ pos ∧ pos ≤ hi then 1 else lt.corFlag }
  else lt

/-- Second block of `_fill_cell_finish` (greater-than-max): the SIMD update
`_max_score = max(S, _max_score)` happens before the per-lane loop, so the
demotion stores the already-updated maximum (that is, `S` itself) into
`sub_score`; the old position and count are demoted, the flag is upgraded
1 → 2 or cleared; then `max_count`/`max_pos` are reset and the flag
re-judged against the target window. -/
def rule2 (L lo hi : Nat) (lt : LaneTrack) (s : Int) (pos : Nat) : LaneTrack :=
  if s > lt.maxScore then
    let newMax := max s lt.maxScore
    let d :=
      if pos > lt.maxPos + L then
        { lt with subScore := newMax, subPos := lt.maxPos, subCount := lt.maxCount,
                  corFlag := if lt.corFlag = 1 then 2 else 0 }
      else lt
    let d2 := { d with maxScore := newMax, maxCount := 1, maxPos := pos }
    if lo ≤ pos ∧ pos ≤ hi then { d2 with corFlag := 1 }
    else if d2.corFlag = 1 then { d2 with corFlag := 0 } else d2
  else lt

/-- Third block of `_fill_cell_finish` (equal-to-sub, AUX only). -/
def rule3 (L lo hi : Nat) (lt : LaneTrack) (s : Int) (pos : Nat) : LaneTrack :=
  if s = lt.subScore ∧ pos > lt.maxPos + L then
    { lt with
      subCount := lt.subCount + (if pos > lt.subPos + L then 1 else 0),
      subPos := pos,
      corFlag := if lo ≤ pos ∧ pos ≤ hi then 2 else lt.corFlag }
  else lt

/-- Fourth block of `_fill_cell_finish` (strictly between sub and max,
AUX only). -/
def rule4 (L lo hi : Nat) (lt : LaneTrack) (s : Int) (pos : Nat) : LaneTrack :=
  if s > lt.subScore ∧ s < lt.maxScore ∧ pos > lt.maxPos + L then
    { lt with subScore := s, subCount := 1, subPos := pos,
              corFlag := if lo ≤ pos ∧ pos ≤ hi then 2
                         else if lt.corFlag = 1 then 1 else 0 }
  else lt

/-- One lane of `_fill_cell_finish`: the four blocks in source order.  The
vectorized `any()` guards only skip loops whose bodies re-check the lane
mask, so they are semantically transparent. -/
def cellFinishLane (L lo hi : Nat) (lt : LaneTrack) (s : Int) (pos : Nat) : LaneTrack :=
  rule4 L lo hi (rule3 L lo hi (rule2 L lo hi (rule1 L lo hi lt s pos) s pos) s pos) s pos

/-- Static alignment parameters of one `align` call: lane count, lane type,
read length, the template flag `END_TO_END`, the profile and bias installed
by `set_scores`, and the per-lane target windows computed by `align_into`. -/
structure Params where
  n : ℕ
  t : LaneTy
  L : Nat
  ete : Bool
  prof : ScoreProfile
  bias : Int
  lows : List Nat
  highs : List Nat

/-- The per-lane loops of `_fill_cell_finish`, from lane `k` on. -/
def cellFinishFrom (P : Params) (s : Vec) (pos : Nat) : Nat → List LaneTrack → List LaneTrack
  | _, [] => []
  | k, lt :: rest =>
    cellFinishLane P.L (P.lows.getD k 0) (P.highs.getD k 0) lt (lane s k) pos ::
      cellFinishFrom P s pos (k + 1) rest

/-- `_fill_cell_finish` across the lanes. -/
def cellFinish (P : Params) (tr : List LaneTrack) (s : Vec) (pos : Nat) :
    List LaneTrack :=
  cellFinishFrom P s pos 0 tr

/-! ### Cell and node fill -/

/-- Per-lane score of the match/mismatch/ambiguous blend in `_fill_cell`:
`ref ≠ N` selects `blend(read = N, -ambig, blend(read = ref, match,
-mismatch))`, otherwise the ambiguous penalty applies outright. -/
def cellScore (p : ScoreProfile) (rb refb : Base) : Int :=
  if refb ≠ Base.N then
    (if rb = Base.N then -(p.ambig : Int)
     else if rb = refb then (p.match_ : Int) else -(p.mismatch : Int))
  else -(p.ambig : Int)

/-- The `_Sd + blend(...)` vector: saturating add of the per-lane blend
outcome to the stored diagonal. -/
def diagVec (P : Params) (Sd : Vec) (rb : List Base) (refb : Base) : Vec :=
  List.zipWith (fun sd b => sat P.t (sd + cellScore P.prof b refb)) Sd rb

/-- The row loop of `_fill_node` over `_fill_cell`.  Arguments after the
packaged reads: current row, `_S`, `_Ic`, `_Dc[row-1]` (`_Dc[0]` is the
bias), `_Sd`, tracker.  Each step computes the affine-gap maxima with
saturating arithmetic, stores `_Sd ← old S[row]` for the next diagonal,
writes `S[row]`, and in local mode invokes `_fill_cell_finish` on the
freshly written row. -/
def fillRows (P : Params) (refb : Base) (pos : Nat) :
    List (List Base) → Nat → List Vec → List Vec → Vec → Vec →
    List LaneTrack → List Vec × List Vec × List LaneTrack
  | [], _, S, Ic, _, _, tr => (S, Ic, tr)
  | rb :: rest, r, S, Ic, Dp, Sd, tr =>
    let Dr := vmax (vsub P.t Dp P.prof.ref_gext)
                   (vsub P.t (getv S (r - 1)) (P.prof.ref_gopen + P.prof.ref_gext))
    let Ir := vmax (vsub P.t (getv Ic r) P.prof.read_gext)
                   (vsub P.t (getv S r) (P.prof.read_gopen + P.prof.read_gext))
    let sr := diagVec P Sd rb refb
    let Sd' := getv S r
    let Snew := vmax Ir (vmax Dr sr)
    let tr' := if P.ete then tr else cellFinish P tr Snew pos
    fillRows P refb pos rest (r + 1) (S.set r Snew) (Ic.set r Ir) Dr Sd' tr'

/-- One column `c` of `_fill_node`: `_Sd ← bias`, run the rows from 1, and
in end-to-end mode invoke `_fill_cell_finish` on row `L` only. -/
def fillColumn (P : Params) (readsP : List (List Base)) (refb : Base)
    (pos : Nat) (S Ic : List Vec) (tr : List LaneTrack) :
    List Vec × List Vec × List LaneTrack :=
  let o := fillRows P refb pos readsP 1 S Ic (broadcast P.n P.bias)
             (broadcast P.n P.bias) tr
  let tr' := if P.ete then cellFinish P o.2.2 (getv o.1 P.L) pos else o.2.2
  (o.1, o.2.1, tr')

/-- Rows eligible for target-score recording: `read_len` only in end-to-end
mode, `1 .. read_len` otherwise. -/
def rowsList (P : Params) : List Nat :=
  if P.ete then [P.L] else (List.range P.L).map (· + 1)

/-- Accumulate `std::max<int>(score, _S[q].at(idx))` over the eligible rows. -/
def eligUpdate (P : Params) (S : List Vec) (i : Nat) (cur : Int) : Int :=
  (rowsList P).foldl (fun a q => max a (lane (getv S q) i)) cur

/-- The `while (_target_subrange[csp].pos == curr_pos)` loop: consume the
leading sorted target entries at the current column position, folding the
eligible-row maximum into each entry's score slot (scores are stored per
lane because each lane owns exactly one entry). -/
def consumeTargets (P : Params) (pos : Nat) (S : List Vec) :
    List (Nat × Nat) → List Int → List (Nat × Nat) × List Int
  | [], tsc => ([], tsc)
  | e :: rest, tsc =>
    if e.2 = pos then
      consumeTargets P pos S rest (tsc.set e.1 (eligUpdate P S e.1 (tsc.getD e.1 0)))
    else (e :: rest, tsc)

/-- A graph node as seen through the iterator: id, 1-indexed position of its
last base, sequence, incoming predecessor ids, pinched flag. -/
structure GNode where
  id : Nat
  endPos : Nat
  seq : List Base
  preds : List Nat
  pinched : Bool

/-- A `_seed`: the final `S` and `I` columns of a node fill. -/
structure SeedCols where
  S : List Vec
  I : List Vec
deriving DecidableEq

/-- The column loop of `_fill_node` (non-empty sequence): fill a column,
consume matching target entries against the freshly written `_S`, advance
the position; a ghost trace of `(position, S column)` pairs is appended for
specification purposes only (nothing reads it back). -/
def fillCols (P : Params) (readsP : List (List Base)) :
    List Base → Nat → List Vec → List Vec → List LaneTrack →
    List (Nat × Nat) → List Int → List (Nat × List Vec) →
    List Vec × List Vec × List LaneTrack × List Int × List (Nat × List Vec)
  | [], _, S, Ic, tr, _, tsc, trace => (S, Ic, tr, tsc, trace)
  | b :: rest, pos, S, Ic, tr, rem, tsc, trace =>
    let o := fillColumn P readsP b pos S Ic tr
    let ct := consumeTargets P pos o.1 rem tsc
    fillCols P readsP rest (pos + 1) o.1 o.2.1 o.2.2 ct.1 ct.2 (trace ++ [(pos, o.1)])

/-- `AlignerT::_fill_node`: an empty node forwards its seed unchanged;
otherwise the first column sits at `end_pos - |seq| + 2` (1-indexed), the
target pointer first skips entries before the node, and the columns are
filled left to right.  Returns the outgoing seed, tracker, target scores
and ghost trace. -/
def fillNode (P : Params) (readsP : List (List Base)) (nd : GNode)
    (sd : SeedCols) (tr : List LaneTrack) (tsc : List Int)
    (sortedT : List (Nat × Nat)) (trace : List (Nat × List Vec)) :
    SeedCols × List LaneTrack × List Int × List (Nat × List Vec) :=
  if nd.seq.isEmpty then (sd, tr, tsc, trace)
  else
    let startPos := nd.endPos + 2 - nd.seq.length
    let rem := sortedT.dropWhile (fun e => e.2 < startPos)
    let o := fillCols P readsP nd.seq startPos sd.S sd.I tr rem tsc trace
    (⟨o.1, o.2.1⟩, o.2.2.1, o.2.2.2.1, o.2.2.2.2)

/-- `AlignerT::_seed_matrix`: every row is the bias; in end-to-end mode row
`i+1` additionally pays `read_gopen + i * read_gext` through two saturating
subtractions; `I_col` is a copy of `S_col`. -/
def seedMatrix (P : Params) : SeedCols :=
  let S : List Vec :=
    if P.ete then
      (List.range (P.L + 1)).map (fun r =>
        if r = 0 then broadcast P.n P.bias
        else broadcast P.n (sat P.t (sat P.t (P.bias - P.prof.read_gopen) -
                                     ((r - 1) * P.prof.read_gext : Nat))))
    else List.replicate (P.L + 1) (broadcast P.n P.bias)
  ⟨S, S⟩

/-- Association-list view of the `node id → _seed` map. -/
def lookupSeed : List (Nat × SeedCols) → Nat → Option SeedCols
  | [], _ => none
  | (k, s) :: rest, id => if k = id then some s else lookupSeed rest id

/-- Row `i ≥ 1` of the merged seed: start from the bias and take the
lanewise max over the predecessors' stored columns.  Row 0 of the seed
buffer is left untouched by `_get_seed`. -/
def mergeCol (P : Params) (preds : List Nat) (store : List (Nat × SeedCols))
    (proj : SeedCols → List Vec) (old : List Vec) : List Vec :=
  (List.range (P.L + 1)).map (fun i =>
    if i = 0 then getv old 0
    else preds.foldl
      (fun a id => vmax a (getv (proj ((lookupSeed store id).getD ⟨[], []⟩)) i))
      (broadcast P.n P.bias))

/-- `AlignerT::_get_seed`: `seed_map.at(id)` throws for an absent
predecessor, which `_get_seed` converts to `std::domain_error` ("Invalid
node ordering"); otherwise rows `1 .. L` of both columns are rebuilt as the
bias joined with the predecessors' columns. -/
def getSeed (P : Params) (preds : List Nat) (store : List (Nat × SeedCols))
    (buf : SeedCols) : Except Unit SeedCols :=
  if preds.all (fun id => (lookupSeed store id).isSome) then
    .ok ⟨mergeCol P preds store (fun s => s.S) buf.S,
         mergeCol P preds store (fun s => s.I) buf.I⟩
  else .error ()

/-- The node walk of `align_into` after the first node: fetch the merged
seed (which may throw), clear the store at a pinched node, fill, record the
outgoing seed under the node's id.  The seed buffer keeps its row 0
(always the bias) across iterations. -/
def walkNodes (P : Params) (readsP : List (List Base)) (sortedT : List (Nat × Nat)) :
    List GNode → List (Nat × SeedCols) → SeedCols → List LaneTrack →
    List Int → List (Nat × List Vec) →
    Except Unit (List LaneTrack × List Int × List (Nat × List Vec))
  | [], _, _, tr, tsc, trace => .ok (tr, tsc, trace)
  | nd :: rest, store, buf, tr, tsc, trace =>
    match getSeed P nd.preds store buf with
    | .error e => .error e
    | .ok inSeed =>
      let store₁ := if nd.pinched then [] else store
      let o := fillNode P readsP nd inSeed tr tsc sortedT trace
      walkNodes P readsP sortedT rest ((nd.id, o.1) :: store₁) inSeed o.2.1 o.2.2.1 o.2.2.2

/-- `AlignmentGroup::_package_reads`: position `p` of the packaged batch
holds, in lane `r`, the `p`-th base of read `r`, and `Base::N` in every
unused lane (the driver asserts every read has length exactly `read_len`). -/
def packageReads (n L : ℕ) (reads : List (List Base)) : List (List Base) :=
  (List.range L).map (fun p =>
    (List.range n).map (fun r => (reads.getD r []).getD p Base.N))

/-- The target subrange before sorting: one `(lane, position)` entry per
read, in lane order (the `INT_MAX` padding entries are represented by the
end of the list). -/
def targetEntries (n : ℕ) (len : Nat) (targets : List Nat) : List (Nat × Nat) :=
  (List.range n).filterMap (fun i =>
    if i < min len targets.length then some (i, targets.getD i 0) else none)

/-- The target subrange after `std::sort` by position (stable insertion
sort; the tie order is unobservable, see the header comment). -/
def sortTargets (l : List (Nat × Nat)) : List (Nat × Nat) :=
  l.insertionSort (fun a b => a.2 ≤ b.2)

/-- The per-batch output of `align_into`: final tracker, per-lane raw target
scores, and the ghost column trace. -/
structure AlignOut where
  track : List LaneTrack
  tsc : List Int
  trace : List (Nat × List Vec)
deriving DecidableEq

/-- `INT_MIN`, the initial target score. -/
def intMin32 : Int := -(2 ^ 31)

/-- Initial per-lane tracker state: scores at the lane minimum, the result
arrays freshly zeroed. -/
def initLane (t : LaneTy) : LaneTrack :=
  { maxScore := t.minv, subScore := t.minv, maxPos := 0, subPos := 0,
    maxCount := 0, subCount := 0, corFlag := 0 }

/-- Build the `Params` of an `align` call from the aligner state: target
windows `[target - tol, target + tol]` (`size_t` arithmetic; lanes past the
read list keep the zeroed bounds from the freshly resized buffers). -/
def mkParams (n : ℕ) (t : LaneTy) (ete : Bool) (L : Nat) (st : AlignerState)
    (readCount : Nat) (targets : List Nat) : Params :=
  { n := n, t := t, L := L, ete := ete, prof := st.prof, bias := st.bias,
    lows := (List.range n).map (fun i =>
      if i < min readCount targets.length then sizeSub (targets.getD i 0) st.prof.tol
      else 0),
    highs := (List.range n).map (fun i =>
      if i < min readCount targets.length then targets.getD i 0 + st.prof.tol
      else 0) }

/-- One batch of `align_into` (the claims quantify over single batches; the
outer group loop resets all of this state per batch): package the reads,
sort the targets, seed the matrix, fill the first node, then walk the rest.
The C++ dereferences `*begin` unconditionally, so only non-empty walks are
modelled; an empty range yields the error value. -/
def alignInto (n : ℕ) (t : LaneTy) (ete : Bool) (L : Nat) (st : AlignerState)
    (reads : List (List Base)) (targets : List Nat) (nodes : List GNode) :
    Except Unit AlignOut :=
  match nodes with
  | [] => .error ()
  | nd0 :: rest =>
    let P := mkParams n t ete L st reads.length targets
    let readsP := packageReads n L reads
    let sortedT := sortTargets (targetEntries n reads.length targets)
    let buf := seedMatrix P
    let tr0 : List LaneTrack := List.replicate n (initLane t)
    let tsc0 : List Int := List.replicate n intMin32
    let o := fillNode P readsP nd0 buf tr0 tsc0 sortedT []
    (walkNodes P readsP sortedT rest [(nd0.id, o.1)] buf o.2.1 o.2.2.1 o.2.2.2).map
      (fun w => ⟨w.1, w.2.1, w.2.2⟩)

/-- Lane `i` of the final tracker. -/
def laneOf (o : AlignOut) (i : Nat) : LaneTrack := o.track.getD i (initLane int8)

/-- Reported best score of lane `i`: `int(_max_score.at(i)) - _bias`. -/
def repMaxScore (st : AlignerState) (o : AlignOut) (i : Nat) : Int :=
  (laneOf o i).maxScore - st.bias

/-- Reported sub-optimal score of lane `i`. -/
def repSubScore (st : AlignerState) (o : AlignOut) (i : Nat) : Int :=
  (laneOf o i).subScore - st.bias

/-- Reported target score of lane `i`:
`int(_target_subrange[..].score) - _bias` written back at the entry's lane. -/
def repTargetScore (st : AlignerState) (o : AlignOut) (i : Nat) : Int :=
  o.tsc.getD i 0 - st.bias

/-! ### Tracker reachability

Every change the walk makes to one lane of the tracker goes through
`cellFinishLane` with that lane's window; `CFReach` captures "reachable by
a sequence of such updates", and each fill stage is shown to keep every
lane's tracker entry `CFReach`-reachable from its input.  Invariants of the
claims then follow from preservation under a single `cellFinishLane`. -/

/-- Reachability of one lane's tracker state under `_fill_cell_finish`
updates with a fixed read length and target window. -/
inductive CFReach (L lo hi : Nat) : LaneTrack → LaneTrack → Prop
  | refl (a : LaneTrack) : CFReach L lo hi a a
  | step {a b : LaneTrack} (s : Int) (pos : Nat) :
      CFReach L lo hi a b → CFReach L lo hi a (cellFinishLane L lo hi b s pos)

theorem CFReach.trans {L lo hi : Nat} {a b c : LaneTrack}
    (h₁ : CFReach L lo hi a b) (h₂ : CFReach L lo hi b c) : CFReach L lo hi a c := by
  induction h₂ with
  | refl => exact h₁
  | step s pos _ ih => exact CFReach.step s pos ih

/-- Any property preserved by one `cellFinishLane` update transports along
`CFReach`. -/
theorem CFReach.preserve {L lo hi : Nat} {a b : LaneTrack}
    (Q : LaneTrack → Prop)
    (hstep : ∀ lt s pos, Q lt → Q (cellFinishLane L lo hi lt s pos))
    (h : CFReach L lo hi a b) (ha : Q a) : Q b := by
  induction h with
  | refl => exact ha
  | step s pos _ ih => exact hstep _ s pos ih

/-- The default tracker entry used for out-of-range lane reads. -/
def dLane : LaneTrack := initLane int8

/-- Lane read of a tracker list. -/
def trackAt (tr : List LaneTrack) (i : Nat) : LaneTrack := tr.getD i dLane

/-- Window low bound of lane `i`. -/
def lowAt (P : Params) (i : Nat) : Nat := P.lows.getD i 0

/-- Window high bound of lane `i`. -/
def highAt (P : Params) (i : Nat) : Nat := P.highs.getD i 0

theorem trackAt_cellFinishFrom (P : Params) (s : Vec) (pos : Nat) :
    ∀ (tr : List LaneTrack) (k i : Nat),
      trackAt (cellFinishFrom P s pos k tr) i =
        if i < tr.length then
          cellFinishLane P.L (lowAt P (k + i)) (highAt P (k + i))
            (trackAt tr i) (lane s (k + i)) pos
        else trackAt tr i := by
  intro tr
  induction tr with
  | nil => intro k i; simp [cellFinishFrom, trackAt]
  | cons lt rest ih =>
    intro k i
    cases i with
    | zero => simp [cellFinishFrom, trackAt, lowAt, highAt]
    | succ j =>
      have := ih (k + 1) j
      simp only [cellFinishFrom, trackAt, List.getD_cons_succ, List.length_cons] at *
      rw [this]
      have hk : k + 1 + j = k + (j + 1) := by omega
      rw [hk]
      by_cases h : j < rest.length
      · simp [h, Nat.succ_lt_succ_iff]
      · simp [h, Nat.succ_lt_succ_iff]

theorem trackAt_cellFinish (P : Params) (tr : List LaneTrack) (s : Vec)
    (pos i : Nat) :
    trackAt (cellFinish P tr s pos) i =
      if i < tr.length then
        cellFinishLane P.L (lowAt P i) (highAt P i) (trackAt tr i) (lane s i) pos
      else trackAt tr i := by
  have := trackAt_cellFinishFrom P s pos tr 0 i
  simpa using this

theorem cfreach_cellFinish (P : Params) (tr : List LaneTrack) (s : Vec)
    (pos i : Nat) :
    CFReach P.L (lowAt P i) (highAt P i) (trackAt tr i)
      (trackAt (cellFinish P tr s pos) i) := by
  rw [trackAt_cellFinish]
  by_cases h : i < tr.length
  · simpa [h] using CFReach.step (lane s i) pos (CFReach.refl (trackAt tr i))
  · simpa [h] using CFReach.refl (trackAt tr i)

theorem cfreach_fillRows (P : Params) (refb : Base) (pos : Nat) :
    ∀ (reads : List (List Base)) (r : Nat) (S Ic : List Vec) (Dp Sd : Vec)
      (tr : List LaneTrack) (i : Nat),
      CFReach P.L (lowAt P i) (highAt P i) (trackAt tr i)
        (trackAt (fillRows P refb pos reads r S Ic Dp Sd tr).2.2 i) := by
  intro reads
  induction reads with
  | nil => intro r S Ic Dp Sd tr i; exact CFReach.refl _
  | cons rb rest ih =>
    intro r S Ic Dp Sd tr i
    simp only [fillRows]
    refine CFReach.trans ?_ (ih _ _ _ _ _ _ i)
    by_cases h : P.ete
    · simp only [h, if_pos]
      exact CFReach.refl _
    · simp only [h, if_neg, Bool.false_eq_true, not_false_iff]
      exact cfreach_cellFinish P tr _ pos i

theorem cfreach_fillColumn (P : Params) (readsP : List (List Base)) (refb : Base)
    (pos : Nat) (S Ic : List Vec) (tr : List LaneTrack) (i : Nat) :
    CFReach P.L (lowAt P i) (highAt P i) (trackAt tr i)
      (trackAt (fillColumn P readsP refb pos S Ic tr).2.2 i) := by
  simp only [fillColumn]
  refine CFReach.trans
    (cfreach_fillRows P refb pos readsP 1 S Ic (broadcast P.n P.bias)
      (broadcast P.n P.bias) tr i) ?_
  by_cases h : P.ete
  · simp only [h, if_pos]
    exact cfreach_cellFinish P _ _ pos i
  · simp only [h, Bool.false_eq_true, if_neg, not_false_iff]
    exact CFReach.refl _

theorem cfreach_fillCols (P : Params) (readsP : List (List Base)) :
    ∀ (seq : List Base) (pos : Nat) (S Ic : List Vec) (tr : List LaneTrack)
      (rem : List (Nat × Nat)) (tsc : List Int) (trace : List (Nat × List Vec))
      (i : Nat),
      CFReach P.L (lowAt P i) (highAt P i) (trackAt tr i)
        (trackAt (fillCols P readsP seq pos S Ic tr rem tsc trace).2.2.1 i) := by
  intro seq
  induction seq with
  | nil => intro pos S Ic tr rem tsc trace i; exact CFReach.refl _
  | cons b rest ih =>
    intro pos S Ic tr rem tsc trace i
    simp only [fillCols]
    exact CFReach.trans (cfreach_fillColumn P readsP b pos S Ic tr i)
      (ih _ _ _ _ _ _ _ i)

theorem cfreach_fillNode (P : Params) (readsP : List (List Base)) (nd : GNode)
    (sd : SeedCols) (tr : List LaneTrack) (tsc : List Int)
    (sortedT : List (Nat × Nat)) (trace : List (Nat × List Vec)) (i : Nat) :
    CFReach P.L (lowAt P i) (highAt P i) (trackAt tr i)
      (trackAt (fillNode P readsP nd sd tr tsc sortedT trace).2.1 i) := by
  simp only [fillNode]
  by_cases h : nd.seq.isEmpty
  · simp only [h, if_pos]
    exact CFReach.refl _
  · simp only [h, if_neg, Bool.false_eq_true, not_false_iff]
    exact cfreach_fillCols P readsP nd.seq _ sd.S sd.I tr _ tsc trace i

theorem cfreach_walkNodes (P : Params) (readsP : List (List Base))
    (sortedT : List (Nat × Nat)) :
    ∀ (nodes : List GNode) (store : List (Nat × SeedCols)) (buf : SeedCols)
      (tr : List LaneTrack) (tsc : List Int) (trace : List (Nat × List Vec))
      (w : List LaneTrack × List Int × List (Nat × List Vec)) (i : Nat),
      walkNodes P readsP sortedT nodes store buf tr tsc trace = .ok w →
      CFReach P.L (lowAt P i) (highAt P i) (trackAt tr i) (trackAt w.1 i) := by
  intro nodes
  induction nodes with
  | nil =>
    intro store buf tr tsc trace w i h
    simp only [walkNodes, Except.ok.injEq] at h
    rw [← h]
    exact CFReach.refl _
  | cons nd rest ih =>
    intro store buf tr tsc trace w i h
    simp only [walkNodes] at h
    cases hseed : getSeed P nd.preds store buf with
    | error e => rw [hseed] at h; simp at h
    | ok inSeed =>
      rw [hseed] at h
      simp only [] at h
      exact CFReach.trans
        (cfreach_fillNode P readsP nd inSeed tr tsc sortedT trace i)
        (ih _ _ _ _ _ w i h)

theorem cfreach_alignInto (n : ℕ) (t : LaneTy) (ete : Bool) (L : Nat)
    (st : AlignerState) (reads : List (List Base)) (targets : List Nat)
    (nodes : List GNode) (o : AlignOut) (i : Nat)
    (h : alignInto n t ete L st reads targets nodes = .ok o) :
    CFReach L (lowAt (mkParams n t ete L st reads.length targets) i)
      (highAt (mkParams n t ete L st reads.length targets) i)
      (if i < n then initLane t else dLane) (laneOf o i) := by
  match nodes with
  | [] => simp [alignInto] at h
  | nd0 :: rest =>
    simp only [alignInto] at h
    set P := mkParams n t ete L st reads.length targets with hP
    set readsP := packageReads n L reads with hrp
    set sortedT := sortTargets (targetEntries n reads.length targets) with hst
    set o1 := fillNode P readsP nd0 (seedMatrix P) (List.replicate n (initLane t))
      (List.replicate n intMin32) sortedT [] with ho1
    cases hw : walkNodes P readsP sortedT rest [(nd0.id, o1.1)] (seedMatrix P)
        o1.2.1 o1.2.2.1 o1.2.2.2 with
    | error e => rw [hw] at h; simp [Except.map] at h
    | ok w =>
      rw [hw] at h
      simp only [Except.map, Except.ok.injEq] at h
      have h0 : trackAt (List.replicate n (initLane t)) i =
          (if i < n then initLane t else dLane) := by
        simp only [trackAt, List.getD_eq_getElem?_getD, List.getElem?_replicate]
        by_cases hi : i < n <;> simp [hi]
      have hstep1 : CFReach P.L (lowAt P i) (highAt P i)
          (trackAt (List.replicate n (initLane t)) i) (trackAt o1.2.1 i) :=
        cfreach_fillNode P readsP nd0 (seedMatrix P) (List.replicate n (initLane t))
          (List.replicate n intMin32) sortedT [] i
      have hstep2 : CFReach P.L (lowAt P i) (highAt P i)
          (trackAt o1.2.1 i) (trackAt w.1 i) :=
        cfreach_walkNodes P readsP sortedT rest [(nd0.id, o1.1)] (seedMatrix P)
          o1.2.1 o1.2.2.1 o1.2.2.2 w i hw
      have hlane : laneOf o i = trackAt w.1 i := by rw [← h]; rfl
      rw [hlane, ← h0]
      exact CFReach.trans hstep1 hstep2

/-! ### Claim C2 -/

theorem rule1_maxScore (L lo hi : Nat) (lt : LaneTrack) (s : Int) (pos : Nat) :
    (rule1 L lo hi lt s pos).maxScore = lt.maxScore := by
  unfold rule1; split <;> rfl

theorem rule1_subScore (L lo hi : Nat) (lt : LaneTrack) (s : Int) (pos : Nat) :
    (rule1 L lo hi lt s pos).subScore = lt.subScore := by
  unfold rule1; split <;> rfl

theorem rule3_maxScore (L lo hi : Nat) (lt : LaneTrack) (s : Int) (pos : Nat) :
    (rule3 L lo hi lt s pos).maxScore = lt.maxScore := by
  unfold rule3; split <;> rfl

theorem rule3_subScore (L lo hi : Nat) (lt : LaneTrack) (s : Int) (pos : Nat) :
    (rule3 L lo hi lt s pos).subScore = lt.subScore := by
  unfold rule3; split <;> rfl

theorem rule2_sub_le_max (L lo hi : Nat) (lt : LaneTrack) (s : Int) (pos : Nat)
    (h : lt.subScore ≤ lt.maxScore) :
    (rule2 L lo hi lt s pos).subScore ≤ (rule2 L lo hi lt s pos).maxScore := by
  simp only [rule2, max_def]
  split_ifs <;> simp_all <;> omega

theorem rule4_sub_le_max (L lo hi : Nat) (lt : LaneTrack) (s : Int) (pos : Nat)
    (h : lt.subScore ≤ lt.maxScore) :
    (rule4 L lo hi lt s pos).subScore ≤ (rule4 L lo hi lt s pos).maxScore := by
  simp only [rule4]
  split_ifs <;> simp_all <;> omega

/-- `sub_score ≤ max_score` is preserved by every `_fill_cell_finish`
update of a lane. -/
theorem cellFinishLane_sub_le_max (L lo hi : Nat) (lt : LaneTrack) (s : Int)
    (pos : Nat) (h : lt.subScore ≤ lt.maxScore) :
    (cellFinishLane L lo hi lt s pos).subScore ≤
      (cellFinishLane L lo hi lt s pos).maxScore := by
  unfold cellFinishLane
  have h1 : (rule1 L lo hi lt s pos).subScore ≤ (rule1 L lo hi lt s pos).maxScore := by
    rw [rule1_subScore, rule1_maxScore]; exact h
  have h2 := rule2_sub_le_max L lo hi (rule1 L lo hi lt s pos) s pos h1
  have h3 : (rule3 L lo hi (rule2 L lo hi (rule1 L lo hi lt s pos) s pos) s pos).subScore ≤
      (rule3 L lo hi (rule2 L lo hi (rule1 L lo hi lt s pos) s pos) s pos).maxScore := by
    rw [rule3_subScore, rule3_maxScore]; exact h2
  exact rule4_sub_le_max L lo hi _ s pos h3

/-- Claim C2 (amended), part 1 of the original conjunction: after any
successful `align` call, every lane's sub-optimal score is at most its
best score, both as raw cell values and as reported (bias-subtracted)
scores. -/
theorem claim2_amended (n : ℕ) (t : LaneTy) (ete : Bool) (L : Nat)
    (st : AlignerState) (reads : List (List Base)) (targets : List Nat)
    (nodes : List GNode) (o : AlignOut) (i : Nat)
    (h : alignInto n t ete L st reads targets nodes = .ok o) :
    (laneOf o i).subScore ≤ (laneOf o i).maxScore ∧
      repSubScore st o i ≤ repMaxScore st o i := by
  have hr := cfreach_alignInto n t ete L st reads targets nodes o i h
  have hmain : (laneOf o i).subScore ≤ (laneOf o i).maxScore := by
    refine CFReach.preserve (fun lt => lt.subScore ≤ lt.maxScore)
      (fun lt s pos hq => cellFinishLane_sub_le_max _ _ _ lt s pos hq) hr ?_
    by_cases hi : i < n <;> simp [hi, initLane, dLane]
  exact ⟨hmain, by simp only [repSubScore, repMaxScore]; omega⟩


/-- Project the success value of an align call (used to name concrete runs
in witnesses; the accompanying equations prove the calls do succeed). -/
def okOut (e : Except Unit AlignOut) : AlignOut :=
  match e with
  | .ok o => o
  | .error _ => ⟨[], [], []⟩

/-- The read `AA` of the length-2 counterexample runs. -/
def readAA : List Base := [Base.A, Base.A]

/-- The read `AAAA` of the length-4 counterexample run. -/
def readAAAA : List Base := [Base.A, Base.A, Base.A, Base.A]

/-- An aligner state with `ScoreProfile(2, 2, 3, 1)` and tolerance 0. -/
def cexSt : AlignerState :=
  ⟨{ mkProfile4 2 2 3 1 with tol := 0 }, -128⟩

/-- An aligner state with `ScoreProfile(2, 1, 3, 1)` and tolerance 0. -/
def cexStF : AlignerState :=
  ⟨{ mkProfile4 2 1 3 1 with tol := 0 }, -128⟩

/-- Single-node graph `AACCAA` (positions 1-6). -/
def cexGraphA : List GNode :=
  [⟨0, 5, [Base.A, Base.A, Base.C, Base.C, Base.A, Base.A], [], true⟩]

/-- Single-node graph `AATACCAAA` (positions 1-9). -/
def cexGraphF : List GNode :=
  [⟨0, 8, [Base.A, Base.A, Base.T, Base.A, Base.C, Base.C, Base.A, Base.A,
           Base.A], [], true⟩]


/-- The run-A output (named so the witness can state a closed equation). -/
def cexOutA : AlignOut :=
  okOut (alignInto 1 int8 false 2 cexSt [readAA] [0] cexGraphA)

set_option maxRecDepth 100000 in
/-- Claim C2 as stated is false.  Run A (read `AA` against `AACCAA`): the
final sub score (-126) differs from its initialization (-128) yet
`max_pos = sub_pos = 6`, so the positions are not separated by more than
the read length (an equal-to-sub update at position 6 moved `sub_pos`,
and an equal-to-max update in the same column then moved `max_pos`
without re-checking the separation).  Run F (read `AAAA` against
`AATACCAAA` with mismatch 1): the demotion in the greater-than-max block
copies the already-updated maximum into `sub_score`, so the walk ends
with `sub_score = max_score = -122` while `sub_score` differs from its
initialization. -/
theorem claim2_counterexample :
    ((alignInto 1 int8 false 2 cexSt [readAA] [0] cexGraphA).map
        (fun o => laneOf o 0) =
      .ok ⟨-124, -126, 6, 6, 2, 1, 0⟩ ∧
      (-126 : Int) ≠ int8.minv ∧ ¬(6 + 2 < 6 ∨ 6 + 2 < 6)) ∧
    ((alignInto 1 int8 false 4 cexStF [readAAAA] [0] cexGraphF).map
        (fun o => laneOf o 0) =
      .ok ⟨-122, -122, 9, 4, 1, 1, 0⟩ ∧
      (-122 : Int) ≠ int8.minv ∧ ¬((-122 : Int) < -122)) :=
  ⟨⟨rfl, by decide, by decide⟩, ⟨rfl, by decide, by decide⟩⟩

set_option maxRecDepth 100000 in
/-- Witness for the amended claim C2 at a concrete run. -/
theorem claim2_amended_witness :
    alignInto 1 int8 false 2 cexSt [readAA] [0] cexGraphA = .ok cexOutA ∧
      ((laneOf cexOutA 0).subScore ≤ (laneOf cexOutA 0).maxScore ∧
        repSubScore cexSt cexOutA 0 ≤ repMaxScore cexSt cexOutA 0) :=
  ⟨rfl, claim2_amended 1 int8 false 2 cexSt [readAA] [0] cexGraphA cexOutA 0 rfl⟩

/-! ### Claim C3 -/

theorem rule1_flag_le2 (L lo hi : Nat) (lt : LaneTrack) (s : Int) (pos : Nat)
    (h : lt.corFlag ≤ 2) : (rule1 L lo hi lt s pos).corFlag ≤ 2 := by
  simp only [rule1]; split_ifs <;> simp_all

theorem rule2_flag_le2 (L lo hi : Nat) (lt : LaneTrack) (s : Int) (pos : Nat)
    (h : lt.corFlag ≤ 2) : (rule2 L lo hi lt s pos).corFlag ≤ 2 := by
  simp only [rule2]; split_ifs <;> simp_all

theorem rule3_flag_le2 (L lo hi : Nat) (lt : LaneTrack) (s : Int) (pos : Nat)
    (h : lt.corFlag ≤ 2) : (rule3 L lo hi lt s pos).corFlag ≤ 2 := by
  simp only [rule3]; split_ifs <;> simp_all

theorem rule4_flag_le2 (L lo hi : Nat) (lt : LaneTrack) (s : Int) (pos : Nat)
    (h : lt.corFlag ≤ 2) : (rule4 L lo hi lt s pos).corFlag ≤ 2 := by
  simp only [rule4]; split_ifs <;> simp_all

/-- The correctness flag never leaves `{0, 1, 2}` under a single
`_fill_cell_finish` lane update. -/
theorem cellFinishLane_flag_le2 (L lo hi : Nat) (lt : LaneTrack) (s : Int)
    (pos : Nat) (h : lt.corFlag ≤ 2) :
    (cellFinishLane L lo hi lt s pos).corFlag ≤ 2 :=
  rule4_flag_le2 L lo hi _ s pos (rule3_flag_le2 L lo hi _ s pos
    (rule2_flag_le2 L lo hi _ s pos (rule1_flag_le2 L lo hi lt s pos h)))

theorem rule1_window (L lo hi : Nat) (lt : LaneTrack) (s : Int) (pos : Nat)
    (h : lo ≤ lt.maxPos → lt.maxPos ≤ hi → lt.corFlag = 1) :
    lo ≤ (rule1 L lo hi lt s pos).maxPos → (rule1 L lo hi lt s pos).maxPos ≤ hi →
      (rule1 L lo hi lt s pos).corFlag = 1 := by
  simp only [rule1]; split_ifs <;> simp_all <;> omega

theorem rule2_window (L lo hi : Nat) (lt : LaneTrack) (s : Int) (pos : Nat)
    (h : lo ≤ lt.maxPos → lt.maxPos ≤ hi → lt.corFlag = 1) :
    lo ≤ (rule2 L lo hi lt s pos).maxPos → (rule2 L lo hi lt s pos).maxPos ≤ hi →
      (rule2 L lo hi lt s pos).corFlag = 1 := by
  simp only [rule2]; split_ifs <;> simp_all <;> omega

theorem rule3_window (L lo hi : Nat) (lt : LaneTrack) (s : Int) (pos : Nat)
    (hw : hi ≤ lo + L)
    (h : lo ≤ lt.maxPos → lt.maxPos ≤ hi → lt.corFlag = 1) :
    lo ≤ (rule3 L lo hi lt s pos).maxPos → (rule3 L lo hi lt s pos).maxPos ≤ hi →
      (rule3 L lo hi lt s pos).corFlag = 1 := by
  simp only [rule3]; split_ifs <;> simp_all <;> omega

theorem rule4_window (L lo hi : Nat) (lt : LaneTrack) (s : Int) (pos : Nat)
    (hw : hi ≤ lo + L)
    (h : lo ≤ lt.maxPos → lt.maxPos ≤ hi → lt.corFlag = 1) :
    lo ≤ (rule4 L lo hi lt s pos).maxPos → (rule4 L lo hi lt s pos).maxPos ≤ hi →
      (rule4 L lo hi lt s pos).corFlag = 1 := by
  simp only [rule4]; split_ifs <;> simp_all <;> omega

/-- The window invariant of claim C3: when the target window is no wider
than the read length (`hi ≤ lo + L`), a best position inside the window
forces the flag to 1, and this survives every `_fill_cell_finish` update:
a max update inside the window sets the flag, and sub updates only fire
more than `L` past `max_pos`, hence outside a window containing
`max_pos`. -/
theorem cellFinishLane_window (L lo hi : Nat) (lt : LaneTrack) (s : Int)
    (pos : Nat) (hw : hi ≤ lo + L)
    (h : lo ≤ lt.maxPos → lt.maxPos ≤ hi → lt.corFlag = 1) :
    lo ≤ (cellFinishLane L lo hi lt s pos).maxPos →
      (cellFinishLane L lo hi lt s pos).maxPos ≤ hi →
      (cellFinishLane L lo hi lt s pos).corFlag = 1 :=
  rule4_window L lo hi _ s pos hw (rule3_window L lo hi _ s pos hw
    (rule2_window L lo hi _ s pos (rule1_window L lo hi lt s pos h)))

theorem lowAt_mkParams (n : ℕ) (t : LaneTy) (ete : Bool) (L : Nat)
    (st : AlignerState) (rc : Nat) (targets : List Nat) (i : Nat) (hn : i < n) :
    lowAt (mkParams n t ete L st rc targets) i =
      if i < min rc targets.length then sizeSub (targets.getD i 0) st.prof.tol
      else 0 := by
  simp [lowAt, mkParams, List.getD_eq_getElem?_getD, List.getElem?_map,
    List.getElem?_range, hn]

theorem highAt_mkParams (n : ℕ) (t : LaneTy) (ete : Bool) (L : Nat)
    (st : AlignerState) (rc : Nat) (targets : List Nat) (i : Nat) (hn : i < n) :
    highAt (mkParams n t ete L st rc targets) i =
      if i < min rc targets.length then targets.getD i 0 + st.prof.tol
      else 0 := by
  simp [highAt, mkParams, List.getD_eq_getElem?_getD, List.getElem?_map,
    List.getElem?_range, hn]

/-- Claim C3 (amended).  After any successful `align` call the correctness
flag of every lane lies in `{0, 1, 2}`.  Moreover, for a real lane whose
window does not underflow (`tol < target`) and is no wider than the read
length (`2 · tol ≤ L`), the flag is 1 whenever the final best position
lies within `tol` of the target.  The converse, and both directions for
flag 2, fail on the code (see the counterexample): an equal-to-max update
at an out-of-window position keeps a stale flag while moving `max_pos`,
and an equal-to-sub update moves `sub_pos` without clearing a stale 2. -/
theorem claim3_amended (n : ℕ) (t : LaneTy) (ete : Bool) (L : Nat)
    (st : AlignerState) (reads : List (List Base)) (targets : List Nat)
    (nodes : List GNode) (o : AlignOut) (i : Nat)
    (h : alignInto n t ete L st reads targets nodes = .ok o) :
    (laneOf o i).corFlag ≤ 2 ∧
      (i < n → i < min reads.length targets.length →
        st.prof.tol < targets.getD i 0 →
        targets.getD i 0 + st.prof.tol ≤ targets.getD i 0 - st.prof.tol + L →
        targets.getD i 0 - st.prof.tol ≤ (laneOf o i).maxPos →
        (laneOf o i).maxPos ≤ targets.getD i 0 + st.prof.tol →
        (laneOf o i).corFlag = 1) := by
  have hr := cfreach_alignInto n t ete L st reads targets nodes o i h
  constructor
  · refine CFReach.preserve (fun lt => lt.corFlag ≤ 2)
      (fun lt s pos hq => cellFinishLane_flag_le2 _ _ _ lt s pos hq) hr ?_
    by_cases hi : i < n <;> simp [hi, initLane, dLane]
  · intro hn hreal htol hwidth hlo hhi
    have hlow : lowAt (mkParams n t ete L st reads.length targets) i =
        targets.getD i 0 - st.prof.tol := by
      rw [lowAt_mkParams n t ete L st reads.length targets i hn]
      simp only [hreal, if_pos, sizeSub, Nat.le_of_lt htol, if_pos]
    have hhigh : highAt (mkParams n t ete L st reads.length targets) i =
        targets.getD i 0 + st.prof.tol := by
      rw [highAt_mkParams n t ete L st reads.length targets i hn]
      simp [hreal]
    have hwin := CFReach.preserve
      (fun lt => lowAt (mkParams n t ete L st reads.length targets) i ≤ lt.maxPos →
        lt.maxPos ≤ highAt (mkParams n t ete L st reads.length targets) i →
        lt.corFlag = 1)
      (fun lt s pos hq => cellFinishLane_window L _ _ lt s pos
        (by rw [hlow, hhigh]; exact hwidth) hq) hr ?_
    · exact hwin (by rw [hlow]; exact hlo) (by rw [hhigh]; exact hhi)
    · simp only [hn, if_pos, initLane]
      intro h0
      rw [hlow] at h0
      omega

/-- Single-node graph `AACCACCA` (positions 1-8). -/
def cexGraphD : List GNode :=
  [⟨0, 7, [Base.A, Base.A, Base.C, Base.C, Base.A, Base.C, Base.C, Base.A],
    [], true⟩]

set_option maxRecDepth 100000 in
/-- Claim C3 as stated is false.  Run C (read `AA` against `AACCAA`,
target 2, tol 0): the best score first lands at position 2 inside the
window and sets the flag to 1; a later equal-to-max update moves
`max_pos` to 6 without clearing the flag, so the call returns
`cor_flag = 1` although the final `max_pos` is 4 away from the target.
Run D (read `AA` against `AACCACCA`, target 5, tol 0): the sub-optimal
score at position 5 sets the flag to 2; a later equal-to-sub update at
position 8, outside the window, moves `sub_pos` without touching the
flag, so the call returns `cor_flag = 2` although the final `sub_pos` is
3 away from the target. -/
theorem claim3_counterexample :
    ((alignInto 1 int8 false 2 cexSt [readAA] [2] cexGraphA).map
        (fun o => laneOf o 0) =
      .ok ⟨-124, -126, 6, 6, 2, 1, 1⟩ ∧
      ¬(2 - 0 ≤ 6 ∧ 6 ≤ 2 + 0)) ∧
    ((alignInto 1 int8 false 2 cexSt [readAA] [5] cexGraphD).map
        (fun o => laneOf o 0) =
      .ok ⟨-124, -126, 2, 8, 1, 2, 2⟩ ∧
      (2 : Nat) ≠ 1 ∧ ¬(5 - 0 ≤ 8 ∧ 8 ≤ 5 + 0)) :=
  ⟨⟨rfl, by decide⟩, ⟨rfl, by decide, by decide⟩⟩

/-- A tiny run satisfying the window hypotheses of the amended claim C3:
read `AA` against the single node `AA`, target 2, tolerance 0. -/
def w3St : AlignerState := ⟨{ mkProfile4 2 2 3 1 with tol := 0 }, -128⟩

/-- Output of the C3 witness run. -/
def w3Out : AlignOut :=
  okOut (alignInto 1 int8 false 2 w3St [[Base.A, Base.A]] [2]
    [⟨0, 1, [Base.A, Base.A], [], true⟩])

set_option maxRecDepth 100000 in
/-- Witness for the amended claim C3 at a concrete run. -/
theorem claim3_amended_witness :
    alignInto 1 int8 false 2 w3St [[Base.A, Base.A]] [2]
        [⟨0, 1, [Base.A, Base.A], [], true⟩] = .ok w3Out ∧
      ((laneOf w3Out 0).corFlag ≤ 2 ∧ (laneOf w3Out 0).corFlag = 1) := by
  refine ⟨rfl, ?_⟩
  have := claim3_amended 1 int8 false 2 w3St [[Base.A, Base.A]] [2]
    [⟨0, 1, [Base.A, Base.A], [], true⟩] w3Out 0 rfl
  exact ⟨this.1, this.2 (by decide) (by decide) (by decide) (by decide)
    (by decide) (by decide)⟩


/-- Project the success value of a constructor call. -/
def okSt (e : Except Unit AlignerState) : AlignerState :=
  match e with
  | .ok s => s
  | .error _ => ⟨mkProfile4 0 0 0 0, 0⟩

/-! ### Claims C5, C10, C7 -/

/-- Claim C5: aligner construction fails with `InsufficientPrecision`
exactly when `read_len * match` exceeds the representable range
`max - min` of the lane type (the worst-case biased score span), and on
success the bias is the lane minimum in local mode and
`max - read_len * match` in end-to-end mode. -/
theorem claim5_bias (t : LaneTy) (ete : Bool) (L : Nat) (prof : ScoreProfile) :
    (mkAligner t ete L prof = .error () ↔
      (L * prof.match_ : Nat) > (t.maxv - t.minv).toNat) ∧
    (∀ st, mkAligner t ete L prof = .ok st →
      st.bias = if ete then t.maxv - L * prof.match_ else t.minv) := by
  by_cases hc : (L * prof.match_ : Nat) > (t.maxv - t.minv).toNat
  · constructor
    · simp [mkAligner, setScores, getBias, hc]
    · intro st hst
      simp [mkAligner, setScores, getBias, hc] at hst
  · constructor
    · simp [mkAligner, setScores, getBias, hc]
      cases ete <;> simp
    · intro st hst
      cases ete <;>
        · simp [mkAligner, setScores, getBias, hc] at hst
          rw [← hst]
          simp [setCorrectnessTolerance]

/-- The state built by `AlignerETE(4, 2, 2, 3, 1)` (in range: 4·2 ≤ 255). -/
def w5St : AlignerState := okSt (mkAligner int8 true 4 (mkProfile4 2 2 3 1))

/-- Witness for claim C5: the doctest bound check
`AlignerETE(100, 3, 2, 2, 2)` throws (100·3 > 255), while an in-range
end-to-end construction at read length 4 yields bias `127 - 8 = 119`. -/
theorem claim5_bias_witness :
    mkAligner int8 true 100 (mkProfile4 3 2 2 2) = .error () ∧
      (mkAligner int8 true 4 (mkProfile4 2 2 3 1) = .ok w5St ∧
        w5St.bias = (119 : Int)) :=
  ⟨(claim5_bias int8 true 100 (mkProfile4 3 2 2 2)).1.mpr (by decide),
   ⟨rfl, by
      have := (claim5_bias int8 true 4 (mkProfile4 2 2 3 1)).2 w5St rfl
      simpa using this⟩⟩

/-- Claim C10: the aligner constructor applies the profile first and then
overwrites the tolerance with `read_len / DEFAULT_TOL_FACTOR`, so the
profile's own `tol` never survives construction. -/
theorem claim10_tolerance (t : LaneTy) (ete : Bool) (L : Nat)
    (prof : ScoreProfile) (st : AlignerState)
    (h : mkAligner t ete L prof = .ok st) :
    st.prof.tol = L / DEFAULT_TOL_FACTOR := by
  unfold mkAligner at h
  cases hs : setScores t ete L prof with
  | error e => rw [hs] at h; simp at h
  | ok st' =>
    rw [hs] at h
    simp only [Except.ok.injEq] at h
    rw [← h]
    simp [setCorrectnessTolerance]

/-- The state built by `Aligner(8, prof)` with a profile carrying `tol = 99`. -/
def w10St : AlignerState :=
  okSt (mkAligner int8 false 8 { mkProfile4 2 2 3 1 with tol := 99 })

/-- Witness for claim C10: the profile asks for tolerance 99, the
constructed aligner reports `8 / 4 = 2`. -/
theorem claim10_tolerance_witness :
    mkAligner int8 false 8 { mkProfile4 2 2 3 1 with tol := 99 } = .ok w10St ∧
      w10St.prof.tol = 2 ∧ w10St.prof.tol ≠ 99 :=
  ⟨rfl,
   claim10_tolerance int8 false 8 { mkProfile4 2 2 3 1 with tol := 99 } w10St rfl,
   by decide⟩

/-- A profile requesting end-to-end mode. -/
def c7prof : ScoreProfile := { mkProfile4 2 2 3 1 with end_to_end := true }

/-- The state a local (`END_TO_END = false`) aligner derives from it. -/
def c7St : AlignerState := okSt (setScores int8 false 4 c7prof)

/-- Claim C7 as stated is false: `set_scores` overwrites the profile's
`end_to_end` flag with the compile-time template parameter, so passing a
profile with `end_to_end = true` to a local aligner leaves the aligner in
local mode (stored flag `false`, local bias `-128` instead of the
end-to-end bias `127 - 4·2 = 119`). -/
theorem claim7_counterexample :
    c7prof.end_to_end = true ∧
      setScores int8 false 4 c7prof = .ok c7St ∧
      c7St.prof.end_to_end = false ∧
      c7St.bias = int8.minv ∧ c7St.bias ≠ (119 : Int) :=
  ⟨rfl, rfl, rfl, rfl, by decide⟩

/-- Claim C7 (amended): after `set_scores(profile)` the effective mode — the
stored `end_to_end` flag and the bias selection — equals the aligner's
compile-time `END_TO_END` template flag, regardless of the profile's own
`end_to_end` field. -/
theorem claim7_amended (t : LaneTy) (ete : Bool) (L : Nat)
    (prof : ScoreProfile) (st : AlignerState)
    (h : setScores t ete L prof = .ok st) :
    st.prof.end_to_end = ete ∧
      st.bias = (if ete then t.maxv - L * prof.match_ else t.minv) := by
  unfold setScores getBias at h
  by_cases hc : (L * prof.match_ : Nat) > (t.maxv - t.minv).toNat
  · simp [hc] at h
  · cases ete <;>
      · simp [hc] at h
        rw [← h]
        simp

/-- Witness for the amended claim C7 at the counterexample profile. -/
theorem claim7_amended_witness :
    setScores int8 false 4 c7prof = .ok c7St ∧
      (c7St.prof.end_to_end = false ∧
        c7St.bias = (if false then (127 : Int) - 4 * 2 else (-128 : Int))) :=
  ⟨rfl, claim7_amended int8 false 4 c7prof c7St rfl⟩

/-! ### Claim C6 -/

/-- Claim C6: `_get_seed` raises the graph-ordering (`domain_error`)
exception exactly when some listed predecessor is absent from the seed
store, and once the walk reaches such a node the whole remaining walk
returns that error — `align` never recovers. -/
theorem claim6_graph_order :
    (∀ (P : Params) (preds : List Nat) (store : List (Nat × SeedCols))
        (buf : SeedCols),
      getSeed P preds store buf = .error () ↔
        ∃ id ∈ preds, lookupSeed store id = none) ∧
    (∀ (P : Params) (readsP : List (List Base)) (sortedT : List (Nat × Nat))
        (nd : GNode) (rest : List GNode) (store : List (Nat × SeedCols))
        (buf : SeedCols) (tr : List LaneTrack) (tsc : List Int)
        (trace : List (Nat × List Vec)),
      getSeed P nd.preds store buf = .error () →
      walkNodes P readsP sortedT (nd :: rest) store buf tr tsc trace =
        .error ()) := by
  constructor
  · intro P preds store buf
    unfold getSeed
    by_cases hall : preds.all (fun id => (lookupSeed store id).isSome)
    · simp only [hall, if_pos]
      constructor
      · intro h; simp at h
      · rintro ⟨id, hmem, hnone⟩
        rw [List.all_eq_true] at hall
        have := hall id hmem
        rw [hnone] at this
        simp at this
    · simp only [hall, if_neg, Bool.false_eq_true, not_false_iff]
      constructor
      · intro _
        rw [List.all_eq_true] at hall
        push_neg at hall
        obtain ⟨id, hmem, hns⟩ := hall
        exact ⟨id, hmem, Option.not_isSome_iff_eq_none.mp (by simpa using hns)⟩
      · intro _; trivial
  · intro P readsP sortedT nd rest store buf tr tsc trace hseed
    simp [walkNodes, hseed]

/-- A concrete parameter record for the C6/C4 witnesses. -/
def w6P : Params := mkParams 1 int8 false 2 cexSt 1 [0]

/-- Witness for claim C6: a node naming the absent predecessor 5 over the
empty store makes `getSeed` fail, and the walk starting at that node
returns the error for an arbitrary non-empty remainder. -/
theorem claim6_graph_order_witness :
    getSeed w6P [5] [] (seedMatrix w6P) = .error () ∧
      walkNodes w6P (packageReads 1 2 [readAA]) []
        [⟨1, 1, [Base.A, Base.A], [5], false⟩, ⟨2, 3, [Base.A, Base.A], [1], false⟩]
        [] (seedMatrix w6P) (List.replicate 1 (initLane int8))
        (List.replicate 1 intMin32) [] = .error () := by
  have h1 : getSeed w6P [5] [] (seedMatrix w6P) = .error () :=
    (claim6_graph_order.1 w6P [5] [] (seedMatrix w6P)).mpr
      ⟨5, by decide, rfl⟩
  exact ⟨h1, claim6_graph_order.2 w6P (packageReads 1 2 [readAA]) []
    ⟨1, 1, [Base.A, Base.A], [5], false⟩ [⟨2, 3, [Base.A, Base.A], [1], false⟩]
    [] (seedMatrix w6P) (List.replicate 1 (initLane int8))
    (List.replicate 1 intMin32) [] h1⟩

/-! ### Claim C4 -/

/-- Project the success value of a `getSeed` call. -/
def okSeed (e : Except Unit SeedCols) : SeedCols :=
  match e with
  | .ok s => s
  | .error _ => ⟨[], []⟩

/-- Claim C4 (amended): for every row `i ∈ [1, L]`, the assembled seed's
`S_col[i]` and `I_col[i]` equal the **bias joined with** the lanewise
maximum over the predecessors' stored columns (the row is initialized to
the bias before the predecessors are folded in), and row 0 is taken from
the seed buffer.  In local mode the bias is the lane minimum and every
stored cell is at least the bias, so this join coincides with the plain
lanewise maximum; in end-to-end mode stored cells can drop below the
bias and the join differs (see the counterexample). -/
theorem claim4_amended (P : Params) (preds : List Nat)
    (store : List (Nat × SeedCols)) (buf : SeedCols) (s : SeedCols)
    (h : getSeed P preds store buf = .ok s) (i : Nat) (h1 : 1 ≤ i)
    (hL : i ≤ P.L) :
    getv s.S i = preds.foldl
        (fun a id => vmax a (getv ((lookupSeed store id).getD ⟨[], []⟩).S i))
        (broadcast P.n P.bias) ∧
      getv s.I i = preds.foldl
        (fun a id => vmax a (getv ((lookupSeed store id).getD ⟨[], []⟩).I i))
        (broadcast P.n P.bias) ∧
      getv s.S 0 = getv buf.S 0 := by
  unfold getSeed at h
  by_cases hall : preds.all (fun id => (lookupSeed store id).isSome)
  · simp only [hall, if_pos, Except.ok.injEq] at h
    have hrow : ∀ (proj : SeedCols → List Vec) (old : List Vec) (j : Nat),
        j ≤ P.L →
        getv (mergeCol P preds store proj old) j =
          if j = 0 then getv old 0
          else preds.foldl
            (fun a id => vmax a (getv (proj ((lookupSeed store id).getD ⟨[], []⟩)) j))
            (broadcast P.n P.bias) := by
      intro proj old j hj
      unfold mergeCol getv
      simp [List.getD_eq_getElem?_getD, List.getElem?_map, List.getElem?_range,
        Nat.lt_succ_of_le hj]
    rw [← h]
    refine ⟨?_, ?_, ?_⟩
    · rw [hrow (fun s => s.S) buf.S i hL]
      simp [Nat.not_eq_zero_of_lt h1]
    · rw [hrow (fun s => s.I) buf.I i hL]
      simp [Nat.not_eq_zero_of_lt h1]
    · rw [hrow (fun s => s.S) buf.S 0 (Nat.zero_le _)]
      simp
  · simp [hall] at h

/-- The end-to-end aligner state of the C4 runs: `AlignerETE(2, 2, 2, 3, 1)`
has bias `127 - 2·2 = 123`. -/
def c4St : AlignerState :=
  ⟨{ mkProfile4 2 2 3 1 with end_to_end := true, tol := 0 }, 123⟩

/-- Its parameter record for a one-lane batch. -/
def c4P : Params := mkParams 1 int8 true 2 c4St 1 [0]

/-- The outgoing seed of filling the single-base node `C` against the read
`AA` in end-to-end mode: its columns drop below the bias. -/
def c4seed : SeedCols :=
  (fillNode c4P (packageReads 1 2 [readAA]) ⟨0, 0, [Base.C], [], true⟩
    (seedMatrix c4P) (List.replicate 1 (initLane int8))
    (List.replicate 1 intMin32) [] []).1

/-- The seed `_get_seed` assembles for a successor of that node. -/
def c4merged : SeedCols :=
  okSeed (getSeed c4P [0] [(0, c4seed)] (seedMatrix c4P))

set_option maxRecDepth 10000 in
/-- Claim C4 as stated is false in end-to-end mode: the predecessor's
stored `S_col[1]` is 122, strictly below the bias 123, so the assembled
seed row — initialized to the bias before folding in the predecessors —
is 123 and differs from the lanewise maximum (122) of the predecessors'
values. -/
theorem claim4_counterexample :
    getSeed c4P [0] [(0, c4seed)] (seedMatrix c4P) = .ok c4merged ∧
      getv c4seed.S 1 = [122] ∧
      getv c4merged.S 1 = [123] ∧
      getv c4merged.S 1 ≠ getv c4seed.S 1 :=
  ⟨rfl, rfl, rfl, by decide⟩

set_option maxRecDepth 10000 in
/-- Witness for the amended claim C4 at the concrete end-to-end run. -/
theorem claim4_amended_witness :
    getSeed c4P [0] [(0, c4seed)] (seedMatrix c4P) = .ok c4merged ∧
      (getv c4merged.S 1 =
          [0].foldl
            (fun a id => vmax a (getv ((lookupSeed [(0, c4seed)] id).getD ⟨[], []⟩).S
              1)) (broadcast c4P.n c4P.bias) ∧
        getv c4merged.I 1 =
          [0].foldl
            (fun a id => vmax a (getv ((lookupSeed [(0, c4seed)] id).getD ⟨[], []⟩).I
              1)) (broadcast c4P.n c4P.bias) ∧
        getv c4merged.S 0 = getv (seedMatrix c4P).S 0) :=
  ⟨rfl, claim4_amended c4P [0] [(0, c4seed)] (seedMatrix c4P) c4merged rfl 1
    (by decide) (by decide)⟩

/-! ### Claim C1 -/

/-- The specification's per-row cell equations (spec section 4.5, quoted by
claim C1), as a recurrence on the row index over the incoming columns
`S0`/`Ic0`: row `r` returns `(D_c[r], I_c[r], S[r])` where `D_c[0]` is the
bias, `S[r-1]` in the `D` equation is the current column contents (already
updated for rows below `r`), the `I` equation reads the incoming column,
and the diagonal is the bias before row 1 and the incoming `S[r-1]`
otherwise.  This definition follows the specification's words; the claim
compares the implementation (`fillRows`) against it. -/
def specCell (P : Params) (reads : List (List Base)) (refb : Base)
    (S0 Ic0 : List Vec) : Nat → Vec × Vec × Vec
  | 0 => (broadcast P.n P.bias, getv Ic0 0, getv S0 0)
  | r + 1 =>
    let prev := specCell P reads refb S0 Ic0 r
    let D := vmax (vsub P.t prev.1 P.prof.ref_gext)
                  (vsub P.t prev.2.2 (P.prof.ref_gopen + P.prof.ref_gext))
    let I := vmax (vsub P.t (getv Ic0 (r + 1)) P.prof.read_gext)
                  (vsub P.t (getv S0 (r + 1)) (P.prof.read_gopen + P.prof.read_gext))
    let sdiag := if r = 0 then broadcast P.n P.bias else getv S0 r
    (D, I, vmax I (vmax D (diagVec P sdiag (reads.getD r []) refb)))

/-- Fold the score tracker over a list of rows, reading each row's final
`S` value from `vals`. -/
def trackFold (P : Params) (pos : Nat) (vals : Nat → Vec) (rows : List Nat)
    (tr : List LaneTrack) : List LaneTrack :=
  rows.foldl (fun t r => cellFinish P t (vals r) pos) tr

theorem getv_set_self (S : List Vec) (r : Nat) (v : Vec) (h : r < S.length) :
    getv (S.set r v) r = v := by
  simp [getv, List.getD_eq_getElem?_getD, List.getElem?_set, h]

theorem getv_set_ne (S : List Vec) (r i : Nat) (v : Vec) (h : r ≠ i) :
    getv (S.set r v) i = getv S i := by
  simp [getv, List.getD_eq_getElem?_getD, List.getElem?_set, h]

theorem trackFold_congr (P : Params) (pos : Nat) (v₁ v₂ : Nat → Vec)
    (rows : List Nat) (h : ∀ r ∈ rows, v₁ r = v₂ r) :
    ∀ tr, trackFold P pos v₁ rows tr = trackFold P pos v₂ rows tr := by
  induction rows with
  | nil => intro tr; rfl
  | cons r rest ih =>
    intro tr
    simp only [trackFold, List.foldl_cons]
    rw [h r (List.mem_cons_self r rest)]
    exact ih (fun q hq => h q (List.mem_cons_of_mem r hq)) _

/-- The row loop of `_fill_cell` computes exactly the specification's cell
recurrence: starting below row `j` with a state whose processed rows carry
the recurrence values, the finished column carries them everywhere, the
rolling `_Dc`/`_Sd` scalars coincide with the recurrence's `D`/diagonal,
and the tracker is folded over the remaining rows (local mode) or left
untouched (end-to-end mode). -/
theorem fillRows_spec (P : Params) (refb : Base) (pos : Nat)
    (reads : List (List Base)) (S0 Ic0 : List Vec) :
    ∀ (rest : List (List Base)) (j : Nat) (S Ic : List Vec) (Dp Sd : Vec)
      (tr : List LaneTrack),
      j + rest.length = P.L →
      (∀ idx, rest.getD idx [] = reads.getD (j + idx) []) →
      S.length = P.L + 1 → Ic.length = P.L + 1 →
      (∀ i, i ≤ j → getv S i = (specCell P reads refb S0 Ic0 i).2.2) →
      (∀ i, j < i → getv S i = getv S0 i) →
      (∀ i, i ≤ j → getv Ic i = (specCell P reads refb S0 Ic0 i).2.1) →
      (∀ i, j < i → getv Ic i = getv Ic0 i) →
      Dp = (specCell P reads refb S0 Ic0 j).1 →
      Sd = (if j = 0 then broadcast P.n P.bias else getv S0 j) →
      (∀ i, getv (fillRows P refb pos rest (j + 1) S Ic Dp Sd tr).1 i =
          if i ≤ P.L then (specCell P reads refb S0 Ic0 i).2.2 else getv S0 i) ∧
        (∀ i, getv (fillRows P refb pos rest (j + 1) S Ic Dp Sd tr).2.1 i =
          if i ≤ P.L then (specCell P reads refb S0 Ic0 i).2.1 else getv Ic0 i) ∧
        (fillRows P refb pos rest (j + 1) S Ic Dp Sd tr).2.2 =
          (if P.ete then tr
           else trackFold P pos (fun r => (specCell P reads refb S0 Ic0 r).2.2)
             (List.range' (j + 1) (P.L - j)) tr) := by
  intro rest
  induction rest with
  | nil =>
    intro j S Ic Dp Sd tr hj hrest hSlen hIclen hSlow hShigh hIlow hIhigh hDp hSd
    have hjL : j = P.L := by simpa using hj
    refine ⟨?_, ?_, ?_⟩
    · intro i
      by_cases hi : i ≤ P.L
      · simp only [fillRows, hi, if_pos]
        exact hSlow i (by omega)
      · simp only [fillRows, hi, if_neg, not_false_iff]
        exact hShigh i (by omega)
    · intro i
      by_cases hi : i ≤ P.L
      · simp only [fillRows, hi, if_pos]
        exact hIlow i (by omega)
      · simp only [fillRows, hi, if_neg, not_false_iff]
        exact hIhigh i (by omega)
    · rw [hjL]
      simp only [fillRows, Nat.sub_self, List.range']
      by_cases he : P.ete <;> simp [he, trackFold]
  | cons rb rest' ih =>
    intro j S Ic Dp Sd tr hj hrest hSlen hIclen hSlow hShigh hIlow hIhigh hDp hSd
    have hjL : j < P.L := by
      simp only [List.length_cons] at hj
      omega
    have hrb : rb = reads.getD j [] := by
      have := hrest 0
      simpa using this
    have hDr : vmax (vsub P.t Dp P.prof.ref_gext)
        (vsub P.t (getv S (j + 1 - 1)) (P.prof.ref_gopen + P.prof.ref_gext)) =
        (specCell P reads refb S0 Ic0 (j + 1)).1 := by
      simp only [specCell, Nat.add_sub_cancel]
      rw [hDp, hSlow j (le_refl j)]
    have hIr : vmax (vsub P.t (getv Ic (j + 1)) P.prof.read_gext)
        (vsub P.t (getv S (j + 1)) (P.prof.read_gopen + P.prof.read_gext)) =
        (specCell P reads refb S0 Ic0 (j + 1)).2.1 := by
      simp only [specCell]
      rw [hIhigh (j + 1) (Nat.lt_succ_self j), hShigh (j + 1) (Nat.lt_succ_self j)]
    have hSnew : vmax (vmax (vsub P.t (getv Ic (j + 1)) P.prof.read_gext)
          (vsub P.t (getv S (j + 1)) (P.prof.read_gopen + P.prof.read_gext)))
        (vmax (vmax (vsub P.t Dp P.prof.ref_gext)
            (vsub P.t (getv S (j + 1 - 1)) (P.prof.ref_gopen + P.prof.ref_gext)))
          (diagVec P Sd rb refb)) =
        (specCell P reads refb S0 Ic0 (j + 1)).2.2 := by
      simp only [specCell, Nat.add_sub_cancel]
      rw [hDp, hSlow j (le_refl j), hIhigh (j + 1) (Nat.lt_succ_self j),
        hShigh (j + 1) (Nat.lt_succ_self j), hSd, hrb]
    have hj1len : j + 1 < S.length := by omega
    have hj1lenI : j + 1 < Ic.length := by omega
    obtain ⟨ihS, ihI, ihT⟩ := ih (j + 1)
      (S.set (j + 1)
        (vmax (vmax (vsub P.t (getv Ic (j + 1)) P.prof.read_gext)
            (vsub P.t (getv S (j + 1)) (P.prof.read_gopen + P.prof.read_gext)))
          (vmax (vmax (vsub P.t Dp P.prof.ref_gext)
              (vsub P.t (getv S (j + 1 - 1)) (P.prof.ref_gopen + P.prof.ref_gext)))
            (diagVec P Sd rb refb))))
      (Ic.set (j + 1)
        (vmax (vsub P.t (getv Ic (j + 1)) P.prof.read_gext)
          (vsub P.t (getv S (j + 1)) (P.prof.read_gopen + P.prof.read_gext))))
      (vmax (vsub P.t Dp P.prof.ref_gext)
        (vsub P.t (getv S (j + 1 - 1)) (P.prof.ref_gopen + P.prof.ref_gext)))
      (getv S (j + 1))
      (if P.ete then tr
       else cellFinish P tr
         (vmax (vmax (vsub P.t (getv Ic (j + 1)) P.prof.read_gext)
             (vsub P.t (getv S (j + 1)) (P.prof.read_gopen + P.prof.read_gext)))
           (vmax (vmax (vsub P.t Dp P.prof.ref_gext)
               (vsub P.t (getv S (j + 1 - 1)) (P.prof.ref_gopen + P.prof.ref_gext)))
             (diagVec P Sd rb refb))) pos)
      (by simp only [List.length_cons] at hj; omega)
      (by
        intro idx
        have := hrest (idx + 1)
        simpa [Nat.add_assoc, Nat.add_comm 1 idx] using this)
      (by simpa using hSlen)
      (by simpa using hIclen)
      (by
        intro i hi
        rcases Nat.lt_or_ge i (j + 1) with hlt | hge
        · rw [getv_set_ne S (j + 1) i _ (by omega)]
          exact hSlow i (by omega)
        · have hieq : i = j + 1 := by omega
          subst hieq
          rw [getv_set_self S (j + 1) _ hj1len]
          exact hSnew)
      (by
        intro i hi
        rw [getv_set_ne S (j + 1) i _ (by omega)]
        exact hShigh i (by omega))
      (by
        intro i hi
        rcases Nat.lt_or_ge i (j + 1) with hlt | hge
        · rw [getv_set_ne Ic (j + 1) i _ (by omega)]
          exact hIlow i (by omega)
        · have hieq : i = j + 1 := by omega
          subst hieq
          rw [getv_set_self Ic (j + 1) _ hj1lenI]
          exact hIr)
      (by
        intro i hi
        rw [getv_set_ne Ic (j + 1) i _ (by omega)]
        exact hIhigh i (by omega))
      hDr
      (by
        rw [hShigh (j + 1) (Nat.lt_succ_self j)]
        simp)
    refine ⟨?_, ?_, ?_⟩
    · intro i
      have := ihS i
      simpa only [fillRows] using this
    · intro i
      have := ihI i
      simpa only [fillRows] using this
    · rw [show (fillRows P refb pos (rb :: rest') (j + 1) S Ic Dp Sd tr).2.2 =
        (fillRows P refb pos rest' (j + 1 + 1)
          (S.set (j + 1)
            (vmax (vmax (vsub P.t (getv Ic (j + 1)) P.prof.read_gext)
                (vsub P.t (getv S (j + 1)) (P.prof.read_gopen + P.prof.read_gext)))
              (vmax (vmax (vsub P.t Dp P.prof.ref_gext)
                  (vsub P.t (getv S (j + 1 - 1)) (P.prof.ref_gopen + P.prof.ref_gext)))
                (diagVec P Sd rb refb))))
          (Ic.set (j + 1)
            (vmax (vsub P.t (getv Ic (j + 1)) P.prof.read_gext)
              (vsub P.t (getv S (j + 1)) (P.prof.read_gopen + P.prof.read_gext))))
          (vmax (vsub P.t Dp P.prof.ref_gext)
            (vsub P.t (getv S (j + 1 - 1)) (P.prof.ref_gopen + P.prof.ref_gext)))
          (getv S (j + 1))
          (if P.ete then tr
           else cellFinish P tr
             (vmax (vmax (vsub P.t (getv Ic (j + 1)) P.prof.read_gext)
                 (vsub P.t (getv S (j + 1)) (P.prof.read_gopen + P.prof.read_gext)))
               (vmax (vmax (vsub P.t Dp P.prof.ref_gext)
                   (vsub P.t (getv S (j + 1 - 1)) (P.prof.ref_gopen + P.prof.ref_gext)))
                 (diagVec P Sd rb refb))) pos)).2.2 from rfl]
      rw [ihT]
      by_cases he : P.ete
      · simp [he]
      · simp only [he, Bool.false_eq_true, if_neg, not_false_iff, if_false]
        have hsplit : P.L - j = (P.L - (j + 1)) + 1 := by omega
        rw [hsplit]
        have hr' : List.range' (j + 1) (P.L - (j + 1) + 1) =
            (j + 1) :: List.range' (j + 1 + 1) (P.L - (j + 1)) := rfl
        rw [hr']
        simp only [trackFold, List.foldl_cons]
        rw [hSnew]

/-- Claim C1: for every column of every node fill, the cell updates compute
the specification's equations with saturating arithmetic — there is a `D`
column with `D[0] = bias` such that for every row `r ∈ [1, L]`:
`D[r] = max(D[r-1] - ref_gext, S[r-1] - (ref_gopen + ref_gext))` (with
`S[r-1]` the current, already-updated column),
`I_c[r] = max(I_c[r] - read_gext, S[r] - (read_gopen + read_gext))` (with
the incoming column on the right), and
`S[r] = max(I_c[r], max(D[r], S_diag + bonus))` where `S_diag` is the bias
before row 1 and the incoming `S[r-1]` otherwise and the bonus is the
ambiguous penalty when either base is `N`, the match score on equal non-`N`
bases and the mismatch penalty otherwise (`cellScore`/`diagVec`); moreover
the score tracker is invoked on every row of the column in local mode and
only on row `L` in end-to-end mode (the tracker output is the
`cellFinishLane` fold over exactly those rows). -/
theorem claim1_cell_recurrence (P : Params) (readsP : List (List Base))
    (refb : Base) (pos : Nat) (S Ic : List Vec) (tr : List LaneTrack)
    (hS : S.length = P.L + 1) (hIc : Ic.length = P.L + 1)
    (hreads : readsP.length = P.L) :
    ∃ D : Nat → Vec,
      D 0 = broadcast P.n P.bias ∧
      (∀ r, 1 ≤ r → r ≤ P.L →
        D r = vmax (vsub P.t (D (r - 1)) P.prof.ref_gext)
            (vsub P.t (getv (fillColumn P readsP refb pos S Ic tr).1 (r - 1))
              (P.prof.ref_gopen + P.prof.ref_gext)) ∧
        getv (fillColumn P readsP refb pos S Ic tr).2.1 r =
          vmax (vsub P.t (getv Ic r) P.prof.read_gext)
            (vsub P.t (getv S r) (P.prof.read_gopen + P.prof.read_gext)) ∧
        getv (fillColumn P readsP refb pos S Ic tr).1 r =
          vmax (getv (fillColumn P readsP refb pos S Ic tr).2.1 r)
            (vmax (D r)
              (diagVec P (if r = 1 then broadcast P.n P.bias else getv S (r - 1))
                (readsP.getD (r - 1) []) refb))) ∧
      (fillColumn P readsP refb pos S Ic tr).2.2 =
        (if P.ete then
          cellFinish P tr (getv (fillColumn P readsP refb pos S Ic tr).1 P.L) pos
        else
          trackFold P pos
            (fun r => getv (fillColumn P readsP refb pos S Ic tr).1 r)
            (List.range' 1 P.L) tr) := by
  obtain ⟨hS', hI', hT⟩ := fillRows_spec P refb pos readsP S Ic readsP 0 S Ic
    (broadcast P.n P.bias) (broadcast P.n P.bias) tr
    (by simpa using hreads)
    (fun idx => by simp)
    hS hIc
    (fun i hi => by
      have : i = 0 := Nat.le_zero.mp hi
      subst this
      rfl)
    (fun i _ => rfl)
    (fun i hi => by
      have : i = 0 := Nat.le_zero.mp hi
      subst this
      rfl)
    (fun i _ => rfl)
    rfl
    (by simp)
  have hcol1 : (fillColumn P readsP refb pos S Ic tr).1 =
      (fillRows P refb pos readsP (0 + 1) S Ic (broadcast P.n P.bias)
        (broadcast P.n P.bias) tr).1 := rfl
  have hcol2 : (fillColumn P readsP refb pos S Ic tr).2.1 =
      (fillRows P refb pos readsP (0 + 1) S Ic (broadcast P.n P.bias)
        (broadcast P.n P.bias) tr).2.1 := rfl
  refine ⟨fun r => (specCell P readsP refb S Ic r).1, rfl, ?_, ?_⟩
  · intro r h1 hL
    obtain ⟨rr, rfl⟩ : ∃ rr, r = rr + 1 := ⟨r - 1, by omega⟩
    refine ⟨?_, ?_, ?_⟩
    · rw [hcol1, hS' (rr + 1 - 1)]
      have hrrL : rr + 1 - 1 ≤ P.L := by omega
      simp only [Nat.add_sub_cancel] at hrrL ⊢
      rw [if_pos hrrL]
      rfl
    · rw [hcol2, hI' (rr + 1)]
      rw [if_pos hL]
      rfl
    · rw [hcol1, hcol2, hS' (rr + 1), hI' (rr + 1), if_pos hL, if_pos hL]
      simp only [Nat.add_sub_cancel]
      by_cases hrr : rr = 0
      · subst hrr
        simp [specCell]
      · simp [specCell, hrr]
  · simp only [fillColumn]
    rw [hT]
    by_cases he : P.ete
    · simp only [he, if_pos]
    · simp only [he, Bool.false_eq_true, if_neg, not_false_iff, if_false,
        Nat.sub_zero]
      refine (trackFold_congr P pos _ _ (List.range' 1 P.L) ?_ tr).symm
      intro r hr
      have hmem := List.mem_range'_1.mp hr
      have hv := hS' r
      rw [if_pos (by omega : r ≤ P.L)] at hv
      simpa using hv

/-- Concrete column inputs for the C1 witness. -/
def w1S : List Vec := List.replicate 3 [(-128 : Int)]

/-- The packaged one-read batch of the C1 witness. -/
def w1reads : List (List Base) := packageReads 1 2 [readAA]

/-- The tracker input of the C1 witness. -/
def w1tr : List LaneTrack := List.replicate 1 (initLane int8)

/-- Witness for claim C1 at a concrete one-lane, two-row column. -/
theorem claim1_cell_recurrence_witness :
    w1S.length = w6P.L + 1 ∧ w1reads.length = w6P.L ∧
      (∃ D : Nat → Vec,
        D 0 = broadcast w6P.n w6P.bias ∧
        (∀ r, 1 ≤ r → r ≤ w6P.L →
          D r = vmax (vsub w6P.t (D (r - 1)) w6P.prof.ref_gext)
              (vsub w6P.t (getv (fillColumn w6P w1reads Base.A 1 w1S w1S w1tr).1 (r - 1))
                (w6P.prof.ref_gopen + w6P.prof.ref_gext)) ∧
          getv (fillColumn w6P w1reads Base.A 1 w1S w1S w1tr).2.1 r =
            vmax (vsub w6P.t (getv w1S r) w6P.prof.read_gext)
              (vsub w6P.t (getv w1S r) (w6P.prof.read_gopen + w6P.prof.read_gext)) ∧
          getv (fillColumn w6P w1reads Base.A 1 w1S w1S w1tr).1 r =
            vmax (getv (fillColumn w6P w1reads Base.A 1 w1S w1S w1tr).2.1 r)
              (vmax (D r)
                (diagVec w6P (if r = 1 then broadcast w6P.n w6P.bias else getv w1S (r - 1))
                  (w1reads.getD (r - 1) []) Base.A))) ∧
        (fillColumn w6P w1reads Base.A 1 w1S w1S w1tr).2.2 =
          (if w6P.ete then
            cellFinish w6P w1tr (getv (fillColumn w6P w1reads Base.A 1 w1S w1S w1tr).1 w6P.L) 1
          else
            trackFold w6P 1
              (fun r => getv (fillColumn w6P w1reads Base.A 1 w1S w1S w1tr).1 r)
              (List.range' 1 w6P.L) w1tr)) :=
  ⟨rfl, rfl, claim1_cell_recurrence w6P w1reads Base.A 1 w1S w1S w1tr rfl rfl rfl⟩

/-! ### Claim C8: fold and list auxiliaries -/

theorem le_foldl_max_init (l : List Int) : ∀ a : Int, a ≤ l.foldl max a := by
  induction l with
  | nil => intro a; simp
  | cons x rest ih =>
    intro a
    calc a ≤ max a x := le_max_left a x
      _ ≤ rest.foldl max (max a x) := ih (max a x)

theorem foldl_max_le_mem (l : List Int) :
    ∀ (a v : Int), v ∈ l → v ≤ l.foldl max a := by
  induction l with
  | nil => intro a v hv; simp at hv
  | cons x rest ih =>
    intro a v hv
    rcases List.mem_cons.mp hv with h | h
    · subst h
      calc v ≤ max a v := le_max_right a v
        _ ≤ rest.foldl max (max a v) := le_foldl_max_init rest (max a v)
    · exact ih (max a x) v h

theorem foldl_max_mem_or (l : List Int) :
    ∀ a : Int, l.foldl max a = a ∨ l.foldl max a ∈ l := by
  induction l with
  | nil => intro a; simp
  | cons x rest ih =>
    intro a
    rcases ih (max a x) with h | h
    · rcases max_cases a x with ⟨he, _⟩ | ⟨he, _⟩
      · left; simp only [List.foldl_cons]; rw [h, he]
      · right; simp only [List.foldl_cons]; rw [h, he]; exact List.mem_cons_self x rest
    · right
      simp only [List.foldl_cons]
      exact List.mem_cons_of_mem x h

theorem foldl_max_absorb (l : List Int) :
    ∀ c : Int, (∀ v ∈ l, v ≤ c) → l.foldl max c = c := by
  induction l with
  | nil => intro c _; rfl
  | cons x rest ih =>
    intro c hub
    simp only [List.foldl_cons]
    rw [max_eq_left (hub x (List.mem_cons_self x rest))]
    exact ih c (fun v hv => hub v (List.mem_cons_of_mem x hv))

/-- The eligible-row cell values of one column at one lane. -/
def eligVals (P : Params) (S : List Vec) (i : Nat) : List Int :=
  (rowsList P).map (fun q => lane (getv S q) i)

theorem eligUpdate_eq_foldl (P : Params) (S : List Vec) (i : Nat) (a : Int) :
    eligUpdate P S i a = (eligVals P S i).foldl max a := by
  simp [eligUpdate, eligVals, List.foldl_map]

theorem eligUpdate_idem (P : Params) (S : List Vec) (i : Nat) (a : Int) :
    eligUpdate P S i (eligUpdate P S i a) = eligUpdate P S i a := by
  simp only [eligUpdate_eq_foldl]
  exact foldl_max_absorb _ _ (fun v hv => foldl_max_le_mem _ _ v hv)

theorem foldl_congr_mem {α β : Type} (l : List β) :
    ∀ (f g : α → β → α) (a : α), (∀ b pc, pc ∈ l → f b pc = g b pc) →
      l.foldl f a = l.foldl g a := by
  induction l with
  | nil => intro f g a _; rfl
  | cons x rest ih =>
    intro f g a h
    simp only [List.foldl_cons]
    rw [h a x (List.mem_cons_self x rest)]
    exact ih f g (g a x) (fun b pc hpc => h b pc (List.mem_cons_of_mem x hpc))

theorem consumeTargets_rem (P : Params) (pos : Nat) (S : List Vec) :
    ∀ (rem : List (Nat × Nat)) (tsc : List Int),
      (consumeTargets P pos S rem tsc).1 =
        rem.dropWhile (fun e => e.2 = pos) := by
  intro rem
  induction rem with
  | nil => intro tsc; rfl
  | cons e rest ih =>
    intro tsc
    by_cases he : e.2 = pos
    · simp only [consumeTargets, he, if_pos, List.dropWhile]
      rw [ih]
      simp [he]
    · simp only [consumeTargets, he, if_neg, not_false_iff, List.dropWhile]
      simp [he]

theorem consumeTargets_len (P : Params) (pos : Nat) (S : List Vec) :
    ∀ (rem : List (Nat × Nat)) (tsc : List Int),
      (consumeTargets P pos S rem tsc).2.length = tsc.length := by
  intro rem
  induction rem with
  | nil => intro tsc; rfl
  | cons e rest ih =>
    intro tsc
    by_cases he : e.2 = pos
    · simp only [consumeTargets, he, if_pos]
      rw [ih]
      simp
    · simp [consumeTargets, he]

theorem consumeTargets_tsc (P : Params) (pos : Nat) (S : List Vec) :
    ∀ (rem : List (Nat × Nat)) (tsc : List Int) (i : Nat),
      (∀ e ∈ rem, e.1 < tsc.length) →
      (consumeTargets P pos S rem tsc).2.getD i 0 =
        if (i, pos) ∈ rem.takeWhile (fun e => e.2 = pos) then
          eligUpdate P S i (tsc.getD i 0)
        else tsc.getD i 0 := by
  intro rem
  induction rem with
  | nil => intro tsc i _; simp [consumeTargets, List.takeWhile]
  | cons e rest ih =>
    rcases e with ⟨e1, e2⟩
    intro tsc i hlen
    by_cases he : e2 = pos
    · subst he
      have htw : ((e1, e2) :: rest).takeWhile (fun e => e.2 = e2) =
          (e1, e2) :: rest.takeWhile (fun e => e.2 = e2) := by
        simp [List.takeWhile]
      have hstep : consumeTargets P e2 S ((e1, e2) :: rest) tsc =
          consumeTargets P e2 S rest
            (tsc.set e1 (eligUpdate P S e1 (tsc.getD e1 0))) := by
        simp [consumeTargets]
      rw [hstep, htw]
      have hlenrest : ∀ e' ∈ rest,
          e'.1 < (tsc.set e1 (eligUpdate P S e1 (tsc.getD e1 0))).length := by
        intro e' he'
        simp only [List.length_set]
        exact hlen e' (List.mem_cons_of_mem _ he')
      rw [ih _ i hlenrest]
      have he1len : e1 < tsc.length := hlen (e1, e2) (List.mem_cons_self _ _)
      by_cases hie : i = e1
      · subst hie
        have hset : (tsc.set i (eligUpdate P S i (tsc.getD i 0))).getD i 0 =
            eligUpdate P S i (tsc.getD i 0) := by
          simp [List.getD_eq_getElem?_getD, List.getElem?_set, he1len]
        rw [hset]
        rw [if_pos (List.mem_cons_self _ _)]
        by_cases hmem : ((i, e2) : Nat × Nat) ∈
            rest.takeWhile (fun e => e.2 = e2)
        · rw [if_pos hmem, eligUpdate_idem]
        · rw [if_neg hmem]
      · have hset : (tsc.set e1 (eligUpdate P S e1 (tsc.getD e1 0))).getD i 0 =
            tsc.getD i 0 := by
          simp [List.getD_eq_getElem?_getD, List.getElem?_set, Ne.symm hie]
        rw [hset]
        by_cases hm : ((i, e2) : Nat × Nat) ∈ rest.takeWhile (fun e => e.2 = e2)
        · rw [if_pos hm, if_pos (List.mem_cons_of_mem _ hm)]
        · rw [if_neg hm, if_neg ?_]
          intro hc
          rcases List.mem_cons.mp hc with hh | ht
          · exact hie (by simpa using congrArg Prod.fst hh)
          · exact hm ht
    · have hstep : consumeTargets P pos S ((e1, e2) :: rest) tsc =
          ((e1, e2) :: rest, tsc) := by
        simp [consumeTargets, he]
      rw [hstep]
      have htw : ((e1, e2) :: rest).takeWhile (fun e => e.2 = pos) = [] := by
        simp [List.takeWhile, he]
      rw [htw]
      simp

theorem mem_takeWhile_eq_of_sorted (pos i : Nat) :
    ∀ (l : List (Nat × Nat)), List.Pairwise (fun a b => a.2 ≤ b.2) l →
      (∀ e ∈ l, pos ≤ e.2) →
      (((i, pos) : Nat × Nat) ∈ l.takeWhile (fun e => e.2 = pos) ↔
        ((i, pos) : Nat × Nat) ∈ l) := by
  intro l
  induction l with
  | nil => intro _ _; simp [List.takeWhile]
  | cons e rest ih =>
    intro hp hb
    have hpr := List.pairwise_cons.mp hp
    by_cases hpos : e.2 = pos
    · have htw : (e :: rest).takeWhile (fun e => e.2 = pos) =
          e :: rest.takeWhile (fun e => e.2 = pos) := by
        simp [List.takeWhile, hpos]
      rw [htw]
      constructor
      · intro hm
        rcases List.mem_cons.mp hm with hh | ht
        · exact hh ▸ List.mem_cons_self e rest
        · exact List.mem_cons_of_mem e
            ((ih hpr.2 (fun x hx => hb x (List.mem_cons_of_mem e hx))).mp ht)
      · intro hm
        rcases List.mem_cons.mp hm with hh | ht
        · exact hh ▸ List.mem_cons_self _ _
        · exact List.mem_cons_of_mem e
            ((ih hpr.2 (fun x hx => hb x (List.mem_cons_of_mem e hx))).mpr ht)
    · have htw : (e :: rest).takeWhile (fun e => e.2 = pos) = [] := by
        simp [List.takeWhile, hpos]
      rw [htw]
      simp only [List.not_mem_nil, false_iff]
      intro hm
      rcases List.mem_cons.mp hm with hh | ht
      · exact hpos (by simpa using congrArg Prod.snd hh.symm)
      · have h1 : e.2 ≤ pos := by simpa using hpr.1 (i, pos) ht
        have h2 : pos ≤ e.2 := hb e (List.mem_cons_self e rest)
        exact hpos (le_antisymm h1 h2)

theorem mem_dropWhile_ne (pos q i : Nat) (hq : q ≠ pos) (l : List (Nat × Nat)) :
    (((i, q) : Nat × Nat) ∈ l.dropWhile (fun e => e.2 = pos) ↔
      ((i, q) : Nat × Nat) ∈ l) := by
  constructor
  · intro hm
    exact List.Sublist.subset (List.dropWhile_sublist _) hm
  · intro hm
    rw [← List.takeWhile_append_dropWhile (p := fun e => e.2 = pos) (l := l)] at hm
    rcases List.mem_append.mp hm with h | h
    · have := List.mem_takeWhile_imp h
      simp at this
      exact absurd this hq
    · exact h

theorem dropWhile_eq_bound (pos : Nat) :
    ∀ (l : List (Nat × Nat)), List.Pairwise (fun a b => a.2 ≤ b.2) l →
      (∀ e ∈ l, pos ≤ e.2) →
      ∀ e ∈ l.dropWhile (fun x => x.2 = pos), pos + 1 ≤ e.2 := by
  intro l
  induction l with
  | nil => intro _ _ e he; simp [List.dropWhile] at he
  | cons x rest ih =>
    intro hp hb
    have hpr := List.pairwise_cons.mp hp
    by_cases hpos : x.2 = pos
    · have hdw : (x :: rest).dropWhile (fun e => e.2 = pos) =
          rest.dropWhile (fun e => e.2 = pos) := by
        simp [List.dropWhile, hpos]
      rw [hdw]
      exact ih hpr.2 (fun e he => hb e (List.mem_cons_of_mem x he))
    · have hdw : (x :: rest).dropWhile (fun e => e.2 = pos) = x :: rest := by
        simp [List.dropWhile, hpos]
      rw [hdw]
      intro e he
      have hxe : pos ≤ x.2 := hb x (List.mem_cons_self x rest)
      have hx : pos + 1 ≤ x.2 := by omega
      rcases List.mem_cons.mp he with hh | ht
      · exact hh ▸ hx
      · have := hpr.1 e ht
        omega

theorem dropWhile_lt_bound (s : Nat) :
    ∀ (l : List (Nat × Nat)), List.Pairwise (fun a b => a.2 ≤ b.2) l →
      ∀ e ∈ l.dropWhile (fun x => x.2 < s), s ≤ e.2 := by
  intro l
  induction l with
  | nil => intro _ e he; simp [List.dropWhile] at he
  | cons x rest ih =>
    intro hp
    have hpr := List.pairwise_cons.mp hp
    by_cases hlt : x.2 < s
    · have hdw : (x :: rest).dropWhile (fun e => e.2 < s) =
          rest.dropWhile (fun e => e.2 < s) := by
        simp [List.dropWhile, hlt]
      rw [hdw]
      exact ih hpr.2
    · have hdw : (x :: rest).dropWhile (fun e => e.2 < s) = x :: rest := by
        simp [List.dropWhile, hlt]
      rw [hdw]
      intro e he
      rcases List.mem_cons.mp he with hh | ht
      · subst hh; omega
      · have := hpr.1 e ht
        omega

theorem mem_dropWhile_lt (s q i : Nat) (hq : s ≤ q) (l : List (Nat × Nat)) :
    (((i, q) : Nat × Nat) ∈ l.dropWhile (fun e => e.2 < s) ↔
      ((i, q) : Nat × Nat) ∈ l) := by
  constructor
  · intro hm
    exact List.Sublist.subset (List.dropWhile_sublist _) hm
  · intro hm
    rw [← List.takeWhile_append_dropWhile (p := fun e => e.2 < s) (l := l)] at hm
    rcases List.mem_append.mp hm with h | h
    · have := List.mem_takeWhile_imp h
      simp at this
      omega
    · exact h

/-- Every lane read of the vector is at least the lane minimum (out-of-range
reads return 0, covered by `minv ≤ 0`, true of both lane types). -/
def GoodLane (t : LaneTy) (v : Vec) : Prop := ∀ k, t.minv ≤ lane v k

theorem lane_le_of_default (t : LaneTy) (hm0 : t.minv ≤ 0) (v : Vec)
    (hv : ∀ x ∈ v, t.minv ≤ x) : GoodLane t v := by
  intro k
  by_cases hk : k < v.length
  · have : lane v k = v[k] := by
      simp [lane, List.getD_eq_getElem?_getD, List.getElem?_eq_getElem, hk]
    rw [this]
    exact hv _ (List.getElem_mem hk)
  · have : lane v k = 0 := by
      simp [lane, List.getD_eq_getElem?_getD, List.getElem?_eq_none
        (Nat.le_of_not_lt hk)]
    rw [this]
    exact hm0

theorem good_vsub (t : LaneTy) (hm0 : t.minv ≤ 0) (a : Vec) (x : Nat) :
    GoodLane t (vsub t a x) := by
  refine lane_le_of_default t hm0 _ ?_
  intro y hy
  rcases List.mem_map.mp hy with ⟨z, _, hz⟩
  rw [← hz]
  exact le_max_left _ _

theorem good_diagVec (P : Params) (hm0 : P.t.minv ≤ 0) (Sd : Vec)
    (rb : List Base) (refb : Base) : GoodLane P.t (diagVec P Sd rb refb) := by
  refine lane_le_of_default P.t hm0 _ ?_
  intro y hy
  simp only [diagVec] at hy
  rcases List.mem_iff_get.mp hy with ⟨k, hk⟩
  rw [← hk]
  simp only [List.get_eq_getElem, List.getElem_zipWith]
  exact le_max_left _ _

theorem good_vmax (t : LaneTy) (hm0 : t.minv ≤ 0) (a b : Vec)
    (ha : GoodLane t a) : GoodLane t (vmax a b) := by
  intro k
  by_cases hk : k < (vmax a b).length
  · have hka : k < a.length := by
      simp only [vmax, List.length_zipWith] at hk
      omega
    have hkb : k < b.length := by
      simp only [vmax, List.length_zipWith] at hk
      omega
    have hv : lane (vmax a b) k = max (lane a k) (lane b k) := by
      simp [lane, vmax, List.getD_eq_getElem?_getD, List.getElem?_zipWith,
        List.getElem?_eq_getElem, hka, hkb]
    rw [hv]
    exact le_trans (ha k) (le_max_left _ _)
  · have : lane (vmax a b) k = 0 := by
      simp [lane, List.getD_eq_getElem?_getD,
        List.getElem?_eq_none (Nat.le_of_not_lt hk)]
    rw [this]
    exact hm0

/-- Rows `1 .. L` of the specification recurrence are bounded below by the
lane minimum: every written cell is a lanewise max whose first operand is
saturating. -/
theorem good_specCell (P : Params) (hm0 : P.t.minv ≤ 0)
    (reads : List (List Base)) (refb : Base) (S0 Ic0 : List Vec) (r : Nat)
    (h1 : 1 ≤ r) : GoodLane P.t (specCell P reads refb S0 Ic0 r).2.2 := by
  obtain ⟨rr, rfl⟩ : ∃ rr, r = rr + 1 := ⟨r - 1, by omega⟩
  show GoodLane P.t (specCell P reads refb S0 Ic0 (rr + 1)).2.2
  simp only [specCell]
  exact good_vmax P.t hm0 _ _
    (good_vmax P.t hm0 _ _ (good_vsub P.t hm0 _ _))

theorem fillRows_len (P : Params) (refb : Base) (pos : Nat) :
    ∀ (rest : List (List Base)) (r : Nat) (S Ic : List Vec) (Dp Sd : Vec)
      (tr : List LaneTrack),
      (fillRows P refb pos rest r S Ic Dp Sd tr).1.length = S.length ∧
        (fillRows P refb pos rest r S Ic Dp Sd tr).2.1.length = Ic.length := by
  intro rest
  induction rest with
  | nil => intro r S Ic Dp Sd tr; exact ⟨rfl, rfl⟩
  | cons rb rest' ih =>
    intro r S Ic Dp Sd tr
    simp only [fillRows]
    refine ⟨?_, ?_⟩
    · rw [(ih _ _ _ _ _ _).1]
      simp
    · rw [(ih _ _ _ _ _ _).2]
      simp

/-- Structural facts about the column loop: lengths are preserved, the ghost
trace grows by a suffix of columns at positions from `pos` on, and every
appended column is bounded below by the lane minimum on rows `1 .. L`. -/
theorem fillCols_struct (P : Params) (readsP : List (List Base))
    (hm0 : P.t.minv ≤ 0) (hreads : readsP.length = P.L) :
    ∀ (seq : List Base) (pos : Nat) (S Ic : List Vec) (tr : List LaneTrack)
      (rem : List (Nat × Nat)) (tsc : List Int) (trace : List (Nat × List Vec)),
      S.length = P.L + 1 → Ic.length = P.L + 1 →
      (fillCols P readsP seq pos S Ic tr rem tsc trace).1.length = P.L + 1 ∧
        (fillCols P readsP seq pos S Ic tr rem tsc trace).2.1.length = P.L + 1 ∧
        (fillCols P readsP seq pos S Ic tr rem tsc trace).2.2.2.1.length =
          tsc.length ∧
        ∃ delta,
          (fillCols P readsP seq pos S Ic tr rem tsc trace).2.2.2.2 =
            trace ++ delta ∧
          ∀ pc ∈ delta, pos ≤ pc.1 ∧
            (∀ r, 1 ≤ r → r ≤ P.L → GoodLane P.t (getv pc.2 r)) := by
  intro seq
  induction seq with
  | nil =>
    intro pos S Ic tr rem tsc trace hS hIc
    exact ⟨hS, hIc, rfl, [], by simp [fillCols], by simp⟩
  | cons b rest ih =>
    intro pos S Ic tr rem tsc trace hS hIc
    have hlen1 : (fillColumn P readsP b pos S Ic tr).1.length = P.L + 1 := by
      simp only [fillColumn]
      rw [(fillRows_len P b pos readsP 1 S Ic _ _ tr).1]
      exact hS
    have hlen2 : (fillColumn P readsP b pos S Ic tr).2.1.length = P.L + 1 := by
      simp only [fillColumn]
      rw [(fillRows_len P b pos readsP 1 S Ic _ _ tr).2]
      exact hIc
    have hgood : ∀ r, 1 ≤ r → r ≤ P.L →
        GoodLane P.t (getv (fillColumn P readsP b pos S Ic tr).1 r) := by
      intro r h1 hL
      obtain ⟨hS', _, _⟩ := fillRows_spec P b pos readsP S Ic readsP 0 S Ic
        (broadcast P.n P.bias) (broadcast P.n P.bias) tr
        (by simpa using hreads) (fun idx => by simp) hS hIc
        (fun i hi => by
          have : i = 0 := Nat.le_zero.mp hi
          subst this; rfl)
        (fun i _ => rfl)
        (fun i hi => by
          have : i = 0 := Nat.le_zero.mp hi
          subst this; rfl)
        (fun i _ => rfl) rfl (by simp)
      have hv := hS' r
      rw [if_pos hL] at hv
      have hcol : (fillColumn P readsP b pos S Ic tr).1 =
          (fillRows P b pos readsP (0 + 1) S Ic (broadcast P.n P.bias)
            (broadcast P.n P.bias) tr).1 := rfl
      rw [hcol, hv]
      exact good_specCell P hm0 readsP b S Ic r h1
    obtain ⟨o1, o2, o3, delta₁, htrace, hdelta⟩ := ih (pos + 1)
      (fillColumn P readsP b pos S Ic tr).1
      (fillColumn P readsP b pos S Ic tr).2.1
      (fillColumn P readsP b pos S Ic tr).2.2
      (consumeTargets P pos (fillColumn P readsP b pos S Ic tr).1 rem tsc).1
      (consumeTargets P pos (fillColumn P readsP b pos S Ic tr).1 rem tsc).2
      (trace ++ [(pos, (fillColumn P readsP b pos S Ic tr).1)])
      hlen1 hlen2
    have hunf : fillCols P readsP (b :: rest) pos S Ic tr rem tsc trace =
        fillCols P readsP rest (pos + 1) (fillColumn P readsP b pos S Ic tr).1
          (fillColumn P readsP b pos S Ic tr).2.1
          (fillColumn P readsP b pos S Ic tr).2.2
          (consumeTargets P pos (fillColumn P readsP b pos S Ic tr).1 rem tsc).1
          (consumeTargets P pos (fillColumn P readsP b pos S Ic tr).1 rem tsc).2
          (trace ++ [(pos, (fillColumn P readsP b pos S Ic tr).1)]) := rfl
    rw [hunf]
    refine ⟨o1, o2, ?_, (pos, (fillColumn P readsP b pos S Ic tr).1) :: delta₁,
      ?_, ?_⟩
    · rw [o3, consumeTargets_len]
    · simpa [List.append_assoc] using htrace
    · intro pc hpc
      rcases List.mem_cons.mp hpc with hh | ht
      · subst hh
        exact ⟨le_refl pos, hgood⟩
      · exact ⟨by have := (hdelta pc ht).1; omega, (hdelta pc ht).2⟩

/-- The target-score fold of the column loop: under a position-sorted
remaining target list whose entries all sit at or past the current column,
the final score slot of lane `i` is the fold, over the appended trace
columns, of the eligible-row update applied exactly at columns whose
position carries lane `i`'s target entry. -/
theorem fillCols_tsc (P : Params) (readsP : List (List Base)) :
    ∀ (seq : List Base) (pos : Nat) (S Ic : List Vec) (tr : List LaneTrack)
      (rem : List (Nat × Nat)) (tsc : List Int) (trace : List (Nat × List Vec)),
      List.Pairwise (fun a b => a.2 ≤ b.2) rem →
      (∀ e ∈ rem, pos ≤ e.2) →
      (∀ e ∈ rem, e.1 < tsc.length) →
      ∃ delta,
        (fillCols P readsP seq pos S Ic tr rem tsc trace).2.2.2.2 =
          trace ++ delta ∧
        (∀ pc ∈ delta, pos ≤ pc.1) ∧
        ∀ i, (fillCols P readsP seq pos S Ic tr rem tsc trace).2.2.2.1.getD i 0 =
          delta.foldl
            (fun a pc => if ((i, pc.1) : Nat × Nat) ∈ rem then
              eligUpdate P pc.2 i a else a)
            (tsc.getD i 0) := by
  intro seq
  induction seq with
  | nil =>
    intro pos S Ic tr rem tsc trace _ _ _
    exact ⟨[], by simp [fillCols], by simp, fun i => rfl⟩
  | cons b rest ih =>
    intro pos S Ic tr rem tsc trace hp hb hl
    have hunf : fillCols P readsP (b :: rest) pos S Ic tr rem tsc trace =
        fillCols P readsP rest (pos + 1) (fillColumn P readsP b pos S Ic tr).1
          (fillColumn P readsP b pos S Ic tr).2.1
          (fillColumn P readsP b pos S Ic tr).2.2
          (consumeTargets P pos (fillColumn P readsP b pos S Ic tr).1 rem tsc).1
          (consumeTargets P pos (fillColumn P readsP b pos S Ic tr).1 rem tsc).2
          (trace ++ [(pos, (fillColumn P readsP b pos S Ic tr).1)]) := rfl
    have hrem : (consumeTargets P pos (fillColumn P readsP b pos S Ic tr).1
        rem tsc).1 = rem.dropWhile (fun e => e.2 = pos) :=
      consumeTargets_rem P pos _ rem tsc
    have hp' : List.Pairwise (fun a b => a.2 ≤ b.2)
        (consumeTargets P pos (fillColumn P readsP b pos S Ic tr).1
          rem tsc).1 := by
      rw [hrem]
      exact hp.sublist (List.dropWhile_sublist _)
    have hb' : ∀ e ∈ (consumeTargets P pos
        (fillColumn P readsP b pos S Ic tr).1 rem tsc).1, pos + 1 ≤ e.2 := by
      rw [hrem]
      exact dropWhile_eq_bound pos rem hp hb
    have hl' : ∀ e ∈ (consumeTargets P pos
        (fillColumn P readsP b pos S Ic tr).1 rem tsc).1,
        e.1 < (consumeTargets P pos (fillColumn P readsP b pos S Ic tr).1
          rem tsc).2.length := by
      intro e he
      rw [consumeTargets_len]
      refine hl e ?_
      rw [hrem] at he
      exact List.Sublist.subset (List.dropWhile_sublist _) he
    obtain ⟨delta₁, htr₁, hpos₁, hfold₁⟩ := ih (pos + 1)
      (fillColumn P readsP b pos S Ic tr).1
      (fillColumn P readsP b pos S Ic tr).2.1
      (fillColumn P readsP b pos S Ic tr).2.2
      (consumeTargets P pos (fillColumn P readsP b pos S Ic tr).1 rem tsc).1
      (consumeTargets P pos (fillColumn P readsP b pos S Ic tr).1 rem tsc).2
      (trace ++ [(pos, (fillColumn P readsP b pos S Ic tr).1)]) hp' hb' hl'
    refine ⟨(pos, (fillColumn P readsP b pos S Ic tr).1) :: delta₁, ?_, ?_, ?_⟩
    · rw [hunf]
      simpa [List.append_assoc] using htr₁
    · intro pc hpc
      rcases List.mem_cons.mp hpc with hh | ht
      · subst hh; exact le_refl pos
      · have := hpos₁ pc ht; omega
    · intro i
      rw [hunf, hfold₁ i]
      have hstart : (consumeTargets P pos
          (fillColumn P readsP b pos S Ic tr).1 rem tsc).2.getD i 0 =
          if ((i, pos) : Nat × Nat) ∈ rem then
            eligUpdate P (fillColumn P readsP b pos S Ic tr).1 i (tsc.getD i 0)
          else tsc.getD i 0 := by
        have hiff := mem_takeWhile_eq_of_sorted pos i rem hp hb
        rw [consumeTargets_tsc P pos _ rem tsc i hl]
        by_cases hmem : ((i, pos) : Nat × Nat) ∈ rem
        · rw [if_pos (hiff.mpr hmem), if_pos hmem]
        · rw [if_neg (fun hc => hmem (hiff.mp hc)), if_neg hmem]
      have hcongr : delta₁.foldl
          (fun a pc => if ((i, pc.1) : Nat × Nat) ∈
              (consumeTargets P pos (fillColumn P readsP b pos S Ic tr).1
                rem tsc).1 then eligUpdate P pc.2 i a else a)
          ((consumeTargets P pos (fillColumn P readsP b pos S Ic tr).1
            rem tsc).2.getD i 0) =
          delta₁.foldl
            (fun a pc => if ((i, pc.1) : Nat × Nat) ∈ rem then
              eligUpdate P pc.2 i a else a)
            ((consumeTargets P pos (fillColumn P readsP b pos S Ic tr).1
              rem tsc).2.getD i 0) := by
        refine foldl_congr_mem delta₁ _ _ _ ?_
        intro a pc hpc
        have hne : pc.1 ≠ pos := by
          have := hpos₁ pc hpc; omega
        simp only [hrem]
        by_cases hmem : ((i, pc.1) : Nat × Nat) ∈ rem
        · rw [if_pos ((mem_dropWhile_ne pos pc.1 i hne rem).mpr hmem),
            if_pos hmem]
        · rw [if_neg (fun hc =>
            hmem ((mem_dropWhile_ne pos pc.1 i hne rem).mp hc)), if_neg hmem]
      rw [hcongr, hstart]
      rfl

theorem mergeCol_len (P : Params) (preds : List Nat)
    (store : List (Nat × SeedCols)) (proj : SeedCols → List Vec)
    (old : List Vec) : (mergeCol P preds store proj old).length = P.L + 1 := by
  simp [mergeCol]

theorem getSeed_len (P : Params) (preds : List Nat)
    (store : List (Nat × SeedCols)) (buf : SeedCols) (s : SeedCols)
    (h : getSeed P preds store buf = .ok s) :
    s.S.length = P.L + 1 ∧ s.I.length = P.L + 1 := by
  unfold getSeed at h
  split at h
  · rcases Except.ok.injEq .. ▸ h with rfl
    exact ⟨mergeCol_len .., mergeCol_len ..⟩
  · exact absurd h (by simp)

theorem seedMatrix_len (P : Params) :
    (seedMatrix P).S.length = P.L + 1 ∧ (seedMatrix P).I.length = P.L + 1 := by
  unfold seedMatrix
  by_cases h : P.ete <;> simp [h]

theorem packageReads_len (n L : ℕ) (reads : List (List Base)) :
    (packageReads n L reads).length = L := by
  simp [packageReads]

theorem rowsList_mem_bounds (P : Params) (hL : 1 ≤ P.L) (q : Nat)
    (hq : q ∈ rowsList P) : 1 ≤ q ∧ q ≤ P.L := by
  unfold rowsList at hq
  by_cases h : P.ete
  · rw [if_pos h] at hq
    simp at hq
    omega
  · rw [if_neg h] at hq
    rcases List.mem_map.mp hq with ⟨j, hj, rfl⟩
    have := List.mem_range.mp hj
    omega

theorem rowsList_ne_nil (P : Params) (hL : 1 ≤ P.L) : rowsList P ≠ [] := by
  unfold rowsList
  by_cases h : P.ete
  · simp [h]
  · rw [if_neg h]
    intro hc
    have : P.L = 0 := by simpa using congrArg List.length hc
    omega

/-- Node-level packaging of the column-loop facts: lengths are preserved,
the trace grows by columns that are bounded below on rows `1 .. L`, and the
target-score fold tests membership in the full sorted target list (the
skipped prefix lies strictly before the node's first column). -/
theorem fillNode_facts (P : Params) (readsP : List (List Base)) (nd : GNode)
    (sd : SeedCols) (tr : List LaneTrack) (tsc : List Int)
    (sortedT : List (Nat × Nat)) (trace : List (Nat × List Vec))
    (hm0 : P.t.minv ≤ 0) (hreads : readsP.length = P.L)
    (hsort : List.Pairwise (fun a b => a.2 ≤ b.2) sortedT)
    (hlanes : ∀ e ∈ sortedT, e.1 < tsc.length)
    (hS : sd.S.length = P.L + 1) (hI : sd.I.length = P.L + 1) :
    (fillNode P readsP nd sd tr tsc sortedT trace).1.S.length = P.L + 1 ∧
    (fillNode P readsP nd sd tr tsc sortedT trace).1.I.length = P.L + 1 ∧
    (fillNode P readsP nd sd tr tsc sortedT trace).2.2.1.length = tsc.length ∧
    ∃ delta,
      (fillNode P readsP nd sd tr tsc sortedT trace).2.2.2 = trace ++ delta ∧
      (∀ pc ∈ delta, ∀ r, 1 ≤ r → r ≤ P.L → GoodLane P.t (getv pc.2 r)) ∧
      ∀ i, (fillNode P readsP nd sd tr tsc sortedT trace).2.2.1.getD i 0 =
        delta.foldl
          (fun a pc => if ((i, pc.1) : Nat × Nat) ∈ sortedT then
            eligUpdate P pc.2 i a else a)
          (tsc.getD i 0) := by
  by_cases hseq : nd.seq.isEmpty
  · refine ⟨?_, ?_, ?_, [], ?_, ?_, fun i => ?_⟩ <;> simp [fillNode, hseq, hS, hI]
  · simp only [fillNode, hseq, if_neg, Bool.false_eq_true, not_false_iff]
    have hpr : List.Pairwise (fun a b => a.2 ≤ b.2)
        (sortedT.dropWhile (fun e => e.2 < nd.endPos + 2 - nd.seq.length)) :=
      hsort.sublist (List.dropWhile_sublist _)
    have hbr : ∀ e ∈ sortedT.dropWhile
        (fun e => e.2 < nd.endPos + 2 - nd.seq.length),
        nd.endPos + 2 - nd.seq.length ≤ e.2 :=
      dropWhile_lt_bound (nd.endPos + 2 - nd.seq.length) sortedT hsort
    have hlr : ∀ e ∈ sortedT.dropWhile
        (fun e => e.2 < nd.endPos + 2 - nd.seq.length), e.1 < tsc.length :=
      fun e he => hlanes e (List.Sublist.subset (List.dropWhile_sublist _) he)
    obtain ⟨o1, o2, o3, delta_s, htr_s, hgood_s⟩ :=
      fillCols_struct P readsP hm0 hreads nd.seq
        (nd.endPos + 2 - nd.seq.length) sd.S sd.I tr
        (sortedT.dropWhile (fun e => e.2 < nd.endPos + 2 - nd.seq.length))
        tsc trace hS hI
    obtain ⟨delta_t, htr_t, hpos_t, hfold_t⟩ :=
      fillCols_tsc P readsP nd.seq (nd.endPos + 2 - nd.seq.length) sd.S sd.I tr
        (sortedT.dropWhile (fun e => e.2 < nd.endPos + 2 - nd.seq.length))
        tsc trace hpr hbr hlr
    have hde : delta_s = delta_t :=
      List.append_cancel_left (htr_s.symm.trans htr_t)
    subst hde
    refine ⟨o1, o2, o3, delta_s, htr_s,
      fun pc hpc r h1 h2 => (hgood_s pc hpc).2 r h1 h2, ?_⟩
    intro i
    rw [hfold_t i]
    refine foldl_congr_mem delta_s _ _ _ ?_
    intro a pc hpc
    have hge : nd.endPos + 2 - nd.seq.length ≤ pc.1 := hpos_t pc hpc
    have hiff := mem_dropWhile_lt (nd.endPos + 2 - nd.seq.length) pc.1 i hge
      sortedT
    by_cases hmem : ((i, pc.1) : Nat × Nat) ∈ sortedT
    · rw [if_pos (hiff.mpr hmem), if_pos hmem]
    · rw [if_neg (fun hc => hmem (hiff.mp hc)), if_neg hmem]

/-- Walk-level target-score facts: a successful walk preserves the score
buffer length, appends only well-bounded columns to the trace, and leaves in
lane `i`'s slot the fold of the eligible-row update over the appended
columns, applied exactly where the sorted target list carries lane `i`. -/
theorem walkNodes_facts (P : Params) (readsP : List (List Base))
    (sortedT : List (Nat × Nat)) (hm0 : P.t.minv ≤ 0)
    (hreads : readsP.length = P.L)
    (hsort : List.Pairwise (fun a b => a.2 ≤ b.2) sortedT) :
    ∀ (nodes : List GNode) (store : List (Nat × SeedCols)) (buf : SeedCols)
      (tr : List LaneTrack) (tsc : List Int) (trace : List (Nat × List Vec))
      (w : List LaneTrack × List Int × List (Nat × List Vec)),
      (∀ e ∈ sortedT, e.1 < tsc.length) →
      walkNodes P readsP sortedT nodes store buf tr tsc trace = .ok w →
      w.2.1.length = tsc.length ∧
      ∃ delta, w.2.2 = trace ++ delta ∧
        (∀ pc ∈ delta, ∀ r, 1 ≤ r → r ≤ P.L → GoodLane P.t (getv pc.2 r)) ∧
        ∀ i, w.2.1.getD i 0 =
          delta.foldl
            (fun a pc => if ((i, pc.1) : Nat × Nat) ∈ sortedT then
              eligUpdate P pc.2 i a else a)
            (tsc.getD i 0) := by
  intro nodes
  induction nodes with
  | nil =>
    intro store buf tr tsc trace w _ h
    simp only [walkNodes, Except.ok.injEq] at h
    rw [← h]
    exact ⟨rfl, [], by simp, by simp, fun i => rfl⟩
  | cons nd rest ih =>
    intro store buf tr tsc trace w hlanes h
    simp only [walkNodes] at h
    cases hseed : getSeed P nd.preds store buf with
    | error e => rw [hseed] at h; simp at h
    | ok inSeed =>
      rw [hseed] at h
      simp only [] at h
      obtain ⟨hiS, hiI⟩ := getSeed_len P nd.preds store buf inSeed hseed
      obtain ⟨_, _, hlen₀, delta₀, htr₀, hgood₀, hfold₀⟩ :=
        fillNode_facts P readsP nd inSeed tr tsc sortedT trace hm0 hreads
          hsort hlanes hiS hiI
      obtain ⟨hlen₁, delta₁, htr₁, hgood₁, hfold₁⟩ :=
        ih _ _ _ _ _ w (fun e he => hlen₀ ▸ hlanes e he) h
      refine ⟨hlen₁.trans hlen₀, delta₀ ++ delta₁, ?_, ?_, ?_⟩
      · rw [htr₁, htr₀, List.append_assoc]
      · intro pc hpc
        rcases List.mem_append.mp hpc with h0 | h1
        · exact hgood₀ pc h0
        · exact hgood₁ pc h1
      · intro i
        rw [hfold₁ i, hfold₀ i, List.foldl_append]

instance : IsTotal (Nat × Nat) (fun a b => a.2 ≤ b.2) :=
  ⟨fun a b => Nat.le_total a.2 b.2⟩

instance : IsTrans (Nat × Nat) (fun a b => a.2 ≤ b.2) :=
  ⟨fun _ _ _ h1 h2 => le_trans h1 h2⟩

theorem sortTargets_sorted (l : List (Nat × Nat)) :
    List.Pairwise (fun a b => a.2 ≤ b.2) (sortTargets l) :=
  List.sorted_insertionSort _ l

theorem mem_sortTargets (l : List (Nat × Nat)) (e : Nat × Nat) :
    e ∈ sortTargets l ↔ e ∈ l :=
  (List.perm_insertionSort _ l).mem_iff

theorem mem_targetEntries (n len : ℕ) (targets : List Nat) (i q : Nat) :
    ((i, q) : Nat × Nat) ∈ targetEntries n len targets ↔
      i < n ∧ i < min len targets.length ∧ q = targets.getD i 0 := by
  constructor
  · intro hm
    rcases List.mem_filterMap.mp hm with ⟨a, ha, hif⟩
    by_cases hc : a < min len targets.length
    · rw [if_pos hc] at hif
      have hp := Option.some.inj hif
      rw [Prod.mk.injEq] at hp
      obtain ⟨rfl, hq⟩ := hp
      exact ⟨List.mem_range.mp ha, hc, hq.symm⟩
    · rw [if_neg hc] at hif
      exact absurd hif (by simp)
  · rintro ⟨hn, hc, rfl⟩
    exact List.mem_filterMap.mpr ⟨i, List.mem_range.mpr hn, by rw [if_pos hc]⟩

/-- All eligible-row cell values, in lane `i`, of the trace columns sitting
at exactly the reference position `target`. -/
def targetCells (P : Params) (trace : List (Nat × List Vec))
    (i target : Nat) : List Int :=
  (trace.filter (fun pc => pc.1 = target)).flatMap (fun pc => eligVals P pc.2 i)

theorem foldl_elig_flat (P : Params) (i target : Nat) :
    ∀ (delta : List (Nat × List Vec)) (a : Int),
      delta.foldl
        (fun a pc => if pc.1 = target then eligUpdate P pc.2 i a else a) a =
      (targetCells P delta i target).foldl max a := by
  intro delta
  induction delta with
  | nil => intro a; rfl
  | cons pc rest ihd =>
    intro a
    by_cases hc : pc.1 = target
    · have ht : targetCells P (pc :: rest) i target =
          eligVals P pc.2 i ++ targetCells P rest i target := by
        simp [targetCells, List.filter_cons, hc]
      simp only [List.foldl_cons]
      rw [if_pos hc, ht, List.foldl_append, ihd, eligUpdate_eq_foldl]
    · have ht : targetCells P (pc :: rest) i target =
          targetCells P rest i target := by
        simp [targetCells, List.filter_cons, hc]
      simp only [List.foldl_cons]
      rw [if_neg hc, ht, ihd]

/-- Claim C8: for a read lane `i` whose nonzero target position is covered
by at least one trace column of a successful align call, the raw target
score slot holds the maximum, over every column at exactly that reference
position and over the eligible rows (`1 .. L` locally, row `L` only
end-to-end), of the cell value in lane `i`; the reported target score is
that slot minus the bias; and the target pointer advances by consuming
exactly the leading entries of the position-sorted list at the current
column position. -/
theorem claim8_target_score (n : ℕ) (t : LaneTy) (ete : Bool) (L : Nat)
    (st : AlignerState) (reads : List (List Base)) (targets : List Nat)
    (nodes : List GNode) (o : AlignOut) (i target : Nat)
    (ho : alignInto n t ete L st reads targets nodes = .ok o)
    (hin : i < n) (hi : i < min reads.length targets.length)
    (htg : target = targets.getD i 0) (ht0 : target ≠ 0)
    (hL : 1 ≤ L) (hm0 : t.minv ≤ 0) (hmm : intMin32 < t.minv)
    (hcov : ∃ pc ∈ o.trace, pc.1 = target) :
    o.tsc.getD i 0 ∈
      targetCells (mkParams n t ete L st reads.length targets) o.trace
        i target ∧
    (∀ v ∈ targetCells (mkParams n t ete L st reads.length targets) o.trace
        i target, v ≤ o.tsc.getD i 0) ∧
    repTargetScore st o i = o.tsc.getD i 0 - st.bias ∧
    (∀ (pos : Nat) (S : List Vec) (rem : List (Nat × Nat)) (tsc : List Int),
      (consumeTargets (mkParams n t ete L st reads.length targets) pos S rem
        tsc).1 = rem.dropWhile (fun e => e.2 = pos)) := by
  match nodes with
  | [] => simp [alignInto] at ho
  | nd0 :: rest =>
    simp only [alignInto] at ho
    set P := mkParams n t ete L st reads.length targets with hP
    set readsP := packageReads n L reads with hrp
    set sortedT := sortTargets (targetEntries n reads.length targets) with hst
    set o1 := fillNode P readsP nd0 (seedMatrix P)
      (List.replicate n (initLane t)) (List.replicate n intMin32) sortedT []
      with ho1
    cases hw : walkNodes P readsP sortedT rest [(nd0.id, o1.1)] (seedMatrix P)
        o1.2.1 o1.2.2.1 o1.2.2.2 with
    | error e => rw [hw] at ho; simp [Except.map] at ho
    | ok w =>
      rw [hw] at ho
      simp only [Except.map, Except.ok.injEq] at ho
      have hm0P : P.t.minv ≤ 0 := hm0
      have hreadsP : readsP.length = P.L := packageReads_len n L reads
      have hsorted : List.Pairwise (fun a b => a.2 ≤ b.2) sortedT :=
        sortTargets_sorted (targetEntries n reads.length targets)
      have hlanes0 : ∀ e ∈ sortedT,
          e.1 < (List.replicate n intMin32 : List Int).length := by
        intro e he
        rcases e with ⟨j, q⟩
        have hmem := (mem_sortTargets _ _).mp (hst ▸ he)
        have := (mem_targetEntries n reads.length targets j q).mp hmem
        simpa using this.1
      obtain ⟨_, _, hlen₀, delta₀, htr₀, hgood₀, hfold₀⟩ :=
        fillNode_facts P readsP nd0 (seedMatrix P)
          (List.replicate n (initLane t)) (List.replicate n intMin32) sortedT
          [] hm0P hreadsP hsorted hlanes0 (seedMatrix_len P).1
          (seedMatrix_len P).2
      obtain ⟨hlen₁, delta₁, htr₁, hgood₁, hfold₁⟩ :=
        walkNodes_facts P readsP sortedT hm0P hreadsP hsorted rest
          [(nd0.id, o1.1)] (seedMatrix P) o1.2.1 o1.2.2.1 o1.2.2.2 w
          (fun e he => hlen₀ ▸ hlanes0 e he) hw
      have htsco : o.tsc = w.2.1 := by rw [← ho]
      have htro : o.trace = delta₀ ++ delta₁ := by
        rw [← ho]
        show w.2.2 = delta₀ ++ delta₁
        rw [htr₁, ho1]
        rw [htr₀]
        simp
      have hfold : o.tsc.getD i 0 =
          (delta₀ ++ delta₁).foldl
            (fun a pc => if ((i, pc.1) : Nat × Nat) ∈ sortedT then
              eligUpdate P pc.2 i a else a)
            ((List.replicate n intMin32 : List Int).getD i 0) := by
        rw [htsco, hfold₁ i, List.foldl_append, ho1, hfold₀ i]
      have hinit : (List.replicate n intMin32 : List Int).getD i 0 =
          intMin32 := by
        simp [List.getD_eq_getElem?_getD, List.getElem?_replicate, hin]
      have hcond : ∀ q : Nat, (((i, q) : Nat × Nat) ∈ sortedT) ↔ q = target := by
        intro q
        rw [hst, mem_sortTargets, mem_targetEntries]
        constructor
        · rintro ⟨_, _, rfl⟩
          exact htg.symm
        · rintro rfl
          exact ⟨hin, hi, htg⟩
      have hfold2 : o.tsc.getD i 0 =
          (targetCells P o.trace i target).foldl max intMin32 := by
        rw [hfold, hinit, htro]
        rw [foldl_congr_mem (delta₀ ++ delta₁) _
          (fun a pc => if pc.1 = target then eligUpdate P pc.2 i a else a)
          intMin32 ?_]
        · exact foldl_elig_flat P i target (delta₀ ++ delta₁) intMin32
        · intro a pc hpc
          show (if ((i, pc.1) : Nat × Nat) ∈ sortedT then
              eligUpdate P pc.2 i a else a) =
            (if pc.1 = target then eligUpdate P pc.2 i a else a)
          by_cases hcq : pc.1 = target
          · rw [if_pos ((hcond pc.1).mpr hcq), if_pos hcq]
          · rw [if_neg (fun hc => hcq ((hcond pc.1).mp hc)), if_neg hcq]
      have hgoodall : ∀ v ∈ targetCells P o.trace i target, t.minv ≤ v := by
        intro v hv
        rcases List.mem_flatMap.mp hv with ⟨pc, hpcf, hvv⟩
        have hpcm : pc ∈ delta₀ ++ delta₁ :=
          htro ▸ List.mem_of_mem_filter hpcf
        have hgood : ∀ r, 1 ≤ r → r ≤ P.L → GoodLane P.t (getv pc.2 r) := by
          rcases List.mem_append.mp hpcm with h0 | h1
          · exact hgood₀ pc h0
          · exact hgood₁ pc h1
        rcases List.mem_map.mp hvv with ⟨q, hqrows, rfl⟩
        have hqb := rowsList_mem_bounds P hL q hqrows
        exact hgood q hqb.1 hqb.2 i
      obtain ⟨pc₀, hpc₀m, hpc₀t⟩ := hcov
      have hpc₀f : pc₀ ∈ o.trace.filter (fun pc => pc.1 = target) :=
        List.mem_filter.mpr ⟨hpc₀m, by simp [hpc₀t]⟩
      obtain ⟨q₀, hq₀⟩ : ∃ q, q ∈ rowsList P :=
        List.exists_mem_of_ne_nil _ (rowsList_ne_nil P hL)
      have hv₀ : lane (getv pc₀.2 q₀) i ∈ targetCells P o.trace i target :=
        List.mem_flatMap.mpr ⟨pc₀, hpc₀f, List.mem_map.mpr ⟨q₀, hq₀, rfl⟩⟩
      have hub : ∀ v ∈ targetCells P o.trace i target,
          v ≤ o.tsc.getD i 0 := by
        intro v hv
        rw [hfold2]
        exact foldl_max_le_mem _ intMin32 v hv
      have hmem : o.tsc.getD i 0 ∈ targetCells P o.trace i target := by
        rcases foldl_max_mem_or (targetCells P o.trace i target) intMin32
          with hq | hq
        · exfalso
          have h1 : lane (getv pc₀.2 q₀) i ≤ o.tsc.getD i 0 := hub _ hv₀
          have h2 : t.minv ≤ lane (getv pc₀.2 q₀) i := hgoodall _ hv₀
          rw [hfold2, hq] at h1
          exact absurd (lt_of_le_of_lt (le_trans h2 h1) hmm)
            (lt_irrefl _)
        · rw [hfold2]
          exact hq
      exact ⟨hmem, hub, rfl,
        fun pos S rem tsc => consumeTargets_rem P pos S rem tsc⟩

/-- Single-node graph `AA` (positions 1-2) for the C8 witness. -/
def w8G : List GNode := [⟨0, 1, [Base.A, Base.A], [], false⟩]

/-- The C8 witness run: read `AA` against `AA`, target position 2. -/
def w8o : AlignOut := okOut (alignInto 1 int8 false 2 cexSt [readAA] [2] w8G)

set_option maxRecDepth 100000 in
/-- Witness for C8 at a concrete run: the align call succeeds, the target
position is covered, and the slot holds the eligible-cell maximum. -/
theorem claim8_target_score_witness :
    alignInto 1 int8 false 2 cexSt [readAA] [2] w8G = .ok w8o ∧
    (∃ pc ∈ w8o.trace, pc.1 = 2) ∧
    (w8o.tsc.getD 0 0 ∈
      targetCells (mkParams 1 int8 false 2 cexSt [readAA].length [2])
        w8o.trace 0 2 ∧
    (∀ v ∈ targetCells (mkParams 1 int8 false 2 cexSt [readAA].length [2])
        w8o.trace 0 2, v ≤ w8o.tsc.getD 0 0) ∧
    repTargetScore cexSt w8o 0 = w8o.tsc.getD 0 0 - cexSt.bias ∧
    (∀ (pos : Nat) (S : List Vec) (rem : List (Nat × Nat)) (tsc : List Int),
      (consumeTargets (mkParams 1 int8 false 2 cexSt [readAA].length [2])
        pos S rem tsc).1 = rem.dropWhile (fun e => e.2 = pos))) :=
  ⟨rfl, by decide,
   claim8_target_score 1 int8 false 2 cexSt [readAA] [2] w8G w8o 0 2 rfl
     (by decide) (by decide) rfl (by decide) (by decide) (by decide)
     (by decide) (by decide)⟩

/-! ### Claim C9: lane projection auxiliaries -/

theorem vsub_length (t : LaneTy) (v : Vec) (x : Nat) :
    (vsub t v x).length = v.length := by
  simp [vsub]

theorem lane_vsub (t : LaneTy) (v : Vec) (x : Nat) (i : Nat)
    (h : i < v.length) : lane (vsub t v x) i = sat t (lane v i - x) := by
  simp [lane, vsub, List.getD_eq_getElem?_getD, List.getElem?_map,
    List.getElem?_eq_getElem h]

theorem vmax_length (a b : Vec) : (vmax a b).length = min a.length b.length := by
  simp [vmax]

theorem lane_vmax (a b : Vec) (i : Nat) (ha : i < a.length)
    (hb : i < b.length) : lane (vmax a b) i = max (lane a i) (lane b i) := by
  simp [lane, vmax, List.getD_eq_getElem?_getD, List.getElem?_zipWith,
    List.getElem?_eq_getElem ha, List.getElem?_eq_getElem hb]

theorem broadcast_length (n : ℕ) (x : Int) : (broadcast n x).length = n := by
  simp [broadcast]

theorem lane_broadcast (n : ℕ) (x : Int) (i : Nat) (h : i < n) :
    lane (broadcast n x) i = x := by
  simp [lane, broadcast, List.getD_eq_getElem?_getD, List.getElem?_replicate, h]

theorem diagVec_length (P : Params) (Sd : Vec) (rb : List Base) (refb : Base) :
    (diagVec P Sd rb refb).length = min Sd.length rb.length := by
  simp [diagVec]

theorem lane_diagVec (P : Params) (Sd : Vec) (rb : List Base) (refb : Base)
    (i : Nat) (h1 : i < Sd.length) (h2 : i < rb.length) :
    lane (diagVec P Sd rb refb) i =
      sat P.t (lane Sd i + cellScore P.prof (rb.getD i Base.N) refb) := by
  simp [lane, diagVec, List.getD_eq_getElem?_getD, List.getElem?_zipWith,
    List.getElem?_eq_getElem h1, List.getElem?_eq_getElem h2]

theorem cellFinishFrom_length (P : Params) (s : Vec) (pos : Nat) :
    ∀ (k : Nat) (tr : List LaneTrack),
      (cellFinishFrom P s pos k tr).length = tr.length := by
  intro k tr
  induction tr generalizing k with
  | nil => rfl
  | cons lt rest ih => simp [cellFinishFrom, ih]

theorem cellFinish_length (P : Params) (tr : List LaneTrack) (s : Vec)
    (pos : Nat) : (cellFinish P tr s pos).length = tr.length :=
  cellFinishFrom_length P s pos 0 tr

theorem packageReads_row_length (n L : ℕ) (reads : List (List Base))
    (p : Nat) (hp : p < L) :
    ((packageReads n L reads).getD p []).length = n := by
  simp [packageReads, List.getD_eq_getElem?_getD, List.getElem?_map,
    List.getElem?_range, hp]

theorem packageReads_proj (n L : ℕ) (reads : List (List Base)) (i p : Nat)
    (hi : i < n) (hp : p < L) :
    ((packageReads n L reads).getD p []).getD i Base.N =
      (reads.getD i []).getD p Base.N := by
  simp [packageReads, List.getD_eq_getElem?_getD, List.getElem?_map,
    List.getElem?_range, hp, hi]

/-- Every row vector of the column stack has exactly `n` lanes. -/
def WFCols (n : ℕ) (S : List Vec) : Prop := ∀ v ∈ S, v.length = n

theorem getv_length_of_wf (n : ℕ) (S : List Vec) (r : Nat) (hwf : WFCols n S)
    (hr : r < S.length) : (getv S r).length = n := by
  have hg : getv S r = S[r] := by
    simp [getv, List.getD_eq_getElem?_getD, List.getElem?_eq_getElem hr]
  rw [hg]
  exact hwf _ (List.getElem_mem hr)

theorem getv_of_ge (S : List Vec) (r : Nat) (hr : S.length ≤ r) :
    getv S r = [] := by
  simp [getv, List.getD_eq_getElem?_getD, List.getElem?_eq_none hr]

theorem wf_set (n : ℕ) (S : List Vec) (r : Nat) (x : Vec) (hwf : WFCols n S)
    (hx : x.length = n) : WFCols n (S.set r x) := by
  intro v hv
  rcases List.mem_or_eq_of_mem_set hv with h | h
  · exact hwf v h
  · rw [h]; exact hx

theorem wf_seedMatrix (P : Params) : WFCols P.n (seedMatrix P).S := by
  unfold seedMatrix
  by_cases h : P.ete
  · simp only [h, if_pos]
    intro v hv
    rcases List.mem_map.mp hv with ⟨r, _, rfl⟩
    by_cases hr : r = 0
    · rw [if_pos hr]; exact broadcast_length ..
    · rw [if_neg hr]; exact broadcast_length ..
  · simp only [h, if_neg, Bool.false_eq_true, not_false_iff]
    intro v hv
    rw [List.eq_of_mem_replicate hv]
    exact broadcast_length ..

/-- Lane-projection relation between two runs' column stacks: equal heights,
`n`-lane rows, and equal values at the two tracked lanes. -/
def ColsRel (n i j : ℕ) (S S' : List Vec) : Prop :=
  S.length = S'.length ∧ WFCols n S ∧ WFCols n S' ∧
  ∀ r, lane (getv S r) i = lane (getv S' r) j

theorem colsRel_set (n i j : ℕ) (S S' : List Vec) (r : Nat) (x x' : Vec)
    (h : ColsRel n i j S S') (hx : x.length = n) (hx' : x'.length = n)
    (hl : lane x i = lane x' j) :
    ColsRel n i j (S.set r x) (S'.set r x') := by
  obtain ⟨hlen, hw1, hw2, hp⟩ := h
  refine ⟨by simp [hlen], wf_set n S r x hw1 hx, wf_set n S' r x' hw2 hx', ?_⟩
  intro q
  by_cases hq : r = q
  · subst hq
    by_cases hr : r < S.length
    · rw [getv_set_self S r x hr, getv_set_self S' r x' (hlen ▸ hr)]
      exact hl
    · rw [List.set_eq_of_length_le (Nat.le_of_not_lt hr),
        List.set_eq_of_length_le (by omega : S'.length ≤ r)]
      exact hp r
  · rw [getv_set_ne S r q x hq, getv_set_ne S' r q x' hq]
    exact hp q

theorem cellFinish_proj (P1 P2 : Params) (i j : Nat)
    (tr1 tr2 : List LaneTrack) (s1 s2 : Vec) (pos : Nat)
    (hL : P1.L = P2.L) (hlo : lowAt P1 i = lowAt P2 j)
    (hhi : highAt P1 i = highAt P2 j)
    (hi : i < tr1.length) (hj : j < tr2.length)
    (htr : trackAt tr1 i = trackAt tr2 j) (hs : lane s1 i = lane s2 j) :
    trackAt (cellFinish P1 tr1 s1 pos) i =
      trackAt (cellFinish P2 tr2 s2 pos) j := by
  rw [trackAt_cellFinish, trackAt_cellFinish, if_pos hi, if_pos hj, hL, hlo,
    hhi, htr, hs]

/-- Lane-projection relation between two runs' trackers. -/
def TrRel (n i j : ℕ) (tr tr' : List LaneTrack) : Prop :=
  tr.length = n ∧ tr'.length = n ∧ trackAt tr i = trackAt tr' j

/-- The row loop is lanewise: two runs whose parameters agree on every
scalar field and on the tracked lanes' windows, and whose states project
equally at lanes `i` and `j`, stay projected equal through `fillRows`. -/
theorem fillRows_proj (P1 P2 : Params) (i j : Nat) (refb : Base) (pos : Nat)
    (hn : P1.n = P2.n) (htp : P1.t = P2.t) (hLp : P1.L = P2.L)
    (hep : P1.ete = P2.ete) (hpp : P1.prof = P2.prof)
    (hlo : lowAt P1 i = lowAt P2 j) (hhi : highAt P1 i = highAt P2 j)
    (hi : i < P1.n) (hj : j < P1.n) :
    ∀ (reads1 reads2 : List (List Base)) (r : Nat)
      (S1 Ic1 S2 Ic2 : List Vec) (Dp1 Sd1 Dp2 Sd2 : Vec)
      (tr1 tr2 : List LaneTrack),
      reads1.length = reads2.length →
      r + reads1.length ≤ P1.L + 1 → 1 ≤ r →
      (∀ rb ∈ reads1, rb.length = P1.n) →
      (∀ rb ∈ reads2, rb.length = P1.n) →
      (∀ p, (reads1.getD p []).getD i Base.N =
        (reads2.getD p []).getD j Base.N) →
      S1.length = P1.L + 1 → Ic1.length = P1.L + 1 →
      ColsRel P1.n i j S1 S2 → ColsRel P1.n i j Ic1 Ic2 →
      Dp1.length = P1.n → Dp2.length = P1.n → lane Dp1 i = lane Dp2 j →
      Sd1.length = P1.n → Sd2.length = P1.n → lane Sd1 i = lane Sd2 j →
      TrRel P1.n i j tr1 tr2 →
      ColsRel P1.n i j (fillRows P1 refb pos reads1 r S1 Ic1 Dp1 Sd1 tr1).1
        (fillRows P2 refb pos reads2 r S2 Ic2 Dp2 Sd2 tr2).1 ∧
      ColsRel P1.n i j (fillRows P1 refb pos reads1 r S1 Ic1 Dp1 Sd1 tr1).2.1
        (fillRows P2 refb pos reads2 r S2 Ic2 Dp2 Sd2 tr2).2.1 ∧
      TrRel P1.n i j (fillRows P1 refb pos reads1 r S1 Ic1 Dp1 Sd1 tr1).2.2
        (fillRows P2 refb pos reads2 r S2 Ic2 Dp2 Sd2 tr2).2.2 := by
  intro reads1
  induction reads1 with
  | nil =>
    intro reads2 r S1 Ic1 S2 Ic2 Dp1 Sd1 Dp2 Sd2 tr1 tr2 hlen _ _ _ _ _ _ _
      hSrel hIrel _ _ _ _ _ _ htr
    have h2 : reads2 = [] := List.length_eq_zero.mp (by
      have := hlen.symm
      simpa using this)
    subst h2
    exact ⟨hSrel, hIrel, htr⟩
  | cons rb1 rest1 ih =>
    intro reads2 r S1 Ic1 S2 Ic2 Dp1 Sd1 Dp2 Sd2 tr1 tr2 hlen hrange hr1 hwr1
      hwr2 hrproj hS1l hIc1l hSrel hIrel hDp1 hDp2 hDp hSd1 hSd2 hSd htr
    cases reads2 with
    | nil => simp at hlen
    | cons rb2 rest2 =>
      have hrb1n : rb1.length = P1.n := hwr1 rb1 (List.mem_cons_self ..)
      have hrb2n : rb2.length = P1.n := hwr2 rb2 (List.mem_cons_self ..)
      have hrb : rb1.getD i Base.N = rb2.getD j Base.N := by
        have := hrproj 0
        simpa using this
      obtain ⟨hSlen, hSw1, hSw2, hSp⟩ := hSrel
      obtain ⟨hIlen, hIw1, hIw2, hIp⟩ := hIrel
      obtain ⟨htl1, htl2, htpp⟩ := htr
      have hlen2 : rest1.length = rest2.length := by simpa using hlen
      have hrange2 : r + rest1.length + 1 ≤ P1.L + 1 := by
        simp only [List.length_cons] at hrange
        omega
      have hrS : r < S1.length := by omega
      have hrS2 : r < S2.length := by omega
      have hrS1p : r - 1 < S1.length := by omega
      have hrS2p : r - 1 < S2.length := by omega
      have hrI : r < Ic1.length := by omega
      have hrI2 : r < Ic2.length := by
        have : Ic1.length = Ic2.length := hIlen
        omega
      have hgS1r : (getv S1 r).length = P1.n :=
        getv_length_of_wf _ _ _ hSw1 hrS
      have hgS2r : (getv S2 r).length = P1.n :=
        getv_length_of_wf _ _ _ hSw2 hrS2
      have hgS1p : (getv S1 (r - 1)).length = P1.n :=
        getv_length_of_wf _ _ _ hSw1 hrS1p
      have hgS2p : (getv S2 (r - 1)).length = P1.n :=
        getv_length_of_wf _ _ _ hSw2 hrS2p
      have hgI1r : (getv Ic1 r).length = P1.n :=
        getv_length_of_wf _ _ _ hIw1 hrI
      have hgI2r : (getv Ic2 r).length = P1.n :=
        getv_length_of_wf _ _ _ hIw2 hrI2
      set Dr1 := vmax (vsub P1.t Dp1 P1.prof.ref_gext)
        (vsub P1.t (getv S1 (r - 1))
          (P1.prof.ref_gopen + P1.prof.ref_gext)) with hDr1
      set Dr2 := vmax (vsub P2.t Dp2 P2.prof.ref_gext)
        (vsub P2.t (getv S2 (r - 1))
          (P2.prof.ref_gopen + P2.prof.ref_gext)) with hDr2
      set Ir1 := vmax (vsub P1.t (getv Ic1 r) P1.prof.read_gext)
        (vsub P1.t (getv S1 r)
          (P1.prof.read_gopen + P1.prof.read_gext)) with hIr1
      set Ir2 := vmax (vsub P2.t (getv Ic2 r) P2.prof.read_gext)
        (vsub P2.t (getv S2 r)
          (P2.prof.read_gopen + P2.prof.read_gext)) with hIr2
      set sr1 := diagVec P1 Sd1 rb1 refb with hsr1
      set sr2 := diagVec P2 Sd2 rb2 refb with hsr2
      set Snew1 := vmax Ir1 (vmax Dr1 sr1) with hSnew1
      set Snew2 := vmax Ir2 (vmax Dr2 sr2) with hSnew2
      have hDr1len : Dr1.length = P1.n := by
        rw [hDr1, vmax_length, vsub_length, vsub_length, hDp1, hgS1p,
          Nat.min_self]
      have hDr2len : Dr2.length = P1.n := by
        rw [hDr2, vmax_length, vsub_length, vsub_length, hDp2, hgS2p,
          Nat.min_self]
      have hIr1len : Ir1.length = P1.n := by
        rw [hIr1, vmax_length, vsub_length, vsub_length, hgI1r, hgS1r,
          Nat.min_self]
      have hIr2len : Ir2.length = P1.n := by
        rw [hIr2, vmax_length, vsub_length, vsub_length, hgI2r, hgS2r,
          Nat.min_self]
      have hsr1len : sr1.length = P1.n := by
        rw [hsr1, diagVec_length, hSd1, hrb1n, Nat.min_self]
      have hsr2len : sr2.length = P1.n := by
        rw [hsr2, diagVec_length, hSd2, hrb2n, Nat.min_self]
      have hSnew1len : Snew1.length = P1.n := by
        rw [hSnew1, vmax_length, hIr1len, vmax_length, hDr1len, hsr1len,
          Nat.min_self, Nat.min_self]
      have hSnew2len : Snew2.length = P1.n := by
        rw [hSnew2, vmax_length, hIr2len, vmax_length, hDr2len, hsr2len,
          Nat.min_self, Nat.min_self]
      have hDrlane : lane Dr1 i = lane Dr2 j := by
        rw [hDr1, hDr2,
          lane_vmax _ _ _ (by rw [vsub_length, hDp1]; exact hi)
            (by rw [vsub_length, hgS1p]; exact hi),
          lane_vmax _ _ _ (by rw [vsub_length, hDp2]; exact hj)
            (by rw [vsub_length, hgS2p]; exact hj),
          lane_vsub _ _ _ _ (by rw [hDp1]; exact hi),
          lane_vsub _ _ _ _ (by rw [hgS1p]; exact hi),
          lane_vsub _ _ _ _ (by rw [hDp2]; exact hj),
          lane_vsub _ _ _ _ (by rw [hgS2p]; exact hj),
          htp, hpp, hDp, hSp (r - 1)]
      have hIrlane : lane Ir1 i = lane Ir2 j := by
        rw [hIr1, hIr2,
          lane_vmax _ _ _ (by rw [vsub_length, hgI1r]; exact hi)
            (by rw [vsub_length, hgS1r]; exact hi),
          lane_vmax _ _ _ (by rw [vsub_length, hgI2r]; exact hj)
            (by rw [vsub_length, hgS2r]; exact hj),
          lane_vsub _ _ _ _ (by rw [hgI1r]; exact hi),
          lane_vsub _ _ _ _ (by rw [hgS1r]; exact hi),
          lane_vsub _ _ _ _ (by rw [hgI2r]; exact hj),
          lane_vsub _ _ _ _ (by rw [hgS2r]; exact hj),
          htp, hpp, hIp r, hSp r]
      have hsrlane : lane sr1 i = lane sr2 j := by
        rw [hsr1, hsr2,
          lane_diagVec _ _ _ _ _ (by rw [hSd1]; exact hi)
            (by rw [hrb1n]; exact hi),
          lane_diagVec _ _ _ _ _ (by rw [hSd2]; exact hj)
            (by rw [hrb2n]; exact hj),
          htp, hpp, hSd, hrb]
      have hSnewlane : lane Snew1 i = lane Snew2 j := by
        rw [hSnew1, hSnew2,
          lane_vmax Ir1 (vmax Dr1 sr1) i (by rw [hIr1len]; exact hi)
            (by rw [vmax_length, hDr1len, hsr1len, Nat.min_self]; exact hi),
          lane_vmax Dr1 sr1 i (by rw [hDr1len]; exact hi)
            (by rw [hsr1len]; exact hi),
          lane_vmax Ir2 (vmax Dr2 sr2) j (by rw [hIr2len]; exact hj)
            (by rw [vmax_length, hDr2len, hsr2len, Nat.min_self]; exact hj),
          lane_vmax Dr2 sr2 j (by rw [hDr2len]; exact hj)
            (by rw [hsr2len]; exact hj),
          hIrlane, hDrlane, hsrlane]
      have htrstep : TrRel P1.n i j
          (if P1.ete then tr1 else cellFinish P1 tr1 Snew1 pos)
          (if P2.ete then tr2 else cellFinish P2 tr2 Snew2 pos) := by
        by_cases hete : P1.ete
        · rw [if_pos hete, if_pos (hep ▸ hete)]
          exact ⟨htl1, htl2, htpp⟩
        · rw [if_neg hete, if_neg (hep ▸ hete)]
          refine ⟨(cellFinish_length ..).trans htl1,
            (cellFinish_length ..).trans htl2, ?_⟩
          exact cellFinish_proj P1 P2 i j tr1 tr2 Snew1 Snew2 pos hLp hlo hhi
            (htl1 ▸ hi) (htl2 ▸ hj) htpp hSnewlane
      have hmain := ih rest2 (r + 1) (S1.set r Snew1) (Ic1.set r Ir1)
        (S2.set r Snew2) (Ic2.set r Ir2) Dr1 (getv S1 r) Dr2 (getv S2 r)
        (if P1.ete then tr1 else cellFinish P1 tr1 Snew1 pos)
        (if P2.ete then tr2 else cellFinish P2 tr2 Snew2 pos)
        hlen2
        (by omega) (by omega)
        (fun rb h => hwr1 rb (List.mem_cons_of_mem _ h))
        (fun rb h => hwr2 rb (List.mem_cons_of_mem _ h))
        (fun p => by simpa using hrproj (p + 1))
        (by rw [List.length_set]; exact hS1l)
        (by rw [List.length_set]; exact hIc1l)
        (colsRel_set _ _ _ _ _ _ _ _ ⟨hSlen, hSw1, hSw2, hSp⟩ hSnew1len
          hSnew2len hSnewlane)
        (colsRel_set _ _ _ _ _ _ _ _ ⟨hIlen, hIw1, hIw2, hIp⟩ hIr1len
          hIr2len hIrlane)
        hDr1len hDr2len hDrlane hgS1r hgS2r (hSp r) htrstep
      exact hmain

/-- Column-level lane projection: one `_fill_cell` column keeps two
projected-equal runs projected equal. -/
theorem fillColumn_proj (P1 P2 : Params) (i j : Nat) (refb : Base) (pos : Nat)
    (hn : P1.n = P2.n) (htp : P1.t = P2.t) (hLp : P1.L = P2.L)
    (hep : P1.ete = P2.ete) (hpp : P1.prof = P2.prof) (hbp : P1.bias = P2.bias)
    (hlo : lowAt P1 i = lowAt P2 j) (hhi : highAt P1 i = highAt P2 j)
    (hi : i < P1.n) (hj : j < P1.n)
    (readsP1 readsP2 : List (List Base))
    (hrlen1 : readsP1.length = P1.L) (hrlen2 : readsP2.length = P1.L)
    (hwr1 : ∀ rb ∈ readsP1, rb.length = P1.n)
    (hwr2 : ∀ rb ∈ readsP2, rb.length = P1.n)
    (hrproj : ∀ p, (readsP1.getD p []).getD i Base.N =
      (readsP2.getD p []).getD j Base.N)
    (S1 Ic1 S2 Ic2 : List Vec) (tr1 tr2 : List LaneTrack)
    (hS1l : S1.length = P1.L + 1) (hIc1l : Ic1.length = P1.L + 1)
    (hSrel : ColsRel P1.n i j S1 S2) (hIrel : ColsRel P1.n i j Ic1 Ic2)
    (htr : TrRel P1.n i j tr1 tr2) :
    ColsRel P1.n i j (fillColumn P1 readsP1 refb pos S1 Ic1 tr1).1
      (fillColumn P2 readsP2 refb pos S2 Ic2 tr2).1 ∧
    ColsRel P1.n i j (fillColumn P1 readsP1 refb pos S1 Ic1 tr1).2.1
      (fillColumn P2 readsP2 refb pos S2 Ic2 tr2).2.1 ∧
    TrRel P1.n i j (fillColumn P1 readsP1 refb pos S1 Ic1 tr1).2.2
      (fillColumn P2 readsP2 refb pos S2 Ic2 tr2).2.2 := by
  obtain ⟨hrS, hrI, hrT⟩ := fillRows_proj P1 P2 i j refb pos hn htp hLp hep
    hpp hlo hhi hi hj readsP1 readsP2 1 S1 Ic1 S2 Ic2
    (broadcast P1.n P1.bias) (broadcast P1.n P1.bias)
    (broadcast P2.n P2.bias) (broadcast P2.n P2.bias) tr1 tr2
    (hrlen1.trans hrlen2.symm) (by omega) (le_refl 1) hwr1 hwr2 hrproj hS1l
    hIc1l hSrel hIrel (broadcast_length ..) (by rw [broadcast_length]; omega)
    (by rw [lane_broadcast _ _ _ hi, lane_broadcast, hbp]
        omega)
    (broadcast_length ..) (by rw [broadcast_length]; omega)
    (by rw [lane_broadcast _ _ _ hi, lane_broadcast, hbp]
        omega)
    htr
  refine ⟨hrS, hrI, ?_⟩
  show TrRel P1.n i j
    (if P1.ete then
      cellFinish P1 (fillRows P1 refb pos readsP1 1 S1 Ic1
        (broadcast P1.n P1.bias) (broadcast P1.n P1.bias) tr1).2.2
        (getv (fillRows P1 refb pos readsP1 1 S1 Ic1 (broadcast P1.n P1.bias)
          (broadcast P1.n P1.bias) tr1).1 P1.L) pos
     else (fillRows P1 refb pos readsP1 1 S1 Ic1 (broadcast P1.n P1.bias)
        (broadcast P1.n P1.bias) tr1).2.2)
    (if P2.ete then
      cellFinish P2 (fillRows P2 refb pos readsP2 1 S2 Ic2
        (broadcast P2.n P2.bias) (broadcast P2.n P2.bias) tr2).2.2
        (getv (fillRows P2 refb pos readsP2 1 S2 Ic2 (broadcast P2.n P2.bias)
          (broadcast P2.n P2.bias) tr2).1 P2.L) pos
     else (fillRows P2 refb pos readsP2 1 S2 Ic2 (broadcast P2.n P2.bias)
        (broadcast P2.n P2.bias) tr2).2.2)
  by_cases hete : P1.ete
  · rw [if_pos hete, if_pos (hep ▸ hete)]
    obtain ⟨htl1, htl2, htpp⟩ := hrT
    refine ⟨(cellFinish_length ..).trans htl1,
      (cellFinish_length ..).trans htl2, ?_⟩
    refine cellFinish_proj P1 P2 i j _ _ _ _ pos hLp hlo hhi
      (by rw [htl1]; exact hi) (by rw [htl2]; exact hj) htpp ?_
    rw [← hLp]
    exact hrS.2.2.2 P1.L
  · rw [if_neg hete, if_neg (hep ▸ hete)]
    exact hrT

/-- The column loop is lanewise: target bookkeeping and the ghost trace do
not feed back into the matrix or the tracker. -/
theorem fillCols_proj (P1 P2 : Params) (i j : Nat)
    (hn : P1.n = P2.n) (htp : P1.t = P2.t) (hLp : P1.L = P2.L)
    (hep : P1.ete = P2.ete) (hpp : P1.prof = P2.prof) (hbp : P1.bias = P2.bias)
    (hlo : lowAt P1 i = lowAt P2 j) (hhi : highAt P1 i = highAt P2 j)
    (hi : i < P1.n) (hj : j < P1.n)
    (readsP1 readsP2 : List (List Base))
    (hrlen1 : readsP1.length = P1.L) (hrlen2 : readsP2.length = P1.L)
    (hwr1 : ∀ rb ∈ readsP1, rb.length = P1.n)
    (hwr2 : ∀ rb ∈ readsP2, rb.length = P1.n)
    (hrproj : ∀ p, (readsP1.getD p []).getD i Base.N =
      (readsP2.getD p []).getD j Base.N) :
    ∀ (seq : List Base) (pos : Nat) (S1 Ic1 S2 Ic2 : List Vec)
      (tr1 tr2 : List LaneTrack) (rem1 : List (Nat × Nat)) (tsc1 : List Int)
      (trace1 : List (Nat × List Vec)) (rem2 : List (Nat × Nat))
      (tsc2 : List Int) (trace2 : List (Nat × List Vec)),
      S1.length = P1.L + 1 → Ic1.length = P1.L + 1 →
      ColsRel P1.n i j S1 S2 → ColsRel P1.n i j Ic1 Ic2 →
      TrRel P1.n i j tr1 tr2 →
      (fillCols P1 readsP1 seq pos S1 Ic1 tr1 rem1 tsc1 trace1).1.length =
          P1.L + 1 ∧
      (fillCols P1 readsP1 seq pos S1 Ic1 tr1 rem1 tsc1 trace1).2.1.length =
          P1.L + 1 ∧
      ColsRel P1.n i j (fillCols P1 readsP1 seq pos S1 Ic1 tr1 rem1 tsc1
          trace1).1
        (fillCols P2 readsP2 seq pos S2 Ic2 tr2 rem2 tsc2 trace2).1 ∧
      ColsRel P1.n i j (fillCols P1 readsP1 seq pos S1 Ic1 tr1 rem1 tsc1
          trace1).2.1
        (fillCols P2 readsP2 seq pos S2 Ic2 tr2 rem2 tsc2 trace2).2.1 ∧
      TrRel P1.n i j (fillCols P1 readsP1 seq pos S1 Ic1 tr1 rem1 tsc1
          trace1).2.2.1
        (fillCols P2 readsP2 seq pos S2 Ic2 tr2 rem2 tsc2 trace2).2.2.1 := by
  intro seq
  induction seq with
  | nil =>
    intro pos S1 Ic1 S2 Ic2 tr1 tr2 rem1 tsc1 trace1 rem2 tsc2 trace2 hS1l
      hIc1l hSrel hIrel htr
    exact ⟨hS1l, hIc1l, hSrel, hIrel, htr⟩
  | cons b rest ihc =>
    intro pos S1 Ic1 S2 Ic2 tr1 tr2 rem1 tsc1 trace1 rem2 tsc2 trace2 hS1l
      hIc1l hSrel hIrel htr
    obtain ⟨hcS, hcI, hcT⟩ := fillColumn_proj P1 P2 i j b pos hn htp hLp hep
      hpp hbp hlo hhi hi hj readsP1 readsP2 hrlen1 hrlen2 hwr1 hwr2 hrproj
      S1 Ic1 S2 Ic2 tr1 tr2 hS1l hIc1l hSrel hIrel htr
    have hcS1l : (fillColumn P1 readsP1 b pos S1 Ic1 tr1).1.length =
        P1.L + 1 := by
      show (fillRows P1 b pos readsP1 1 S1 Ic1 (broadcast P1.n P1.bias)
        (broadcast P1.n P1.bias) tr1).1.length = P1.L + 1
      rw [(fillRows_len P1 b pos readsP1 1 S1 Ic1 _ _ tr1).1]
      exact hS1l
    have hcI1l : (fillColumn P1 readsP1 b pos S1 Ic1 tr1).2.1.length =
        P1.L + 1 := by
      show (fillRows P1 b pos readsP1 1 S1 Ic1 (broadcast P1.n P1.bias)
        (broadcast P1.n P1.bias) tr1).2.1.length = P1.L + 1
      rw [(fillRows_len P1 b pos readsP1 1 S1 Ic1 _ _ tr1).2]
      exact hIc1l
    exact ihc (pos + 1) (fillColumn P1 readsP1 b pos S1 Ic1 tr1).1
      (fillColumn P1 readsP1 b pos S1 Ic1 tr1).2.1
      (fillColumn P2 readsP2 b pos S2 Ic2 tr2).1
      (fillColumn P2 readsP2 b pos S2 Ic2 tr2).2.1
      (fillColumn P1 readsP1 b pos S1 Ic1 tr1).2.2
      (fillColumn P2 readsP2 b pos S2 Ic2 tr2).2.2
      (consumeTargets P1 pos (fillColumn P1 readsP1 b pos S1 Ic1 tr1).1 rem1
        tsc1).1
      (consumeTargets P1 pos (fillColumn P1 readsP1 b pos S1 Ic1 tr1).1 rem1
        tsc1).2
      (trace1 ++ [(pos, (fillColumn P1 readsP1 b pos S1 Ic1 tr1).1)])
      (consumeTargets P2 pos (fillColumn P2 readsP2 b pos S2 Ic2 tr2).1 rem2
        tsc2).1
      (consumeTargets P2 pos (fillColumn P2 readsP2 b pos S2 Ic2 tr2).1 rem2
        tsc2).2
      (trace2 ++ [(pos, (fillColumn P2 readsP2 b pos S2 Ic2 tr2).1)])
      hcS1l hcI1l hcS hcI hcT

/-- Lane-projection relation between two runs' seeds. -/
def SeedRel (n L i j : ℕ) (s s' : SeedCols) : Prop :=
  s.S.length = L + 1 ∧ s.I.length = L + 1 ∧
  ColsRel n i j s.S s'.S ∧ ColsRel n i j s.I s'.I

/-- Node-level lane projection. -/
theorem fillNode_proj (P1 P2 : Params) (i j : Nat)
    (hn : P1.n = P2.n) (htp : P1.t = P2.t) (hLp : P1.L = P2.L)
    (hep : P1.ete = P2.ete) (hpp : P1.prof = P2.prof) (hbp : P1.bias = P2.bias)
    (hlo : lowAt P1 i = lowAt P2 j) (hhi : highAt P1 i = highAt P2 j)
    (hi : i < P1.n) (hj : j < P1.n)
    (readsP1 readsP2 : List (List Base))
    (hrlen1 : readsP1.length = P1.L) (hrlen2 : readsP2.length = P1.L)
    (hwr1 : ∀ rb ∈ readsP1, rb.length = P1.n)
    (hwr2 : ∀ rb ∈ readsP2, rb.length = P1.n)
    (hrproj : ∀ p, (readsP1.getD p []).getD i Base.N =
      (readsP2.getD p []).getD j Base.N)
    (nd : GNode) (sd1 sd2 : SeedCols) (tr1 tr2 : List LaneTrack)
    (tsc1 tsc2 : List Int) (sortedT1 sortedT2 : List (Nat × Nat))
    (trace1 trace2 : List (Nat × List Vec))
    (hsd : SeedRel P1.n P1.L i j sd1 sd2) (htr : TrRel P1.n i j tr1 tr2) :
    SeedRel P1.n P1.L i j
      (fillNode P1 readsP1 nd sd1 tr1 tsc1 sortedT1 trace1).1
      (fillNode P2 readsP2 nd sd2 tr2 tsc2 sortedT2 trace2).1 ∧
    TrRel P1.n i j
      (fillNode P1 readsP1 nd sd1 tr1 tsc1 sortedT1 trace1).2.1
      (fillNode P2 readsP2 nd sd2 tr2 tsc2 sortedT2 trace2).2.1 := by
  obtain ⟨hsl1, hsl2, hSrel, hIrel⟩ := hsd
  by_cases hseq : nd.seq.isEmpty
  · simp only [fillNode, hseq, if_pos]
    exact ⟨⟨hsl1, hsl2, hSrel, hIrel⟩, htr⟩
  · simp only [fillNode, hseq, if_neg, Bool.false_eq_true, not_false_iff]
    obtain ⟨ho1, ho2, hcS, hcI, hcT⟩ := fillCols_proj P1 P2 i j hn htp hLp hep
      hpp hbp hlo hhi hi hj readsP1 readsP2 hrlen1 hrlen2 hwr1 hwr2 hrproj
      nd.seq (nd.endPos + 2 - nd.seq.length) sd1.S sd1.I sd2.S sd2.I tr1 tr2
      (sortedT1.dropWhile (fun e => e.2 < nd.endPos + 2 - nd.seq.length)) tsc1
      trace1
      (sortedT2.dropWhile (fun e => e.2 < nd.endPos + 2 - nd.seq.length)) tsc2
      trace2 hsl1 hsl2 hSrel hIrel htr
    exact ⟨⟨ho1, ho2, hcS, hcI⟩, hcT⟩

theorem getv_mergeCol (P : Params) (preds : List Nat)
    (store : List (Nat × SeedCols)) (proj : SeedCols → List Vec)
    (old : List Vec) (r : Nat) (hr : r < P.L + 1) :
    getv (mergeCol P preds store proj old) r =
      if r = 0 then getv old 0
      else preds.foldl
        (fun a id => vmax a (getv (proj ((lookupSeed store id).getD ⟨[], []⟩)) r))
        (broadcast P.n P.bias) := by
  simp [mergeCol, getv, List.getD_eq_getElem?_getD, List.getElem?_map,
    List.getElem?_range, hr]

theorem foldl_vmax_length (n : ℕ) :
    ∀ (ids : List Nat) (f : Nat → Vec) (acc : Vec), acc.length = n →
      (∀ id ∈ ids, (f id).length = n) →
      (ids.foldl (fun a id => vmax a (f id)) acc).length = n := by
  intro ids
  induction ids with
  | nil => intro f acc h _; exact h
  | cons id rest ih =>
    intro f acc h hids
    refine ih f (vmax acc (f id)) ?_
      (fun x hx => hids x (List.mem_cons_of_mem _ hx))
    rw [vmax_length, h, hids id (List.mem_cons_self ..), Nat.min_self]

theorem foldl_vmax_proj (n i j : ℕ) (hi : i < n) (hj : j < n) :
    ∀ (ids : List Nat) (f1 f2 : Nat → Vec) (acc1 acc2 : Vec),
      acc1.length = n → acc2.length = n → lane acc1 i = lane acc2 j →
      (∀ id ∈ ids, (f1 id).length = n ∧ (f2 id).length = n ∧
        lane (f1 id) i = lane (f2 id) j) →
      lane (ids.foldl (fun a id => vmax a (f1 id)) acc1) i =
        lane (ids.foldl (fun a id => vmax a (f2 id)) acc2) j := by
  intro ids
  induction ids with
  | nil => intro f1 f2 acc1 acc2 _ _ hp _; exact hp
  | cons id rest ih =>
    intro f1 f2 acc1 acc2 h1 h2 hp hids
    obtain ⟨hf1, hf2, hfp⟩ := hids id (List.mem_cons_self ..)
    refine ih f1 f2 (vmax acc1 (f1 id)) (vmax acc2 (f2 id))
      (by rw [vmax_length, h1, hf1, Nat.min_self])
      (by rw [vmax_length, h2, hf2, Nat.min_self]) ?_
      (fun x hx => hids x (List.mem_cons_of_mem _ hx))
    rw [lane_vmax acc1 (f1 id) i (by rw [h1]; exact hi)
        (by rw [hf1]; exact hi),
      lane_vmax acc2 (f2 id) j (by rw [h2]; exact hj)
        (by rw [hf2]; exact hj),
      hp, hfp]

/-- Lane-projection relation between two runs' seed stores. -/
def StoreRel (n L i j : ℕ) (s1 s2 : List (Nat × SeedCols)) : Prop :=
  List.Forall₂ (fun a b => a.1 = b.1 ∧ SeedRel n L i j a.2 b.2) s1 s2

theorem lookupSeed_rel (n L i j : ℕ) :
    ∀ (s1 s2 : List (Nat × SeedCols)), StoreRel n L i j s1 s2 → ∀ id,
      (lookupSeed s1 id = none ∧ lookupSeed s2 id = none) ∨
      (∃ a b, lookupSeed s1 id = some a ∧ lookupSeed s2 id = some b ∧
        SeedRel n L i j a b) := by
  intro s1
  induction s1 with
  | nil =>
    intro s2 h id
    cases h
    left
    exact ⟨rfl, rfl⟩
  | cons e rest ih =>
    intro s2 h id
    cases h with
    | cons he htail =>
      rename_i b l₂
      obtain ⟨hk, hrel⟩ := he
      by_cases hid : e.1 = id
      · right
        refine ⟨e.2, b.2, ?_, ?_, hrel⟩
        · rcases e with ⟨k, s⟩
          simp_all [lookupSeed]
        · rcases b with ⟨k2, s2'⟩
          simp only [lookupSeed]
          rw [if_pos (by simp_all)]
      · have hb : b.1 ≠ id := by rw [← hk]; exact hid
        have h1 : lookupSeed (e :: rest) id = lookupSeed rest id := by
          rcases e with ⟨k, s⟩
          simp only [lookupSeed]
          rw [if_neg (by simpa using hid)]
        have h2 : lookupSeed (b :: l₂) id = lookupSeed l₂ id := by
          rcases b with ⟨k2, s2'⟩
          simp only [lookupSeed]
          rw [if_neg (by simpa using hb)]
        rw [h1, h2]
        exact ih l₂ htail id

theorem mergeCol_proj (P1 P2 : Params) (i j : Nat)
    (hn : P1.n = P2.n) (hLp : P1.L = P2.L) (hbp : P1.bias = P2.bias)
    (hi : i < P1.n) (hj : j < P1.n)
    (preds : List Nat) (store1 store2 : List (Nat × SeedCols))
    (hstore : StoreRel P1.n P1.L i j store1 store2)
    (hsome : ∀ id ∈ preds, (lookupSeed store1 id).isSome)
    (proj : SeedCols → List Vec)
    (hproj : ∀ a b, SeedRel P1.n P1.L i j a b →
      (proj a).length = P1.L + 1 ∧ ColsRel P1.n i j (proj a) (proj b))
    (old1 old2 : List Vec) (hol : old1.length = P1.L + 1)
    (horel : ColsRel P1.n i j old1 old2) :
    ColsRel P1.n i j (mergeCol P1 preds store1 proj old1)
      (mergeCol P2 preds store2 proj old2) := by
  have hsr : ∀ id ∈ preds, ∃ a b, lookupSeed store1 id = some a ∧
      lookupSeed store2 id = some b ∧ SeedRel P1.n P1.L i j a b := by
    intro id hid
    rcases lookupSeed_rel P1.n P1.L i j store1 store2 hstore id with
      ⟨hnone, _⟩ | hsome2
    · exact absurd (hsome id hid) (by rw [hnone]; simp)
    · exact hsome2
  have hrow1 : ∀ id ∈ preds, ∀ r, 1 ≤ r → r < P1.L + 1 →
      (getv (proj ((lookupSeed store1 id).getD ⟨[], []⟩)) r).length = P1.n ∧
      (getv (proj ((lookupSeed store2 id).getD ⟨[], []⟩)) r).length = P1.n ∧
      lane (getv (proj ((lookupSeed store1 id).getD ⟨[], []⟩)) r) i =
        lane (getv (proj ((lookupSeed store2 id).getD ⟨[], []⟩)) r) j := by
    intro id hid r _ hr
    obtain ⟨a, b, ha, hb, hrel⟩ := hsr id hid
    rw [ha, hb]
    simp only [Option.getD_some]
    obtain ⟨hpl, hplen, hw1, hw2, hp⟩ := hproj a b hrel
    exact ⟨getv_length_of_wf _ _ _ hw1 (by omega),
      getv_length_of_wf _ _ _ hw2 (by omega), hp r⟩
  refine ⟨by rw [mergeCol_len, mergeCol_len, hLp], ?_, ?_, ?_⟩
  · intro v hv
    rcases List.mem_map.mp hv with ⟨r, hrr, rfl⟩
    have hr : r < P1.L + 1 := by simpa using List.mem_range.mp hrr
    by_cases hr0 : r = 0
    · rw [if_pos hr0]
      exact getv_length_of_wf _ _ _ horel.2.1 (by omega)
    · rw [if_neg hr0]
      refine foldl_vmax_length P1.n preds _ _ (broadcast_length ..) ?_
      intro id hid
      exact (hrow1 id hid r (by omega) hr).1
  · intro v hv
    rcases List.mem_map.mp hv with ⟨r, hrr, rfl⟩
    have hr : r < P2.L + 1 := by simpa using List.mem_range.mp hrr
    by_cases hr0 : r = 0
    · rw [if_pos hr0]
      have h0 : (0 : Nat) < old2.length := by
        have := horel.1
        omega
      exact getv_length_of_wf _ _ _ horel.2.2.1 h0
    · rw [if_neg hr0]
      refine foldl_vmax_length P1.n preds _ _
        (by rw [broadcast_length]; omega) ?_
      intro id hid
      exact (hrow1 id hid r (by omega) (by omega)).2.1
  · intro r
    by_cases hr : r < P1.L + 1
    · rw [getv_mergeCol P1 preds store1 proj old1 r hr,
        getv_mergeCol P2 preds store2 proj old2 r (by omega)]
      by_cases hr0 : r = 0
      · rw [if_pos hr0, if_pos hr0]
        exact horel.2.2.2 0
      · rw [if_neg hr0, if_neg hr0]
        refine foldl_vmax_proj P1.n i j hi hj preds _ _ _ _
          (broadcast_length ..) (by rw [broadcast_length]; omega)
          ?_ (fun id hid => hrow1 id hid r (by omega) hr)
        rw [lane_broadcast _ _ _ hi, lane_broadcast _ _ _ (by omega : j < P2.n),
          hbp]
    · rw [getv_of_ge _ _ (by rw [mergeCol_len]; omega),
        getv_of_ge _ _ (by rw [mergeCol_len]; omega)]
      simp [lane]

theorem getSeed_proj (P1 P2 : Params) (i j : Nat)
    (hn : P1.n = P2.n) (hLp : P1.L = P2.L) (hbp : P1.bias = P2.bias)
    (hi : i < P1.n) (hj : j < P1.n)
    (preds : List Nat) (store1 store2 : List (Nat × SeedCols))
    (hstore : StoreRel P1.n P1.L i j store1 store2)
    (buf1 buf2 : SeedCols) (hbuf : SeedRel P1.n P1.L i j buf1 buf2)
    (s1 : SeedCols) (h : getSeed P1 preds store1 buf1 = .ok s1) :
    ∃ s2, getSeed P2 preds store2 buf2 = .ok s2 ∧
      SeedRel P1.n P1.L i j s1 s2 := by
  unfold getSeed at h ⊢
  split at h
  case isTrue hcond =>
    have hsome : ∀ id ∈ preds, (lookupSeed store1 id).isSome := by
      intro id hid
      have := List.all_eq_true.mp hcond id hid
      simpa using this
    have hsome2 : ∀ id ∈ preds, (lookupSeed store2 id).isSome = true := by
      intro id hid
      rcases lookupSeed_rel P1.n P1.L i j store1 store2 hstore id with
        ⟨hnone, _⟩ | ⟨a, b, _, hb, _⟩
      · exact absurd (hsome id hid) (by rw [hnone]; simp)
      · rw [hb]; rfl
    rw [if_pos (List.all_eq_true.mpr (fun id hid => by
      simpa using hsome2 id hid))]
    obtain ⟨hbl1, hbl2, hbS, hbI⟩ := hbuf
    have hs1 : s1 = ⟨mergeCol P1 preds store1 (fun s => s.S) buf1.S,
        mergeCol P1 preds store1 (fun s => s.I) buf1.I⟩ :=
      (Except.ok.inj h).symm
    refine ⟨_, rfl, ?_⟩
    rw [hs1]
    refine ⟨mergeCol_len .., mergeCol_len .., ?_, ?_⟩
    · exact mergeCol_proj P1 P2 i j hn hLp hbp hi hj preds store1 store2
        hstore hsome (fun s => s.S)
        (fun a b hr => ⟨hr.1, hr.2.2.1⟩) buf1.S buf2.S hbl1 hbS
    · exact mergeCol_proj P1 P2 i j hn hLp hbp hi hj preds store1 store2
        hstore hsome (fun s => s.I)
        (fun a b hr => ⟨hr.2.1, hr.2.2.2⟩) buf1.I buf2.I hbl2 hbI
  case isFalse =>
    exact absurd h (by simp)

/-- Walk-level lane projection: two successful walks over the same node list
with projected-equal packaged reads, windows, stores, seeds and trackers end
with projected-equal trackers. -/
theorem walkNodes_proj (P1 P2 : Params) (i j : Nat)
    (hn : P1.n = P2.n) (htp : P1.t = P2.t) (hLp : P1.L = P2.L)
    (hep : P1.ete = P2.ete) (hpp : P1.prof = P2.prof) (hbp : P1.bias = P2.bias)
    (hlo : lowAt P1 i = lowAt P2 j) (hhi : highAt P1 i = highAt P2 j)
    (hi : i < P1.n) (hj : j < P1.n)
    (readsP1 readsP2 : List (List Base))
    (hrlen1 : readsP1.length = P1.L) (hrlen2 : readsP2.length = P1.L)
    (hwr1 : ∀ rb ∈ readsP1, rb.length = P1.n)
    (hwr2 : ∀ rb ∈ readsP2, rb.length = P1.n)
    (hrproj : ∀ p, (readsP1.getD p []).getD i Base.N =
      (readsP2.getD p []).getD j Base.N)
    (sortedT1 sortedT2 : List (Nat × Nat)) :
    ∀ (nodes : List GNode) (store1 store2 : List (Nat × SeedCols))
      (buf1 buf2 : SeedCols) (tr1 tr2 : List LaneTrack)
      (tsc1 tsc2 : List Int) (trace1 trace2 : List (Nat × List Vec))
      (w1 w2 : List LaneTrack × List Int × List (Nat × List Vec)),
      StoreRel P1.n P1.L i j store1 store2 →
      SeedRel P1.n P1.L i j buf1 buf2 →
      TrRel P1.n i j tr1 tr2 →
      walkNodes P1 readsP1 sortedT1 nodes store1 buf1 tr1 tsc1 trace1 =
        .ok w1 →
      walkNodes P2 readsP2 sortedT2 nodes store2 buf2 tr2 tsc2 trace2 =
        .ok w2 →
      TrRel P1.n i j w1.1 w2.1 := by
  intro nodes
  induction nodes with
  | nil =>
    intro store1 store2 buf1 buf2 tr1 tr2 tsc1 tsc2 trace1 trace2 w1 w2 _ _
      htr h1 h2
    simp only [walkNodes, Except.ok.injEq] at h1 h2
    rw [← h1, ← h2]
    exact htr
  | cons nd rest ih =>
    intro store1 store2 buf1 buf2 tr1 tr2 tsc1 tsc2 trace1 trace2 w1 w2
      hstore hbuf htr h1 h2
    simp only [walkNodes] at h1 h2
    cases hseed1 : getSeed P1 nd.preds store1 buf1 with
    | error e =>
      rw [hseed1] at h1
      simp at h1
    | ok inSeed1 =>
      rw [hseed1] at h1
      simp only [] at h1
      obtain ⟨inSeed2, hseed2, hinrel⟩ := getSeed_proj P1 P2 i j hn hLp hbp
        hi hj nd.preds store1 store2 hstore buf1 buf2 hbuf inSeed1 hseed1
      rw [hseed2] at h2
      simp only [] at h2
      obtain ⟨hfS, hfT⟩ := fillNode_proj P1 P2 i j hn htp hLp hep hpp hbp hlo
        hhi hi hj readsP1 readsP2 hrlen1 hrlen2 hwr1 hwr2 hrproj nd inSeed1
        inSeed2 tr1 tr2 tsc1 tsc2 sortedT1 sortedT2 trace1 trace2 hinrel htr
      refine ih _ _ _ _ _ _ _ _ _ _ w1 w2 ?_ hinrel hfT h1 h2
      refine List.Forall₂.cons ⟨rfl, hfS⟩ ?_
      by_cases hp : nd.pinched
      · rw [if_pos hp, if_pos hp]
        exact List.Forall₂.nil
      · rw [if_neg hp, if_neg hp]
        exact hstore

theorem packageReads_wf (n L : ℕ) (reads : List (List Base)) :
    ∀ rb ∈ packageReads n L reads, rb.length = n := by
  intro rb h
  rcases List.mem_map.mp h with ⟨p, _, rfl⟩
  simp

theorem packageReads_proj_all (n L : ℕ) (reads1 reads2 : List (List Base))
    (i j : Nat) (hi : i < n) (hj : j < n)
    (hread : reads1.getD i [] = reads2.getD j []) :
    ∀ p, ((packageReads n L reads1).getD p []).getD i Base.N =
      ((packageReads n L reads2).getD p []).getD j Base.N := by
  intro p
  by_cases hp : p < L
  · rw [packageReads_proj n L reads1 i p hi hp,
      packageReads_proj n L reads2 j p hj hp, hread]
  · have e1 : (packageReads n L reads1).getD p [] = [] := by
      rw [List.getD_eq_getElem?_getD,
        List.getElem?_eq_none (by rw [packageReads_len]; omega)]
      rfl
    have e2 : (packageReads n L reads2).getD p [] = [] := by
      rw [List.getD_eq_getElem?_getD,
        List.getElem?_eq_none (by rw [packageReads_len]; omega)]
      rfl
    rw [e1, e2]
    simp

theorem seedMatrix_row (P : Params) (r : Nat) (hr : r < P.L + 1) :
    ∃ x, getv (seedMatrix P).S r = broadcast P.n x := by
  unfold seedMatrix
  by_cases h : P.ete
  · by_cases hr0 : r = 0
    · refine ⟨P.bias, ?_⟩
      simp [h, getv, List.getD_eq_getElem?_getD, List.getElem?_map,
        List.getElem?_range, hr, hr0]
    · refine ⟨sat P.t (sat P.t (P.bias - P.prof.read_gopen) -
        ((r - 1) * P.prof.read_gext : Nat)), ?_⟩
      simp [h, getv, List.getD_eq_getElem?_getD, List.getElem?_map,
        List.getElem?_range, hr, hr0]
  · refine ⟨P.bias, ?_⟩
    simp [h, getv, broadcast, List.getD_eq_getElem?_getD,
      List.getElem?_replicate, hr]

theorem seedMatrix_congr (P P' : Params) (hn : P.n = P'.n) (ht : P.t = P'.t)
    (hL : P.L = P'.L) (he : P.ete = P'.ete) (hp : P.prof = P'.prof)
    (hb : P.bias = P'.bias) : seedMatrix P = seedMatrix P' := by
  unfold seedMatrix
  simp only [hn, ht, hL, he, hp, hb]

theorem seedMatrix_selfRel (P : Params) (i j : Nat) (hi : i < P.n)
    (hj : j < P.n) : SeedRel P.n P.L i j (seedMatrix P) (seedMatrix P) := by
  have hwf : WFCols P.n (seedMatrix P).S := wf_seedMatrix P
  have hlen := (seedMatrix_len P).1
  have hconst : ∀ r, lane (getv (seedMatrix P).S r) i =
      lane (getv (seedMatrix P).S r) j := by
    intro r
    by_cases hr : r < P.L + 1
    · obtain ⟨x, hx⟩ := seedMatrix_row P r hr
      rw [hx, lane_broadcast _ _ _ hi, lane_broadcast _ _ _ hj]
    · rw [getv_of_ge _ _ (by omega)]
      simp [lane]
  have hIS : (seedMatrix P).I = (seedMatrix P).S := rfl
  refine ⟨hlen, by rw [hIS]; exact hlen, ⟨rfl, hwf, hwf, hconst⟩, ?_⟩
  rw [hIS]
  exact ⟨rfl, hwf, hwf, hconst⟩

theorem trackAt_replicate (n : ℕ) (t : LaneTy) (i : Nat) (hi : i < n) :
    trackAt (List.replicate n (initLane t)) i = initLane t := by
  simp [trackAt, List.getD_eq_getElem?_getD, List.getElem?_replicate, hi]

/-- Claim C9: lane noninterference.  Aligning a read against the same graph
with the same aligner in two different batch compositions — any read lists
and target lists that place the read (with equal target) at lane `i` of one
run and lane `j` of the other — produce identical per-lane results:
max/sub scores, positions, counts and the correctness flag all coincide,
so padding lanes (packaged as all-`N` columns) never leak into a real lane. -/
theorem claim9_noninterference (n : ℕ) (t : LaneTy) (ete : Bool) (L : Nat)
    (st : AlignerState) (reads1 reads2 : List (List Base))
    (targets1 targets2 : List Nat) (nodes : List GNode) (o1 o2 : AlignOut)
    (i j : Nat)
    (h1 : alignInto n t ete L st reads1 targets1 nodes = .ok o1)
    (h2 : alignInto n t ete L st reads2 targets2 nodes = .ok o2)
    (hi : i < n) (hj : j < n)
    (hread : reads1.getD i [] = reads2.getD j [])
    (hiT : i < min reads1.length targets1.length)
    (hjT : j < min reads2.length targets2.length)
    (hT : targets1.getD i 0 = targets2.getD j 0) :
    laneOf o1 i = laneOf o2 j := by
  match nodes with
  | [] => simp [alignInto] at h1
  | nd0 :: rest =>
    simp only [alignInto] at h1 h2
    cases hw1 : walkNodes (mkParams n t ete L st reads1.length targets1) (packageReads n L reads1) (sortTargets (targetEntries n reads1.length targets1)) rest [(nd0.id, (fillNode (mkParams n t ete L st reads1.length targets1) (packageReads n L reads1) nd0 (seedMatrix (mkParams n t ete L st reads1.length targets1)) (List.replicate n (initLane t)) (List.replicate n intMin32) (sortTargets (targetEntries n reads1.length targets1)) []).1)] (seedMatrix (mkParams n t ete L st reads1.length targets1)) (fillNode (mkParams n t ete L st reads1.length targets1) (packageReads n L reads1) nd0 (seedMatrix (mkParams n t ete L st reads1.length targets1)) (List.replicate n (initLane t)) (List.replicate n intMin32) (sortTargets (targetEntries n reads1.length targets1)) []).2.1 (fillNode (mkParams n t ete L st reads1.length targets1) (packageReads n L reads1) nd0 (seedMatrix (mkParams n t ete L st reads1.length targets1)) (List.replicate n (initLane t)) (List.replicate n intMin32) (sortTargets (targetEntries n reads1.length targets1)) []).2.2.1 (fillNode (mkParams n t ete L st reads1.length targets1) (packageReads n L reads1) nd0 (seedMatrix (mkParams n t ete L st reads1.length targets1)) (List.replicate n (initLane t)) (List.replicate n intMin32) (sortTargets (targetEntries n reads1.length targets1)) []).2.2.2 with
    | error e =>
      rw [hw1] at h1
      simp [Except.map] at h1
    | ok w1 =>
    cases hw2 : walkNodes (mkParams n t ete L st reads2.length targets2) (packageReads n L reads2) (sortTargets (targetEntries n reads2.length targets2)) rest [(nd0.id, (fillNode (mkParams n t ete L st reads2.length targets2) (packageReads n L reads2) nd0 (seedMatrix (mkParams n t ete L st reads2.length targets2)) (List.replicate n (initLane t)) (List.replicate n intMin32) (sortTargets (targetEntries n reads2.length targets2)) []).1)] (seedMatrix (mkParams n t ete L st reads2.length targets2)) (fillNode (mkParams n t ete L st reads2.length targets2) (packageReads n L reads2) nd0 (seedMatrix (mkParams n t ete L st reads2.length targets2)) (List.replicate n (initLane t)) (List.replicate n intMin32) (sortTargets (targetEntries n reads2.length targets2)) []).2.1 (fillNode (mkParams n t ete L st reads2.length targets2) (packageReads n L reads2) nd0 (seedMatrix (mkParams n t ete L st reads2.length targets2)) (List.replicate n (initLane t)) (List.replicate n intMin32) (sortTargets (targetEntries n reads2.length targets2)) []).2.2.1 (fillNode (mkParams n t ete L st reads2.length targets2) (packageReads n L reads2) nd0 (seedMatrix (mkParams n t ete L st reads2.length targets2)) (List.replicate n (initLane t)) (List.replicate n intMin32) (sortTargets (targetEntries n reads2.length targets2)) []).2.2.2 with
    | error e =>
      rw [hw2] at h2
      simp [Except.map] at h2
    | ok w2 =>
      rw [hw1] at h1
      rw [hw2] at h2
      simp only [Except.map, Except.ok.injEq] at h1 h2
      have hlo : lowAt (mkParams n t ete L st reads1.length targets1) i = lowAt (mkParams n t ete L st reads2.length targets2) j := by
        rw [lowAt_mkParams n t ete L st reads1.length targets1 i hi,
          lowAt_mkParams n t ete L st reads2.length targets2 j hj,
          if_pos hiT, if_pos hjT, hT]
      have hhi : highAt (mkParams n t ete L st reads1.length targets1) i = highAt (mkParams n t ete L st reads2.length targets2) j := by
        rw [highAt_mkParams n t ete L st reads1.length targets1 i hi,
          highAt_mkParams n t ete L st reads2.length targets2 j hj,
          if_pos hiT, if_pos hjT, hT]
      have hbufrel : SeedRel (mkParams n t ete L st reads1.length targets1).n (mkParams n t ete L st reads1.length targets1).L i j
          (seedMatrix (mkParams n t ete L st reads1.length targets1)) (seedMatrix (mkParams n t ete L st reads2.length targets2)) := by
        rw [← seedMatrix_congr (mkParams n t ete L st reads1.length targets1) (mkParams n t ete L st reads2.length targets2) rfl rfl rfl rfl rfl rfl]
        exact seedMatrix_selfRel (mkParams n t ete L st reads1.length targets1) i j hi hj
      have htrrel : TrRel (mkParams n t ete L st reads1.length targets1).n i j (List.replicate n (initLane t))
          (List.replicate n (initLane t)) :=
        ⟨by rw [List.length_replicate]; exact rfl,
         by rw [List.length_replicate]; exact rfl, by
          rw [trackAt_replicate n t i hi, trackAt_replicate n t j hj]⟩
      obtain ⟨hfS, hfT⟩ := fillNode_proj (mkParams n t ete L st reads1.length targets1) (mkParams n t ete L st reads2.length targets2) i j rfl rfl rfl rfl rfl rfl
        hlo hhi hi hj (packageReads n L reads1) (packageReads n L reads2) (packageReads_len n L reads1)
        (packageReads_len n L reads2) (packageReads_wf n L reads1)
        (packageReads_wf n L reads2)
        (packageReads_proj_all n L reads1 reads2 i j hi hj hread) nd0
        (seedMatrix (mkParams n t ete L st reads1.length targets1)) (seedMatrix (mkParams n t ete L st reads2.length targets2)) (List.replicate n (initLane t))
        (List.replicate n (initLane t)) (List.replicate n intMin32)
        (List.replicate n intMin32) (sortTargets (targetEntries n reads1.length targets1)) (sortTargets (targetEntries n reads2.length targets2)) [] [] hbufrel htrrel
      have hwrel := walkNodes_proj (mkParams n t ete L st reads1.length targets1) (mkParams n t ete L st reads2.length targets2) i j rfl rfl rfl rfl rfl rfl
        hlo hhi hi hj (packageReads n L reads1) (packageReads n L reads2) (packageReads_len n L reads1)
        (packageReads_len n L reads2) (packageReads_wf n L reads1)
        (packageReads_wf n L reads2)
        (packageReads_proj_all n L reads1 reads2 i j hi hj hread) (sortTargets (targetEntries n reads1.length targets1)) (sortTargets (targetEntries n reads2.length targets2))
        rest [(nd0.id, (fillNode (mkParams n t ete L st reads1.length targets1) (packageReads n L reads1) nd0 (seedMatrix (mkParams n t ete L st reads1.length targets1)) (List.replicate n (initLane t)) (List.replicate n intMin32) (sortTargets (targetEntries n reads1.length targets1)) []).1)] [(nd0.id, (fillNode (mkParams n t ete L st reads2.length targets2) (packageReads n L reads2) nd0 (seedMatrix (mkParams n t ete L st reads2.length targets2)) (List.replicate n (initLane t)) (List.replicate n intMin32) (sortTargets (targetEntries n reads2.length targets2)) []).1)] (seedMatrix (mkParams n t ete L st reads1.length targets1))
        (seedMatrix (mkParams n t ete L st reads2.length targets2)) (fillNode (mkParams n t ete L st reads1.length targets1) (packageReads n L reads1) nd0 (seedMatrix (mkParams n t ete L st reads1.length targets1)) (List.replicate n (initLane t)) (List.replicate n intMin32) (sortTargets (targetEntries n reads1.length targets1)) []).2.1 (fillNode (mkParams n t ete L st reads2.length targets2) (packageReads n L reads2) nd0 (seedMatrix (mkParams n t ete L st reads2.length targets2)) (List.replicate n (initLane t)) (List.replicate n intMin32) (sortTargets (targetEntries n reads2.length targets2)) []).2.1 (fillNode (mkParams n t ete L st reads1.length targets1) (packageReads n L reads1) nd0 (seedMatrix (mkParams n t ete L st reads1.length targets1)) (List.replicate n (initLane t)) (List.replicate n intMin32) (sortTargets (targetEntries n reads1.length targets1)) []).2.2.1 (fillNode (mkParams n t ete L st reads2.length targets2) (packageReads n L reads2) nd0 (seedMatrix (mkParams n t ete L st reads2.length targets2)) (List.replicate n (initLane t)) (List.replicate n intMin32) (sortTargets (targetEntries n reads2.length targets2)) []).2.2.1
        (fillNode (mkParams n t ete L st reads1.length targets1) (packageReads n L reads1) nd0 (seedMatrix (mkParams n t ete L st reads1.length targets1)) (List.replicate n (initLane t)) (List.replicate n intMin32) (sortTargets (targetEntries n reads1.length targets1)) []).2.2.2 (fillNode (mkParams n t ete L st reads2.length targets2) (packageReads n L reads2) nd0 (seedMatrix (mkParams n t ete L st reads2.length targets2)) (List.replicate n (initLane t)) (List.replicate n intMin32) (sortTargets (targetEntries n reads2.length targets2)) []).2.2.2 w1 w2
        (List.Forall₂.cons ⟨rfl, hfS⟩ List.Forall₂.nil) hbufrel hfT hw1 hw2
      have hl1 : laneOf o1 i = trackAt w1.1 i := by
        rw [← h1]
        rfl
      have hl2 : laneOf o2 j = trackAt w2.1 j := by
        rw [← h2]
        rfl
      rw [hl1, hl2]
      exact hwrel.2.2

/-- The read `AC`, padding content for the C9 witness. -/
def readAC : List Base := [Base.A, Base.C]

/-- C9 witness, run 1: read `AA` alone in a two-lane batch (lane 1 padded). -/
def w9a : AlignOut := okOut (alignInto 2 int8 false 2 cexSt [readAA] [2] w8G)

/-- C9 witness, run 2: the same read `AA` in lane 1 behind another read. -/
def w9b : AlignOut :=
  okOut (alignInto 2 int8 false 2 cexSt [readAC, readAA] [1, 2] w8G)

set_option maxRecDepth 100000 in
/-- Witness for C9 at a concrete pair of runs: the same read and target in
lane 0 of a padded batch and in lane 1 of a full batch give the same lane
results. -/
theorem claim9_noninterference_witness :
    alignInto 2 int8 false 2 cexSt [readAA] [2] w8G = .ok w9a ∧
    alignInto 2 int8 false 2 cexSt [readAC, readAA] [1, 2] w8G = .ok w9b ∧
    ([readAA] : List (List Base)).getD 0 [] =
      ([readAC, readAA] : List (List Base)).getD 1 [] ∧
    laneOf w9a 0 = laneOf w9b 1 :=
  ⟨rfl, rfl, rfl,
   claim9_noninterference 2 int8 false 2 cexSt [readAA] [readAC, readAA]
     [2] [1, 2] w8G w9a w9b 0 1 rfl rfl (by decide) (by decide) rfl
     (by decide) (by decide) rfl⟩

end Vargas
